import Mathlib

/-!
The yadro_course search services: a shallow embedding.

Go maps are association lists read through `mget` and written through `mset`;
a map's iteration order is the order of some list of its entries. Slices are
lists (a nil slice and an empty slice are both `[]`). Go's `int` is `Int`,
`error` results are `Except`. Collaborators behind interfaces (the store, the
normalizer, the SQL engine) are functions passed in as parameters.
-/

set_option autoImplicit false

/-! ## Go maps -/

namespace GoMap

/-- Reading `m[k]` with the comma-ok form: the value stored under `k`, if any. -/
def mget {κ ν : Type} [DecidableEq κ] : List (κ × ν) → κ → Option ν
  | [], _ => none
  | (k', v) :: rest, k => if k' = k then some v else mget rest k

/-- Writing `m[k] = v`: overwrite the entry of `k` or add a new one. -/
def mset {κ ν : Type} [DecidableEq κ] : List (κ × ν) → κ → ν → List (κ × ν)
  | [], k, v => [(k, v)]
  | (k', v') :: rest, k, v =>
    if k' = k then (k, v) :: rest else (k', v') :: mset rest k v

/-- Keys of a map. -/
def keys {κ ν : Type} (m : List (κ × ν)) : List κ := m.map Prod.fst

end GoMap

/-! ## search/core -/

namespace SearchCore

open GoMap

/-- Errors of `search/core/errors.go`; `ErrOther` stands for any error a collaborator returns. -/
inductive Err where
  | ErrBadArguments
  | ErrNilDependency
  | ErrRequestTooLarge
  | ErrOther (code : Nat)
  deriving DecidableEq, Repr

/-- Comic of `search/core/models.go`. -/
structure Comic where
  ID : Int
  URL : String
  deriving DecidableEq, Repr

/-- Index of `search/core/models.go`: `map[string][]int`. -/
abbrev Index := List (String × List Int)

/-- SearchParams of `search/core/models.go`. -/
structure SearchParams where
  Phrase : String
  Limit : Int

/-- SearchResult of `search/core/models.go`. -/
structure SearchResult where
  Comics : List Comic
  Total : Int
  deriving DecidableEq, Repr

/-- Storage of `search/core/ports.go`. -/
structure Storage where
  SearchComics : List String → Int → Except Err (List Comic × Int)
  LoadIndexData : Except Err (List (Int × List String))
  GetComicsByIDs : List Int → Except Err (List Comic)

/-- Words of `search/core/ports.go`. -/
structure Words where
  Norm : String → Except Err (List String)

/-- Service of `search/core/service.go` (the logger and the lock carry no data). -/
structure Service where
  store : Storage
  words : Words
  index : Index

def defaultLimit : Int := 10

def maxPhraseLen : Nat := 4096

/-- The function `normalizeLimit`. -/
def normalizeLimit (limit : Int) : Except Err Int :=
  if limit < 0 then .error .ErrBadArguments
  else if limit = 0 then .ok defaultLimit
  else .ok limit

/-- White space as `unicode.IsSpace` defines it. -/
def isSpace (c : Char) : Bool :=
  c = '\t' || c = '\n' || c.val = 0x0B || c.val = 0x0C || c = '\r' || c = ' '
    || c.val = 0x85 || c.val = 0xA0 || c.val = 0x1680
    || (0x2000 ≤ c.val && c.val ≤ 0x200A)
    || c.val = 0x2028 || c.val = 0x2029 || c.val = 0x202F || c.val = 0x205F
    || c.val = 0x3000

/-- The library function `strings.TrimSpace`: drop leading and trailing white space. -/
def trimSpace (s : String) : String :=
  ⟨((s.data.dropWhile isSpace).reverse.dropWhile isSpace).reverse⟩

/-- The function `sanitizePhrase`; `len(p)` is the length in bytes. -/
def sanitizePhrase (phrase : String) : Except Err String :=
  let p := trimSpace phrase
  if p = "" then .error .ErrBadArguments
  else if p.utf8ByteSize > maxPhraseLen then .error .ErrRequestTooLarge
  else .ok p

/-- The loop of `deduplicateWords`: `seen` is the set of words met, `result` the slice built. -/
def dedupLoop : List String → List String → List String → List String
  | [], _, result => result
  | w :: ws, seen, result =>
    if w = "" then dedupLoop ws seen result
    else if w ∈ seen then dedupLoop ws seen result
    else dedupLoop ws (w :: seen) (result ++ [w])

/-- The function `deduplicateWords`. -/
def deduplicateWords (words : List String) : List String :=
  if words.length = 0 then [] else dedupLoop words [] []

/-- What the loop of `deduplicateWords` appends to `result`. -/
def keep : List String → List String → List String
  | [], _ => []
  | w :: ws, seen =>
    if w = "" ∨ w ∈ seen then keep ws seen else w :: keep ws (w :: seen)

/-- The statement `counts[id]++`. -/
def bump (counts : List (Int × Nat)) (id : Int) : List (Int × Nat) :=
  mset counts id ((mget counts id).getD 0 + 1)

/-- The counting loop of `rankIDs` over the words. -/
def countWords (index : Index) : List String → List (Int × Nat) → List (Int × Nat)
  | [], counts => counts
  | word :: ws, counts =>
    match mget index word with
    | none => countWords index ws counts
    | some ids => countWords index ws (ids.foldl bump counts)

/-- The comparison handed to `sort.Slice` in `rankIDs`, on `(id, matches)` entries. -/
def less (a b : Int × Nat) : Bool :=
  if a.2 = b.2 then decide (a.1 < b.1) else decide (a.2 > b.2)

/-- One entry may stand before another in the sorted slice when the other is not `less` than it. -/
def notAfter (a b : Int × Nat) : Prop := less b a = false

instance : DecidableRel notAfter := fun a b => inferInstanceAs (Decidable (less b a = false))

/-- The call `sort.Slice(ranked, less)`. -/
def sortRanked (ranked : List (Int × Nat)) : List (Int × Nat) :=
  ranked.insertionSort notAfter

/-- The tail of `rankIDs` from one iteration order `entries` of the `counts` map on. -/
def rankEntries (entries : List (Int × Nat)) : List Int :=
  (sortRanked entries).map Prod.fst

/-- The method `rankIDs`. -/
def rankIDs (s : Service) (words : List String) : List Int :=
  if s.index.length = 0 ∨ words.length = 0 then []
  else rankEntries (countWords s.index words [])

/-- The number of the terms whose posting list contains `id`; a term absent from the index
has no posting list and counts for nothing. -/
def nMatches (index : Index) (terms : List String) (id : Int) : Nat :=
  (terms.filter (fun t => decide (id ∈ (mget index t).getD []))).length

/-- The set of the ids that occur in the posting list of at least one of the terms. -/
def matchedIDs (index : Index) (terms : List String) : Finset Int :=
  (terms.flatMap (fun t => (mget index t).getD [])).toFinset

/-- The function `orderComics`. -/
def orderComics (source : List Comic) (order : List Int) : List Comic :=
  if source.length = 0 ∨ order.length = 0 then []
  else
    let m : List (Int × Comic) := source.foldl (fun m comic => mset m comic.ID comic) []
    order.filterMap (fun id => mget m id)

/-- The statement `if len(ranked) > limit { ranked = ranked[:limit] }`. -/
def truncateRanked (ranked : List Int) (limit : Int) : List Int :=
  if (ranked.length : Int) > limit then ranked.take limit.toNat else ranked

/-- The method `Search`. -/
def Search (s : Service) (params : SearchParams) : Except Err SearchResult :=
  match normalizeLimit params.Limit with
  | .error e => .error e
  | .ok limit =>
    match sanitizePhrase params.Phrase with
    | .error e => .error e
    | .ok phrase =>
      match s.words.Norm phrase with
      | .error e => .error e
      | .ok ws =>
        if ws.length = 0 then .ok ⟨[], 0⟩
        else
          match s.store.SearchComics ws limit with
          | .error e => .error e
          | .ok (comics, total) => .ok ⟨comics, total⟩

/-- The method `ISearch`. -/
def ISearch (s : Service) (params : SearchParams) : Except Err SearchResult :=
  match normalizeLimit params.Limit with
  | .error e => .error e
  | .ok limit =>
    match sanitizePhrase params.Phrase with
    | .error e => .error e
    | .ok phrase =>
      match s.words.Norm phrase with
      | .error e => .error e
      | .ok ws0 =>
        let ws := deduplicateWords ws0
        if ws.length = 0 then .ok ⟨[], 0⟩
        else
          let ranked := rankIDs s ws
          let total := ranked.length
          if total = 0 then .ok ⟨[], 0⟩
          else
            let top := truncateRanked ranked limit
            match s.store.GetComicsByIDs top with
            | .error e => .error e
            | .ok comics => .ok ⟨orderComics comics top, (total : Int)⟩

/-- The statement `newIndex[word] = append(newIndex[word], id)`. -/
def appendPosting (newIndex : Index) (word : String) (id : Int) : Index :=
  mset newIndex word ((mget newIndex word).getD [] ++ [id])

/-- The inner loop of `RebuildIndex` over the words of one row. -/
def indexRow (id : Int) : List String → List String → Index → Index
  | [], _, newIndex => newIndex
  | word :: ws, seen, newIndex =>
    if word = "" then indexRow id ws seen newIndex
    else if word ∈ seen then indexRow id ws seen newIndex
    else indexRow id ws (word :: seen) (appendPosting newIndex word id)

/-- The outer loop of `RebuildIndex`; `data` lists the rows in the order the map yields them. -/
def indexRows : List (Int × List String) → Index → Index
  | [], newIndex => newIndex
  | (id, words) :: rest, newIndex =>
    if words.length = 0 then indexRows rest newIndex
    else indexRows rest (indexRow id words [] newIndex)

/-- The call `sort.Ints`. -/
def sortInts (ids : List Int) : List Int := ids.insertionSort (· ≤ ·)

/-- The second loop of `RebuildIndex`: sort every posting list. -/
def sortPostings (newIndex : Index) : Index :=
  newIndex.map (fun e => (e.1, sortInts e.2))

/-- The index `RebuildIndex` builds from the loaded rows. -/
def buildIndex (data : List (Int × List String)) : Index :=
  sortPostings (indexRows data [])

/-- The ids of the rows, in the order of iteration, whose words contain the non-empty term. -/
def rowsOf (data : List (Int × List String)) (term : String) : List Int :=
  (data.filter (fun r => decide (term ∈ keep r.2 []))).map Prod.fst

/-- The method `RebuildIndex`: the service after the call, or the load error. -/
def RebuildIndex (s : Service) : Except Err Service :=
  match s.store.LoadIndexData with
  | .error e => .error e
  | .ok data => .ok { s with index := buildIndex data }

/-- The method `RebuildIndex` as a change of the service: the error returned and the service
after the call. The index is assigned only after the load has succeeded. -/
def Service.RebuildIndex (s : Service) : Option Err × Service :=
  match s.store.LoadIndexData with
  | .error err => (some err, s)
  | .ok data => (none, { s with index := buildIndex data })

end SearchCore

/-! ## search/adapters/db -/

namespace SearchDB

open SearchCore

/-- The database connection as `SearchComics` uses it: the ranked `SELECT ... LIMIT $2` and the
`SELECT COUNT(*)` over the same match condition, each answering with rows or an error. -/
structure Conn where
  selectRanked : List String → Int → Except Err (List Comic)
  countMatching : List String → Except Err Int

/-- The method `DB.SearchComics`. -/
def SearchComics (db : Conn) (words : List String) (limit : Int) :
    Except Err (List Comic × Int) :=
  if words.length = 0 then .ok ([], 0)
  else
    match db.selectRanked words limit with
    | .error e => .error e
    | .ok comics =>
      match db.countMatching words with
      | .error e => .error e
      | .ok total =>
        let total := if limit > 0 ∧ total > limit then limit else total
        .ok (comics, total)

/-- A connection for the example of a limit of 2 and 5 matching rows. -/
def exampleConn : Conn where
  selectRanked := fun _ _ => .ok [⟨1, "url1"⟩, ⟨2, "url2"⟩]
  countMatching := fun _ => .ok 5

end SearchDB

/-! ## update/core -/

namespace UpdateCore

/-- A Go string: its bytes. -/
abbrev Bytes := List Nat

def RuneError : Nat := 0xFFFD

/-- The table `first` of `unicode/utf8`: what the first byte of a sequence announces
(`0xF0` ASCII, `0xF1` invalid, otherwise accept-range index * 16 + size). -/
def first (b : Nat) : Nat :=
  if b < 0x80 then 0xF0
  else if b < 0xC2 then 0xF1
  else if b < 0xE0 then 0x02
  else if b = 0xE0 then 0x13
  else if b < 0xED then 0x03
  else if b = 0xED then 0x23
  else if b < 0xF0 then 0x03
  else if b = 0xF0 then 0x34
  else if b < 0xF4 then 0x04
  else if b = 0xF4 then 0x44
  else 0xF1

/-- The table `acceptRanges` of `unicode/utf8`: the range allowed for the second byte. -/
def acceptRanges (i : Nat) : Nat × Nat :=
  match i with
  | 0 => (0x80, 0xBF)
  | 1 => (0xA0, 0xBF)
  | 2 => (0x80, 0x9F)
  | 3 => (0x90, 0xBF)
  | 4 => (0x80, 0x8F)
  | _ => (0, 0)

/-- The library function `utf8.DecodeRuneInString`: the rune at the start of `s` and its width
in bytes; `(RuneError, 1)` for an invalid encoding, `(RuneError, 0)` for the empty string. -/
def DecodeRuneInString (s : Bytes) : Nat × Nat :=
  let n := s.length
  if n < 1 then (RuneError, 0)
  else
    let s0 := s.getD 0 0
    let x := first s0
    if x ≥ 0xF0 then (if x = 0xF1 then RuneError else s0, 1)
    else
      let sz := x &&& 7
      let accept := acceptRanges (x >>> 4)
      if n < sz then (RuneError, 1)
      else
        let s1 := s.getD 1 0
        if s1 < accept.1 ∨ accept.2 < s1 then (RuneError, 1)
        else if sz ≤ 2 then (((s0 &&& 0x1F) <<< 6) ||| (s1 &&& 0x3F), 2)
        else
          let s2 := s.getD 2 0
          if s2 < 0x80 ∨ 0xBF < s2 then (RuneError, 1)
          else if sz ≤ 3 then
            (((s0 &&& 0x0F) <<< 12) ||| ((s1 &&& 0x3F) <<< 6) ||| (s2 &&& 0x3F), 3)
          else
            let s3 := s.getD 3 0
            if s3 < 0x80 ∨ 0xBF < s3 then (RuneError, 1)
            else
              (((s0 &&& 0x07) <<< 18) ||| ((s1 &&& 0x3F) <<< 12) ||| ((s2 &&& 0x3F) <<< 6)
                ||| (s3 &&& 0x3F), 4)

/-- The body of `DecodeRuneInString` as a function of the length of the string and of its
first four bytes. -/
def decodeCore (n s0 s1 s2 s3 : Nat) : Nat × Nat :=
  if n < 1 then (RuneError, 0)
  else
    let x := first s0
    if x ≥ 0xF0 then (if x = 0xF1 then RuneError else s0, 1)
    else
      let sz := x &&& 7
      let accept := acceptRanges (x >>> 4)
      if n < sz then (RuneError, 1)
      else if s1 < accept.1 ∨ accept.2 < s1 then (RuneError, 1)
      else if sz ≤ 2 then (((s0 &&& 0x1F) <<< 6) ||| (s1 &&& 0x3F), 2)
      else if s2 < 0x80 ∨ 0xBF < s2 then (RuneError, 1)
      else if sz ≤ 3 then
        (((s0 &&& 0x0F) <<< 12) ||| ((s1 &&& 0x3F) <<< 6) ||| (s2 &&& 0x3F), 3)
      else if s3 < 0x80 ∨ 0xBF < s3 then (RuneError, 1)
      else
        (((s0 &&& 0x07) <<< 18) ||| ((s1 &&& 0x3F) <<< 12) ||| ((s2 &&& 0x3F) <<< 6)
          ||| (s3 &&& 0x3F), 4)

/-- The loop of `truncateUTF8ToBytes` started at index `i`: the index at which it stops, or
`none` when `fuel` iterations were not enough. -/
def truncateLoop : Nat → Bytes → Int → Nat → Option Nat
  | 0, _, _, _ => none
  | fuel + 1, s, limit, i =>
    if i < s.length then
      let size := (DecodeRuneInString (s.drop i)).2
      if ((i + size : Nat) : Int) > limit then some i
      else truncateLoop fuel s limit (i + size)
    else some i

/-- The function `truncateUTF8ToBytes`; the loop is given `len(s) + 1` iterations. -/
def truncateUTF8ToBytes (s : Bytes) (limit : Int) : Option Bytes :=
  if (s.length : Int) ≤ limit then some s
  else (truncateLoop (s.length + 1) s limit 0).map (fun i => s.take i)

/-- The indices at which decoding `s` rune by rune from `i` on starts a rune, and the index
at which it ends. -/
def boundariesFrom : Nat → Bytes → Nat → List Nat
  | 0, _, i => [i]
  | fuel + 1, s, i =>
    if i < s.length then i :: boundariesFrom fuel s (i + (DecodeRuneInString (s.drop i)).2)
    else [i]

/-- The code-point boundaries of `s`: `0`, the start of every further rune, and `len(s)`. -/
def boundaries (s : Bytes) : List Nat := boundariesFrom s.length s 0

/-- Decoding the whole of `s` never meets an invalid encoding (at most `fuel` runes are read). -/
def validLoop : Nat → Bytes → Bool
  | 0, s => s.isEmpty
  | fuel + 1, s =>
    if s.length = 0 then true
    else
      let d := DecodeRuneInString s
      if d.1 = RuneError ∧ d.2 = 1 then false else validLoop fuel (s.drop d.2)

/-- The library function `utf8.ValidString`: `s` consists of valid UTF-8 encodings only. -/
def ValidString (s : Bytes) : Bool := validLoop s.length s

end UpdateCore

/-! ## update/core: the service -/

namespace UpdateCore

/-- Modelled from the spec: the error values of update/core, whose declarations are not among
the sources. `ErrCanceled` is what `ctx.Err()` returns once the context is cancelled, and
`ErrOther` stands for any other error a collaborator returns. -/
inductive Err where
  | ErrAlreadyExists
  | ErrNotFound
  | ErrBadArguments
  | ErrRequestTooLarge
  | ErrCanceled
  | ErrOther (code : Nat)
  deriving DecidableEq, Repr

/-- Modelled from the spec: the update status, `IDLE` or `RUNNING` (declaration not among the
sources). -/
inductive ServiceStatus where
  | StatusIdle
  | StatusRunning
  deriving DecidableEq, Repr

/-- Modelled from the spec: a catalog row `(id, url, words)` (declaration not among the
sources; the fields are those `Update` fills in). -/
structure Comics where
  ID : Int
  URL : String
  Words : List String
  deriving DecidableEq, Repr

/-- Modelled from the spec: an upstream entry `(id, url, title, description)` (declaration not
among the sources; the fields are those `Client.Get` fills in). -/
structure XKCDInfo where
  ID : Int
  URL : String
  Title : Bytes
  Description : Bytes
  deriving DecidableEq, Repr

def maxWordsPhraseLen : Int := 4096

def placeholderURL : String := "missing"

/-- The upstream collaborator of `Update`: the answers of `LastID` and of `Get`. -/
structure XKCD where
  LastID : Except Err Int
  Get : Int → Except Err XKCDInfo

/-- The normalizer collaborator of `Update`. -/
structure Words where
  Norm : Bytes → Except Err (List String)

/-- The failures of the catalog: the error, if any, with which `IDs`, `Add` of a row and
`Drop` answer. The rows themselves are part of the state. -/
structure DB where
  idsErr : Option Err
  addErr : Comics → Option Err
  dropErr : Option Err

/-- The collaborators and the configuration of the service: `events` tells whether an Events
collaborator is set (`s.events != nil`). -/
structure Deps where
  db : DB
  xkcd : XKCD
  words : Words
  events : Bool
  concurrency : Int

/-- What changes while the service runs: the writer lock `mu`, the `status` value, the rows
of the catalog and the number of "db updated" events published so far. -/
structure State where
  locked : Bool
  status : ServiceStatus
  catalog : List Comics
  published : Nat
  deriving DecidableEq, Repr

/-- What a call does to the lock, the status value and the collaborators, in order. -/
inductive Effect where
  | TryLock (ok : Bool)
  | Lock
  | Unlock
  | StoreStatus (st : ServiceStatus)
  | LastID
  | IDs
  | Get (id : Int)
  | Norm (phrase : Bytes)
  | Add (row : Comics)
  | DropTable
  | CloseJobs
  | WaitWorkers
  | PublishDBUpdated
  deriving DecidableEq, Repr

/-- How the asynchronous parts of one `Update` call fall out. `producerStops = some k` means
the producer finds the context cancelled at its select after it has sent `k` ids;
`workerRuns id` tells whether the worker that receives `id` finds the context still alive at
its check; `priority` gives the order in which the concurrent worker iterations take effect
(lowest first). -/
structure Schedule where
  producerStops : Option Nat
  workerRuns : Int → Bool
  priority : Int → Nat

/-- A call whose context is never cancelled, with the ids processed in the order sent. -/
def Schedule.calm : Schedule := ⟨none, fun _ => true, fun _ => 0⟩

/-- The context is not found cancelled during the call, by the producer or by a worker. -/
def Schedule.Uncancelled (sched : Schedule) : Prop :=
  sched.producerStops = none ∧ ∀ id, sched.workerRuns id = true

/-- The function `NewService`: the state of a new service over a catalog. -/
def NewService (d : Deps) (catalog : List Comics) : Except Err State :=
  if d.concurrency < 1 then .error (.ErrOther 0)
  else .ok ⟨false, .StatusIdle, catalog, 0⟩

/-- The statement `INSERT ... ON CONFLICT (id) DO NOTHING` of `DB.Add` on the rows. -/
def insertIfAbsent (catalog : List Comics) (row : Comics) : List Comics :=
  if row.ID ∈ catalog.map Comics.ID then catalog else catalog ++ [row]

/-- The method `DB.Add`: the rows after the call and the error returned. -/
def DB.Add (db : DB) (catalog : List Comics) (row : Comics) : List Comics × Option Err :=
  match db.addErr row with
  | some e => (catalog, some e)
  | none => (insertIfAbsent catalog row, none)

/-- The method `DB.IDs`: `SELECT id FROM comics ORDER BY id`. -/
def DB.IDs (db : DB) (catalog : List Comics) : Except Err (List Int) :=
  match db.idsErr with
  | some e => .error e
  | none => .ok ((catalog.map Comics.ID).insertionSort (· ≤ ·))

/-- Modelled from the spec: the catalog statistics `(words_total, words_unique,
comics_fetched)` (the type `DBStats` is not among the sources). -/
structure DBStats where
  WordsTotal : Nat
  WordsUnique : Nat
  ComicsFetched : Nat
  deriving DecidableEq, Repr

/-- The three queries of `DB.Stats` on the rows. -/
def DB.Stats (catalog : List Comics) : DBStats :=
  ⟨(catalog.map (fun r => r.Words.length)).sum,
   (catalog.flatMap (fun r => r.Words)).dedup.length,
   catalog.length⟩

/-- The row one iteration of the worker hands to `db.Add` for `id`, if any, with the phrase
it sends to the normalizer. -/
def workerRow (d : Deps) (id : Int) : Option Comics :=
  match d.xkcd.Get id with
  | .error err =>
    if err = .ErrNotFound then some ⟨id, placeholderURL, []⟩ else none
  | .ok info =>
    let phrase := (truncateUTF8ToBytes (info.Title ++ [0x20] ++ info.Description)
      maxWordsPhraseLen).getD []
    let ws := match d.words.Norm phrase with
      | .error _ => []
      | .ok ws => ws
    some ⟨info.ID, info.URL, ws⟩

/-- One iteration of the worker for `id`, past its check of the context: the rows afterwards
and what it did. -/
def workerIteration (d : Deps) (catalog : List Comics) (id : Int) :
    List Comics × List Effect :=
  match d.xkcd.Get id with
  | .error err =>
    if err = .ErrNotFound then
      ((d.db.Add catalog ⟨id, placeholderURL, []⟩).1,
        [.Get id, .Add ⟨id, placeholderURL, []⟩])
    else (catalog, [.Get id])
  | .ok info =>
    let phrase := (truncateUTF8ToBytes (info.Title ++ [0x20] ++ info.Description)
      maxWordsPhraseLen).getD []
    let ws := match d.words.Norm phrase with
      | .error _ => []
      | .ok ws => ws
    ((d.db.Add catalog ⟨info.ID, info.URL, ws⟩).1,
      [.Get id, .Norm phrase, .Add ⟨info.ID, info.URL, ws⟩])

/-- The worker iterations for the ids `jobs`, one after the other. -/
def workerLoop (d : Deps) : List Int → List Comics → List Comics × List Effect
  | [], catalog => (catalog, [])
  | id :: rest, catalog =>
    let r := workerIteration d catalog id
    let r' := workerLoop d rest r.1
    (r'.1, r.2 ++ r'.2)

/-- The ids `1..last` of the producer loop. -/
def idRange (last : Int) : List Int :=
  (List.range last.toNat).map (fun (i : Nat) => (i : Int) + 1)

/-- The ids the producer sends: those of `1..last` that `exists` does not hold. -/
def missingIDs (last : Int) (existing : List Int) : List Int :=
  (idRange last).filter (fun id => decide (id ∉ existing))

/-- The ids whose worker iteration runs, in the order in which they take effect. -/
def processed (sched : Schedule) (sent : List Int) : List Int :=
  (sent.insertionSort (fun a b => sched.priority a ≤ sched.priority b)).filter
    sched.workerRuns

/-- The body of `Update` between the two stores of the status: the error returned, the rows
afterwards and what was done. -/
def updateBody (d : Deps) (sched : Schedule) (catalog : List Comics) :
    Option Err × List Comics × List Effect :=
  match d.xkcd.LastID with
  | .error e => (some e, catalog, [.LastID])
  | .ok last =>
    match d.db.IDs catalog with
    | .error e => (some e, catalog, [.LastID, .IDs])
    | .ok existing =>
      let missing := missingIDs last existing
      match sched.producerStops with
      | some k =>
        if k < missing.length then
          let r := workerLoop d (processed sched (missing.take k)) catalog
          (some .ErrCanceled, r.1, [.LastID, .IDs] ++ r.2 ++ [.CloseJobs, .WaitWorkers])
        else
          let r := workerLoop d (processed sched missing) catalog
          (none, r.1, [.LastID, .IDs] ++ r.2 ++ [.CloseJobs, .WaitWorkers])
      | none =>
        let r := workerLoop d (processed sched missing) catalog
        (none, r.1, [.LastID, .IDs] ++ r.2 ++ [.CloseJobs, .WaitWorkers])

/-- The method `Update`: the error returned, the state afterwards and what was done. The
deferred function stores `IDLE`, unlocks, and publishes when `err == nil` and an Events
collaborator is set. -/
def Update (d : Deps) (sched : Schedule) (st : State) : Option Err × State × List Effect :=
  if st.locked then (some .ErrAlreadyExists, st, [.TryLock false])
  else
    let r := updateBody d sched st.catalog
    let publish := r.1.isNone && d.events
    (r.1,
      { locked := false, status := .StatusIdle, catalog := r.2.1,
        published := st.published + (if publish then 1 else 0) },
      [.TryLock true, .StoreStatus .StatusRunning] ++ r.2.2
        ++ [.StoreStatus .StatusIdle, .Unlock]
        ++ (if publish then [.PublishDBUpdated] else []))

/-- The method `Status`. -/
def Status (st : State) : ServiceStatus := st.status

/-- The method `Drop` on a state whose lock is free (on a held lock the call waits): the
error returned, the state afterwards and what was done. -/
def Drop (d : Deps) (st : State) : Option Err × State × List Effect :=
  match d.db.dropErr with
  | some e => (some e, st, [.Lock, .DropTable, .Unlock])
  | none => (none, { st with catalog := [] }, [.Lock, .DropTable, .Unlock])

/-- The lock and the status value after one effect. -/
def applyEffect (p : Bool × ServiceStatus) : Effect → Bool × ServiceStatus
  | .TryLock true => (true, p.2)
  | .Lock => (true, p.2)
  | .Unlock => (false, p.2)
  | .StoreStatus st => (p.1, st)
  | _ => p

/-- The lock and the status value after each effect of a trace, the start included. -/
def protocolStates (p : Bool × ServiceStatus) : List Effect → List (Bool × ServiceStatus)
  | [] => [p]
  | e :: rest => p :: protocolStates (applyEffect p e) rest

end UpdateCore

/-! ## update/adapters/xkcd -/

namespace UpdateXKCD

open UpdateCore

/-- The fields of `comicResp`. -/
structure comicResp where
  Num : Int
  Img : String
  Title : Bytes
  Transcript : Bytes
  Alt : Bytes
  deriving DecidableEq, Repr

/-- The method `Client.Get`; `getJSON id` is the outcome of `getJSON` for the URL of `id`. -/
def Get (getJSON : Int → Except Err comicResp) (id : Int) : Except Err XKCDInfo :=
  match getJSON id with
  | .error e => .error e
  | .ok cr => .ok ⟨cr.Num, cr.Img, cr.Title, cr.Alt ++ [0x20] ++ cr.Transcript⟩

end UpdateXKCD

namespace UpdateCore

/-- The states of the service between calls: that of a new service, and those left by a call
of `Update` or of `Drop`, whatever the collaborators answer and however the call is
scheduled. -/
inductive Reachable : State → Prop where
  | created (d : Deps) (catalog : List Comics) (st : State) :
      NewService d catalog = .ok st → Reachable st
  | update (d : Deps) (sched : Schedule) (st : State) :
      Reachable st → Reachable (Update d sched st).2.1
  | drop (d : Deps) (st : State) : Reachable st → Reachable (Drop d st).2.1

end UpdateCore

/-! ## Example data: the catalog of the end-to-end scenarios -/

namespace Examples

open SearchCore

/-- The rows `(id, url, words)` of the scenario catalog. -/
def catalog : List (Int × String × List String) :=
  [(1, "u1", ["foo", "bar"]), (2, "u2", ["bar", "baz"]), (3, "u3", ["qux"])]

/-- What `LoadIndexData` yields on the scenario catalog. -/
def snapshot : List (Int × List String) := catalog.map (fun r => (r.1, r.2.2))

/-- A store over the scenario catalog; it serves the index path only. -/
def store : Storage where
  SearchComics := fun _ _ => .error (.ErrOther 0)
  LoadIndexData := .ok snapshot
  GetComicsByIDs := fun ids =>
    .ok ((catalog.filter (fun r => decide (r.1 ∈ ids))).map (fun r => ⟨r.1, r.2.1⟩))

/-- A normalizer for the examples: it cuts the phrase at blanks and does nothing else. -/
def words : Words where
  Norm := fun p => .ok (((p.data.splitOn ' ').map String.mk).filter (fun w => decide (w ≠ "")))

/-- The service after `RebuildIndex` on the scenario catalog. -/
def service : Service := ⟨store, words, buildIndex snapshot⟩

/-- The same service while the store cannot be read. -/
def serviceOffline : Service :=
  ⟨{ store with LoadIndexData := .error (.ErrOther 1) }, words, buildIndex snapshot⟩

end Examples

/-! ## Example data: upstream states for the update scenarios -/

namespace UpdateExamples

open UpdateCore

/-- A normalizer for the examples: it cuts the phrase at blanks and does nothing else. -/
def words : Words where
  Norm := fun p =>
    .ok (((p.splitOn 0x20).filter (fun w => decide (w ≠ []))).map
      (fun w => String.mk (w.map Char.ofNat)))

/-- A catalog without failures. -/
def soundDB : DB := ⟨none, fun _ => none, none⟩

/-- A catalog whose writes fail. -/
def failingDB : DB := ⟨none, fun _ => some (.ErrOther 1), none⟩

/-- The upstream of scenario S4: `last_id = 3`, entries 1 and 3 exist, entry 2 answers 404. -/
def upstreamS4 : XKCD where
  LastID := .ok 3
  Get := fun id =>
    if id = 1 then .ok ⟨1, "u1", [0x61], [0x62]⟩
    else if id = 3 then .ok ⟨3, "u3", [0x63], [0x64]⟩
    else .error .ErrNotFound

/-- The service of scenario S4. -/
def depsS4 : Deps := ⟨soundDB, upstreamS4, words, true, 1⟩

/-- An upstream with one entry whose `Get` fails with a server error. -/
def upstreamDown : XKCD := ⟨.ok 1, fun _ => .error (.ErrOther 500)⟩

/-- A service over the failing upstream. -/
def depsDown : Deps := ⟨soundDB, upstreamDown, words, true, 1⟩

/-- An upstream with one entry, which exists. -/
def upstreamOne : XKCD := ⟨.ok 1, fun _ => .ok ⟨1, "u1", [0x61], [0x62]⟩⟩

/-- A service over the one-entry upstream. -/
def depsOne : Deps := ⟨soundDB, upstreamOne, words, true, 1⟩

/-- The same service while the writes of the catalog fail. -/
def depsOneFailing : Deps := ⟨failingDB, upstreamOne, words, true, 1⟩

/-- The same service without an Events collaborator. -/
def depsOneSilent : Deps := ⟨soundDB, upstreamOne, words, false, 1⟩

/-- An upstream server that answers every request with the body of entry 7. -/
def getJSONSkewed : Int → Except Err UpdateXKCD.comicResp :=
  fun _ => .ok ⟨7, "u7", [0x61], [0x62], [0x63]⟩

/-- A service over the skewed server. -/
def depsSkewed : Deps := ⟨soundDB, ⟨.ok 1, UpdateXKCD.Get getJSONSkewed⟩, words, true, 1⟩

/-- A new service over an empty catalog, between calls. -/
def fresh : State := ⟨false, .StatusIdle, [], 0⟩

/-- A state in which an `Update` holds the lock. -/
def busy : State := ⟨true, .StatusRunning, [], 0⟩

/-- The context is cancelled after the producer has sent every id and before the worker
checks it: no iteration runs. -/
def cancelledLate : Schedule := ⟨none, fun _ => false, fun _ => 0⟩

end UpdateExamples

/-! ## search/adapters/indexer -/

namespace Indexer

open SearchCore

/-- What the goroutine of `EventIndexer.Start` receives in one round of its `select`: a
"db updated" message on the channel, or a tick of the debounce ticker; `load` is what the
store answers to `LoadIndexData` if the tick asks it. -/
inductive Event where
  | Message
  | Tick (load : Except Err (List (Int × List String)))

/-- The state of the event indexer: the field `pending`, the service `svc` it rebuilds, and
the outcomes of the calls of `svc.RebuildIndex` made so far, oldest first. -/
structure EventIndexer where
  pending : Int
  svc : Service
  calls : List (Option Err)

/-- One round of the loop of `EventIndexer.Start`. A message stores 1 in `pending`. A tick
loads `pending` and, when it is 1, calls `RebuildIndex`, logs the error if there is one,
and stores 0. -/
def step (i : EventIndexer) : Event → EventIndexer
  | .Message => { i with pending := 1 }
  | .Tick load =>
    if i.pending = 1 then
      let r := Service.RebuildIndex
        { i.svc with store := { i.svc.store with LoadIndexData := load } }
      { pending := 0, svc := r.2, calls := i.calls ++ [r.1] }
    else i

/-- The loop of `EventIndexer.Start` over the events it receives until it is stopped. -/
def run (i : EventIndexer) (events : List Event) : EventIndexer := events.foldl step i

end Indexer

/-! ## search/adapters/db: loading the rows for the index -/

namespace SearchDB

open SearchCore

/-- The call `strings.Trim(s, cutset)`: drop the leading and the trailing characters that are
in the cutset. -/
def Trim (s : List Char) (cutset : List Char) : List Char :=
  ((s.dropWhile (fun c => decide (c ∈ cutset))).reverse.dropWhile
    (fun c => decide (c ∈ cutset))).reverse

/-- The call `strings.Split(s, sep)` for a separator of one character. -/
def Split (s : List Char) (sep : Char) : List String := (s.splitOn sep).map String.mk

/-- The body of the row loop of `LoadIndexData` after the scan: the value stored under the
id of a row whose column `words` holds the given text. -/
def rowWords (words : String) : List String :=
  let words := Trim words.data ['{', '}']
  if words = [] then [] else Split words ','

/-- The row loop of `LoadIndexData`; a row is what `rows.Scan` yields, the pair of the
columns or an error. -/
def loadRows : List (Except Err (Int × String)) → List (Int × List String) →
    Except Err (List (Int × List String))
  | [], data => .ok data
  | .error err :: _, _ => .error err
  | .ok (id, words) :: rest, data => loadRows rest (GoMap.mset data id (rowWords words))

/-- The method `DB.LoadIndexData`; `query` is the outcome of `SELECT id, words FROM comics`:
an error, or the rows and the error `rows.Err()` reports after the last of them. -/
def LoadIndexData (query : Except Err (List (Except Err (Int × String)) × Option Err)) :
    Except Err (List (Int × List String)) :=
  match query with
  | .error err => .error err
  | .ok (rows, rowsErr) =>
    match loadRows rows [] with
    | .error err => .error err
    | .ok data =>
      match rowsErr with
      | some err => .error err
      | none => .ok data

/-- The text of a stored array of words: the words joined by commas, in braces. -/
def arrayText (ws : List String) : String :=
  ⟨'{' :: ([','].intercalate (ws.map String.data) ++ ['}'])⟩

end SearchDB

/-! ## The gRPC status codes the services exchange -/

namespace GRPC

/-- The status codes of `google.golang.org/grpc/codes` the services use; `Other` stands for
any other failure of a call, by its number. -/
inductive Code where
  | InvalidArgument
  | ResourceExhausted
  | AlreadyExists
  | Internal
  | Other (n : Nat)
  deriving DecidableEq, Repr

end GRPC

/-! ## words -/

namespace WordsService

open GRPC

/-- The two functions of the package `snowball/english` that `Normalize` calls. -/
structure English where
  IsStopWord : String → Bool
  Stem : String → Bool → String

def maxPhraseLen : Nat := 4096

/-- The library function `unicode.ToLower` on the characters whose image the expression
`[a-z0-9]+` can tell apart: the letters `A` to `Z`, the Kelvin sign U+212A and the dotted
capital I U+0130 are the only characters outside `a` to `z` that it maps into `a` to `z`;
every other character is mapped to a character outside ASCII or to itself. -/
def ToLower (c : Char) : Char :=
  if 0x41 ≤ c.toNat ∧ c.toNat ≤ 0x5A then Char.ofNat (c.toNat + 0x20)
  else if c.toNat = 0x212A then 'k'
  else if c.toNat = 0x130 then 'i'
  else c

/-- The character class `[a-z0-9]` of `wordRe`. -/
def wordChar (c : Char) : Bool :=
  (0x61 ≤ c.toNat && c.toNat ≤ 0x7A) || (0x30 ≤ c.toNat && c.toNat ≤ 0x39)

/-- The call `wordRe.FindAllString(lc, -1)` for `[a-z0-9]+`: the maximal runs of characters
of the class, from left to right; `run` is the run being read, last character first. -/
def FindAllString : List Char → List Char → List String
  | [], run => if run = [] then [] else [⟨run.reverse⟩]
  | c :: rest, run =>
    if wordChar c then FindAllString rest (c :: run)
    else if run = [] then FindAllString rest []
    else ⟨run.reverse⟩ :: FindAllString rest []

/-- The loop of `Normalize` over the tokens. -/
def stemTokens (lib : English) : List String → List String
  | [] => []
  | t :: rest =>
    if t = "" ∨ lib.IsStopWord t = true then stemTokens lib rest
    else
      let stem := lib.Stem t true
      if stem = "" then stemTokens lib rest else stem :: stemTokens lib rest

/-- The function `Normalize`. -/
def Normalize (lib : English) (phrase : String) : List String :=
  if phrase = "" then []
  else
    let lc := phrase.data.map ToLower
    let tokens := FindAllString lc []
    stemTokens lib tokens

/-- The condition `len(in.Phrase) > maxPhraseLen` of `server.Norm`, on the length in
bytes. -/
def tooLarge (len : Nat) : Bool := decide (len > maxPhraseLen)

/-- The method `server.Norm`; the request is `none` when `in == nil`. -/
def Norm (lib : English) (req : Option String) : Except Code (List String) :=
  match req with
  | none => .error .InvalidArgument
  | some phrase =>
    if tooLarge phrase.utf8ByteSize then .error .ResourceExhausted
    else .ok (Normalize lib phrase)

end WordsService

/-! ## search/adapters/words and update/adapters/words -/

namespace SearchWords

open GRPC SearchCore

/-- The method `Client.Norm` of `search/adapters/words`; `rpc` is the call `c.client.Norm`,
which answers with the words or with the status code of the failure. -/
def Norm (rpc : String → Except Code (List String)) (phrase : String) :
    Except Err (List String) :=
  if phrase = "" then .error .ErrBadArguments
  else
    match rpc phrase with
    | .error .InvalidArgument => .error .ErrBadArguments
    | .error .ResourceExhausted => .error .ErrRequestTooLarge
    | .error .AlreadyExists => .error (.ErrOther 6)
    | .error .Internal => .error (.ErrOther 13)
    | .error (.Other n) => .error (.ErrOther n)
    | .ok words => .ok words

end SearchWords

namespace UpdateWords

open GRPC UpdateCore

/-- The method `Client.Norm` of `update/adapters/words`; `rpc` is the call `c.client.Norm`,
which answers with the words or with the status code of the failure. -/
def Norm (rpc : Bytes → Except Code (List String)) (phrase : Bytes) :
    Except Err (List String) :=
  if phrase = [] then .error .ErrBadArguments
  else
    match rpc phrase with
    | .error .InvalidArgument => .error .ErrBadArguments
    | .error .ResourceExhausted => .error .ErrRequestTooLarge
    | .error .AlreadyExists => .error (.ErrOther 6)
    | .error .Internal => .error (.ErrOther 13)
    | .error (.Other n) => .error (.ErrOther n)
    | .ok words => .ok words

end UpdateWords

namespace Examples

/-- A stand-in for the snowball library in the examples: three stop words, and a stemmer
that drops a final `s`. -/
def english : WordsService.English where
  IsStopWord := fun t => decide (t ∈ ["the", "a", "of"])
  Stem := fun t _ =>
    match t.data.reverse with
    | 's' :: rest => ⟨rest.reverse⟩
    | _ => t

end Examples

/-! ## update/adapters/xkcd: the request loop -/

namespace UpdateXKCD

open UpdateCore

/-- What becomes of one request: `c.http.Do` fails, or the upstream answers with a status
code and a body; `body` is what the decoder makes of the body, `none` when it cannot be
decoded. -/
inductive Response (α : Type) where
  | Failed (code : Nat)
  | Answered (status : Nat) (body : Option α)

/-- The surroundings of one call of `getJSON`: the error of `http.NewRequestWithContext` for
the URL, if it has one; what becomes of the request number `k` of the call, counted from 0;
and whether the context is done when the call waits after request number `k`. -/
structure Upstream (α : Type) where
  newRequest : Option Err
  respond : Nat → Response α
  cancelled : Nat → Bool

/-- How one iteration of the loop of `getJSON` goes on after the request: it returns, or it
reaches the `select` with the values of `attempt` and `lastErr`. -/
inductive Outcome (α : Type) where
  | Return (r : Except Err (Option α))
  | Wait (attempt : Nat) (lastErr : Err)

/-- The body of the loop of `getJSON` from the answer of `c.http.Do` to the `select`. -/
def afterResponse {α : Type} (attempt : Nat) : Response α → Outcome α
  | .Failed code => .Wait attempt (.ErrOther code)
  | .Answered status body =>
    if status = 404 then .Return (.error .ErrNotFound)
    else if status ≠ 200 then
      if status ≥ 500 then .Wait attempt (.ErrOther status)
      else .Wait 2 (.ErrOther status)
    else
      match body with
      | none => .Wait attempt (.ErrOther 0)
      | some out => .Return (.ok (some out))

/-- The loop of `getJSON` from the test `attempt < 3` on, after `sent` requests: the error
returned or the value decoded into `out` (`none` if nothing was decoded), and the number of
requests issued. -/
def getJSONLoop {α : Type} (u : Upstream α) :
    Nat → Nat → Nat → Option Err → Option (Except Err (Option α) × Nat)
  | 0, _, _, _ => none
  | fuel + 1, attempt, sent, lastErr =>
    if attempt < 3 then
      match u.newRequest with
      | some err => some (.error err, sent)
      | none =>
        match afterResponse attempt (u.respond sent) with
        | .Return r => some (r, sent + 1)
        | .Wait attempt lastErr =>
          if u.cancelled sent then some (.error .ErrCanceled, sent + 1)
          else getJSONLoop u fuel (attempt + 1) (sent + 1) (some lastErr)
    else
      match lastErr with
      | some err => some (.error err, sent)
      | none => some (.ok none, sent)

/-- The method `Client.getJSON`; the loop is given four rounds, one more than it can need. -/
def getJSON {α : Type} (u : Upstream α) : Option (Except Err (Option α) × Nat) :=
  getJSONLoop u 4 0 0 none

/-- The answers after which `getJSON` may issue a further request: a failed `c.http.Do`, a
status of 500 or more, and a status 200 whose body cannot be decoded. -/
def retryable {α : Type} : Response α → Prop
  | .Failed _ => True
  | .Answered status body => status ≥ 500 ∨ (status = 200 ∧ body = none)

end UpdateXKCD

namespace UpdateExamples

/-- An upstream that answers 503, then fails to answer, then answers entry 7. -/
def flaky : UpdateXKCD.Upstream UpdateXKCD.comicResp where
  newRequest := none
  respond := fun k =>
    if k = 0 then .Answered 503 none
    else if k = 1 then .Failed 1
    else .Answered 200 (some ⟨7, "u7", [0x61], [0x62], [0x63]⟩)
  cancelled := fun _ => false

/-- An upstream that answers 403 to every request. -/
def forbidden : UpdateXKCD.Upstream UpdateXKCD.comicResp :=
  ⟨none, fun _ => .Answered 403 none, fun _ => false⟩

end UpdateExamples

/-! ## search/adapters/grpc -/

namespace SearchGRPC

open GRPC SearchCore

/-- The message `searchpb.SearchRequest`; `Limit` is a `uint32`. -/
structure SearchRequest where
  Phrase : String
  Limit : Nat
  deriving DecidableEq, Repr

/-- The message `searchpb.Comic`; `Id` is an `int32`. -/
structure Comic where
  Id : Int
  Url : String
  deriving DecidableEq, Repr

/-- The message `searchpb.SearchReply`; `Total` is a `uint32`. -/
structure SearchReply where
  Comics : List Comic
  Total : Nat
  deriving DecidableEq, Repr

/-- The conversion `uint32(v)` of an `int`. -/
def toUint32 (v : Int) : Nat := (v % 2 ^ 32).toNat

/-- The conversion `int32(v)` of an `int`. -/
def toInt32 (v : Int) : Int := (v + 2 ^ 31) % 2 ^ 32 - 2 ^ 31

/-- The literal `core.SearchParams{Phrase: req.GetPhrase(), Limit: int(req.GetLimit())}`. -/
def searchParams (req : SearchRequest) : SearchParams := ⟨req.Phrase, (req.Limit : Int)⟩

/-- The method `Server.Search`; `service` is the method `Search` of the core service. -/
def Search (service : SearchParams → Except Err SearchResult) (req : SearchRequest) :
    Except Code SearchReply :=
  match service (searchParams req) with
  | .error .ErrBadArguments => .error .InvalidArgument
  | .error .ErrRequestTooLarge => .error .ResourceExhausted
  | .error _ => .error .Internal
  | .ok res => .ok ⟨res.Comics.map (fun c => ⟨toInt32 c.ID, c.URL⟩), toUint32 res.Total⟩

end SearchGRPC

/-! ## api: the gateway -/

namespace Gateway

open GRPC SearchGRPC

/-- The errors of `api/core/errors.go`; `RPC` is an error of a gRPC call, which the search
client returns as it is. -/
inductive Err where
  | ErrBadArguments
  | ErrAlreadyExists
  | ErrNotFound
  | ErrBadLimit
  | ErrBadPhrase
  | RPC (code : Code)
  deriving DecidableEq, Repr

/-- Modelled from the spec: a comic in a search answer, `(id, url)` (the declaration of
`core.Comics` is not among the sources; the fields are those `Client.Search` fills in). -/
structure Comics where
  ID : Int
  URL : String
  deriving DecidableEq, Repr

/-- Modelled from the spec: a search answer, the comics and the total (the declaration of
`core.SearchResult` is not among the sources; the fields are those `Client.Search` fills
in). -/
structure SearchResult where
  Comics : List Comics
  Total : Int
  deriving DecidableEq, Repr

def DefaultLimit : Int := 10

/-- The digits of `strconv.Atoi`: the value of a non-empty run of decimal digits. -/
def digitsValue : List Char → Option Nat
  | [] => none
  | cs =>
    cs.foldl
      (fun acc c =>
        match acc with
        | none => none
        | some n => if c.isDigit then some (10 * n + (c.toNat - 48)) else none)
      (some 0)

/-- The statement `if s0[0] == '-' { n = -n }` of `strconv.Atoi`. -/
def signed (neg : Bool) (n : Nat) : Int := if neg then -(n : Int) else (n : Int)

/-- The library function `strconv.Atoi` for a 64-bit `int`: an optional sign and decimal
digits, within the range of the type; `none` stands for the error. -/
def Atoi (s : String) : Option Int :=
  let p : Bool × List Char :=
    match s.data with
    | '-' :: rest => (true, rest)
    | '+' :: rest => (false, rest)
    | cs => (false, cs)
  match digitsValue p.2 with
  | none => none
  | some n =>
    let v : Int := signed p.1 n
    if v < -2 ^ 63 ∨ v > 2 ^ 63 - 1 then none else some v

/-- The function `ParseLimit`. -/
def ParseLimit (s : String) : Except Err Int :=
  if s = "" then .ok DefaultLimit
  else
    match Atoi s with
    | none => .error .ErrBadLimit
    | some v => if v ≤ 0 then .error .ErrBadLimit else .ok v

/-- The literal `&searchpb.SearchRequest{Phrase: phrase, Limit: uint32(limit)}`. -/
def searchRequest (phrase : String) (limit : Int) : SearchRequest :=
  ⟨phrase, toUint32 limit⟩

/-- The method `Client.Search` of `api/adapters/search`; `rpc` is the call `c.client.Search`,
which answers with the reply or with the status code of the failure. -/
def Search (rpc : SearchRequest → Except Code SearchReply) (phrase : String) (limit : Int) :
    Except Err SearchResult :=
  if phrase = "" then .error .ErrBadPhrase
  else if limit ≤ 0 then .error .ErrBadLimit
  else
    match rpc (searchRequest phrase limit) with
    | .error code => .error (.RPC code)
    | .ok resp => .ok ⟨resp.Comics.map (fun cpb => ⟨cpb.Id, cpb.Url⟩), (resp.Total : Int)⟩

/-- The handler of `NewSearchHandler` on the query values `phrase` and `limit`: the status of
the response and, for status 200, the answer written. -/
def SearchHandler (searcher : String → Int → Except Err SearchResult)
    (phrase limitStr : String) : Nat × Option SearchResult :=
  match ParseLimit limitStr with
  | .error _ => (400, none)
  | .ok limit =>
    if phrase = "" then (400, none)
    else
      match searcher phrase limit with
      | .error err =>
        if err = .ErrBadPhrase ∨ err = .ErrBadLimit then (400, none) else (500, none)
      | .ok res => (200, some res)

/-- The route `GET /api/search` of the gateway over a search service with the core service
`svc`, every call between the services being delivered. -/
def apiSearch (svc : SearchCore.Service) (phrase limitStr : String) :
    Nat × Option SearchResult :=
  SearchHandler (Search (SearchGRPC.Search (SearchCore.Search svc))) phrase limitStr

end Gateway

/-! ## Ranking the catalog directly -/

namespace SearchCore

open GoMap

/-- Modelled from the spec: the number `m(id)` of the distinct non-empty terms of the query
that occur among the words of the row `id` of the snapshot. -/
def directMatches (data : List (Int × List String)) (terms : List String) (id : Int) : Nat :=
  (terms.dedup.filter
    (fun t => decide (t ≠ "" ∧ t ∈ (mget data id).getD []))).length

/-- Modelled from the spec: the order of the ranking, `m` descending and then the id
ascending. -/
def directOrder (m : Int → Nat) (a b : Int) : Prop := m a > m b ∨ (m a = m b ∧ a ≤ b)

instance (m : Int → Nat) : DecidableRel (directOrder m) :=
  fun a b => inferInstanceAs (Decidable (m a > m b ∨ (m a = m b ∧ a ≤ b)))

/-- Modelled from the spec: the ranking read off the snapshot without an index, the ids of
the rows with `m(id) > 0` sorted by `m` descending and then the id ascending. -/
def directRank (data : List (Int × List String)) (terms : List String) : List Int :=
  ((keys data).filter (fun id => decide (directMatches data terms id > 0))).insertionSort
    (directOrder (directMatches data terms))

end SearchCore

namespace UpdateExamples

open UpdateCore

/-- An upstream with two entries: the request for id 1 fails with a server error, and the
request for id 2 is answered with the entry whose number is 1. -/
def upstreamCrossed : XKCD where
  LastID := .ok 2
  Get := fun id =>
    if id = 2 then .ok ⟨1, "u1", [0x61], [0x62]⟩ else .error (.ErrOther 500)

/-- A service over the crossed upstream. -/
def depsCrossed : Deps := ⟨soundDB, upstreamCrossed, words, true, 1⟩

end UpdateExamples

/-! ## Facts about Go maps -/

namespace GoMap

theorem mget_mset {κ ν : Type} [DecidableEq κ] (m : List (κ × ν)) (k j : κ) (v : ν) :
    mget (mset m k v) j = if k = j then some v else mget m j := by
  induction m with
  | nil => simp [mset, mget]
  | cons e rest ih =>
    obtain ⟨k', v'⟩ := e
    by_cases h : k' = k
    · subst h
      by_cases hj : k' = j <;> simp [mset, mget, hj]
    · by_cases hj : k = j
      · subst hj
        simp [mset, mget, h, ih]
      · by_cases hj' : k' = j
        · subst hj'
          simp [mset, mget, h, hj]
        · simp [mset, mget, h, hj, hj', ih]

theorem mem_keys_mset {κ ν : Type} [DecidableEq κ] (m : List (κ × ν)) (k j : κ) (v : ν) :
    j ∈ keys (mset m k v) ↔ j = k ∨ j ∈ keys m := by
  induction m with
  | nil => simp [mset, keys]
  | cons e rest ih =>
    obtain ⟨k', v'⟩ := e
    by_cases h : k' = k
    · subst h
      simp [mset, keys]
    · simp only [keys] at ih
      simp [mset, keys, h, ih]
      tauto

theorem nodup_keys_mset {κ ν : Type} [DecidableEq κ] (m : List (κ × ν)) (k : κ) (v : ν)
    (h : (keys m).Nodup) : (keys (mset m k v)).Nodup := by
  induction m with
  | nil => simp [mset, keys]
  | cons e rest ih =>
    obtain ⟨k', v'⟩ := e
    have hk : k' ∉ keys rest ∧ (keys rest).Nodup := by simpa [keys] using h
    by_cases hkk : k' = k
    · subst hkk
      simpa [mset, keys] using h
    · have h1 := ih hk.2
      have h2 : k' ∉ keys (mset rest k v) := by
        rw [mem_keys_mset]
        simp [hkk, hk.1]
      simp only [mset, hkk, if_false, keys, List.map_cons, List.nodup_cons]
      exact ⟨h2, h1⟩

theorem mget_eq_none {κ ν : Type} [DecidableEq κ] (m : List (κ × ν)) (k : κ) :
    mget m k = none ↔ k ∉ keys m := by
  induction m with
  | nil => simp [mget, keys]
  | cons e rest ih =>
    obtain ⟨k', v'⟩ := e
    simp only [keys] at ih
    by_cases h : k' = k
    · simp [mget, keys, h]
    · simp [mget, keys, h, ih, Ne.symm h]

theorem mem_of_mget {κ ν : Type} [DecidableEq κ] (m : List (κ × ν)) (k : κ) (v : ν)
    (h : mget m k = some v) : (k, v) ∈ m := by
  induction m with
  | nil => simp [mget] at h
  | cons e rest ih =>
    obtain ⟨k', v'⟩ := e
    by_cases hk : k' = k
    · simp [mget, hk] at h
      simp [hk, h]
    · simp [mget, hk] at h
      exact List.mem_cons_of_mem _ (ih h)

theorem mget_of_mem {κ ν : Type} [DecidableEq κ] (m : List (κ × ν)) (k : κ) (v : ν)
    (hnd : (keys m).Nodup) (h : (k, v) ∈ m) : mget m k = some v := by
  induction m with
  | nil => simp at h
  | cons e rest ih =>
    obtain ⟨k', v'⟩ := e
    have hk : k' ∉ keys rest ∧ (keys rest).Nodup := by simpa [keys] using hnd
    rcases List.mem_cons.1 h with heq | hmem
    · cases heq
      simp [mget]
    · have hne : k' ≠ k := by
        intro hkk
        apply hk.1
        rw [hkk]
        exact List.mem_map_of_mem Prod.fst hmem
      simp [mget, hne, ih hk.2 hmem]

end GoMap

/-! ## Limits and deduplication -/

namespace SearchCore

open GoMap

theorem dedupLoop_eq (ws seen result : List String) :
    dedupLoop ws seen result = result ++ keep ws seen := by
  induction ws generalizing seen result with
  | nil => simp [dedupLoop, keep]
  | cons w ws ih =>
    by_cases h1 : w = ""
    · simp [dedupLoop, keep, h1, ih]
    · by_cases h2 : w ∈ seen
      · simp [dedupLoop, keep, h1, h2, ih]
      · simp [dedupLoop, keep, h1, h2, ih]

theorem deduplicateWords_eq (ws : List String) : deduplicateWords ws = keep ws [] := by
  cases ws with
  | nil => simp [deduplicateWords, keep]
  | cons w ws => simp [deduplicateWords, dedupLoop_eq]

theorem mem_keep (ws seen : List String) (t : String) :
    t ∈ keep ws seen ↔ t ∈ ws ∧ t ≠ "" ∧ t ∉ seen := by
  induction ws generalizing seen with
  | nil => simp [keep]
  | cons w ws ih =>
    by_cases h : w = "" ∨ w ∈ seen
    · simp only [keep, h, if_true, ih, List.mem_cons]
      constructor
      · rintro ⟨a, b, c⟩
        exact ⟨Or.inr a, b, c⟩
      · rintro ⟨a | a, b, c⟩
        · subst a
          rcases h with h | h
          · exact absurd h b
          · exact absurd h c
        · exact ⟨a, b, c⟩
    · simp only [keep, h, if_false, List.mem_cons, ih, not_or]
      push_neg at h
      constructor
      · rintro (a | ⟨a, b, c, d⟩)
        · subst a
          exact ⟨Or.inl rfl, h.1, h.2⟩
        · exact ⟨Or.inr a, b, d⟩
      · rintro ⟨a | a, b, c⟩
        · exact Or.inl a
        · by_cases htw : t = w
          · exact Or.inl htw
          · exact Or.inr ⟨a, b, htw, c⟩

theorem nodup_keep (ws seen : List String) : (keep ws seen).Nodup := by
  induction ws generalizing seen with
  | nil => simp [keep]
  | cons w ws ih =>
    by_cases h : w = "" ∨ w ∈ seen
    · simp [keep, h, ih]
    · simp only [keep, h, if_false, List.nodup_cons]
      refine ⟨?_, ih _⟩
      rw [mem_keep]
      simp

theorem sublist_keep (ws seen : List String) : (keep ws seen).Sublist ws := by
  induction ws generalizing seen with
  | nil => simp [keep]
  | cons w ws ih =>
    by_cases h : w = "" ∨ w ∈ seen
    · simp only [keep, h, if_true]
      exact (ih seen).cons w
    · simp only [keep, h, if_false]
      exact (ih _).cons₂ w

theorem firstOccurrence_keep (ws seen : List String) :
    (keep ws seen).Pairwise (fun a b => ws.indexOf a < ws.indexOf b) := by
  induction ws generalizing seen with
  | nil => simp [keep]
  | cons w ws ih =>
    by_cases h : w = "" ∨ w ∈ seen
    · simp only [keep, h, if_true]
      refine (ih seen).imp_of_mem ?_
      intro a b ha hb hab
      have ha' := (mem_keep ws seen a).1 ha
      have hb' := (mem_keep ws seen b).1 hb
      have hwa : w ≠ a := by
        rintro rfl
        rcases h with h | h
        · exact ha'.2.1 h
        · exact ha'.2.2 h
      have hwb : w ≠ b := by
        rintro rfl
        rcases h with h | h
        · exact hb'.2.1 h
        · exact hb'.2.2 h
      rw [List.indexOf_cons_ne _ hwa, List.indexOf_cons_ne _ hwb]
      omega
    · simp only [keep, h, if_false, List.pairwise_cons]
      constructor
      · intro b hb
        have hb' := (mem_keep ws (w :: seen) b).1 hb
        have hwb : w ≠ b := by
          rintro rfl
          exact hb'.2.2 (List.mem_cons_self _ _)
        rw [List.indexOf_cons_self, List.indexOf_cons_ne _ hwb]
        omega
      · refine (ih (w :: seen)).imp_of_mem ?_
        intro a b ha hb hab
        have ha' := (mem_keep ws (w :: seen) a).1 ha
        have hb' := (mem_keep ws (w :: seen) b).1 hb
        have hwa : w ≠ a := by
          rintro rfl
          exact ha'.2.2 (List.mem_cons_self _ _)
        have hwb : w ≠ b := by
          rintro rfl
          exact hb'.2.2 (List.mem_cons_self _ _)
        rw [List.indexOf_cons_ne _ hwa, List.indexOf_cons_ne _ hwb]
        omega

/-- C8: `deduplicateWords` returns the distinct non-empty terms of its input in order of first
occurrence: no duplicates, no empty string, exactly the non-empty terms of the input, a
subsequence of the input, and two results stand in the order of their first positions in it. -/
theorem deduplicateWords_spec (words : List String) :
    (deduplicateWords words).Nodup ∧
    "" ∉ deduplicateWords words ∧
    (∀ t, t ∈ deduplicateWords words ↔ t ∈ words ∧ t ≠ "") ∧
    (deduplicateWords words).Sublist words ∧
    (deduplicateWords words).Pairwise (fun a b => words.indexOf a < words.indexOf b) := by
  rw [deduplicateWords_eq]
  refine ⟨nodup_keep _ _, ?_, ?_, sublist_keep _ _, firstOccurrence_keep _ _⟩
  · rw [mem_keep]
    simp
  · intro t
    rw [mem_keep]
    simp

end SearchCore

/-! ## Validation of the limit and the phrase -/

namespace SearchCore

/-- C7: `normalizeLimit` fails, with `ErrBadArguments`, exactly when `limit < 0`, returns 10
for `limit = 0` and `limit` itself for `limit > 0`; `Search` and `ISearch` called with limit 0
return what they return with limit 10. -/
theorem normalizeLimit_spec (limit : Int) :
    (normalizeLimit limit = .error .ErrBadArguments ↔ limit < 0) ∧
    ((∃ e, normalizeLimit limit = .error e) ↔ limit < 0) ∧
    (limit = 0 → normalizeLimit limit = .ok 10) ∧
    (0 < limit → normalizeLimit limit = .ok limit) ∧
    (∀ (s : Service) (phrase : String),
      Search s ⟨phrase, 0⟩ = Search s ⟨phrase, 10⟩ ∧
      ISearch s ⟨phrase, 0⟩ = ISearch s ⟨phrase, 10⟩) := by
  refine ⟨?_, ?_, ?_, ?_, ?_⟩
  · unfold normalizeLimit
    split_ifs with h1 h2 <;> simp [h1]
  · unfold normalizeLimit
    split_ifs with h1 h2 <;> simp [h1]
  · intro h
    subst h
    simp [normalizeLimit, defaultLimit]
  · intro h
    have h1 : ¬ limit < 0 := by omega
    have h2 : ¬ limit = 0 := by omega
    simp [normalizeLimit, h1, h2]
  · intro s phrase
    have h0 : normalizeLimit 0 = .ok 10 := by simp [normalizeLimit, defaultLimit]
    have h10 : normalizeLimit 10 = .ok 10 := by simp [normalizeLimit]
    constructor
    · simp only [Search, h0, h10]
    · simp only [ISearch, h0, h10]

theorem trimSpace_eq_empty_iff (phrase : String) :
    trimSpace phrase = "" ↔ ∀ c ∈ phrase.data, isSpace c = true := by
  have hx : trimSpace phrase = "" ↔
      ((phrase.data.dropWhile isSpace).reverse.dropWhile isSpace).reverse = [] := by
    constructor
    · intro h
      have := congrArg String.data h
      simpa [trimSpace] using this
    · intro h
      simp only [trimSpace, h]
  rw [hx, List.reverse_eq_nil_iff, List.dropWhile_eq_nil_iff]
  constructor
  · intro h
    by_cases hd : phrase.data.dropWhile isSpace = []
    · exact List.dropWhile_eq_nil_iff.1 hd
    · exfalso
      have h1 := List.head_dropWhile_not isSpace phrase.data hd
      have h2 := h _ (List.mem_reverse.2 (List.head_mem hd))
      simp [h2] at h1
  · intro h x hx
    rw [List.mem_reverse] at hx
    exact h x ((List.dropWhile_sublist isSpace).subset hx)

theorem sanitizePhrase_ok (phrase : String) (h1 : trimSpace phrase ≠ "")
    (h2 : (trimSpace phrase).utf8ByteSize ≤ 4096) :
    sanitizePhrase phrase = .ok (trimSpace phrase) := by
  have h3 : ¬ (trimSpace phrase).utf8ByteSize > maxPhraseLen := by
    simp only [maxPhraseLen]
    omega
  simp [sanitizePhrase, h1, h3]

theorem sanitizePhrase_empty (phrase : String) (h1 : trimSpace phrase = "") :
    sanitizePhrase phrase = .error .ErrBadArguments := by
  simp [sanitizePhrase, h1]

theorem sanitizePhrase_large (phrase : String) (h2 : (trimSpace phrase).utf8ByteSize > 4096) :
    sanitizePhrase phrase = .error .ErrRequestTooLarge := by
  have h1 : trimSpace phrase ≠ "" := by
    intro h
    rw [h] at h2
    simp [String.utf8ByteSize, String.utf8ByteSize.go] at h2
  have h3 : (trimSpace phrase).utf8ByteSize > maxPhraseLen := by
    simpa [maxPhraseLen] using h2
  simp [sanitizePhrase, h1, h3]

theorem normalizeLimit_nonneg (limit : Int) (h : 0 ≤ limit) :
    ∃ l, normalizeLimit limit = .ok l ∧ 0 < l := by
  unfold normalizeLimit
  split_ifs with h1 h2
  · omega
  · exact ⟨_, rfl, by simp [defaultLimit]⟩
  · exact ⟨_, rfl, by omega⟩

/-- C6: `sanitizePhrase` fails with `ErrBadArguments` exactly when the phrase is empty after
trimming (it consists of white space only), with `ErrRequestTooLarge` exactly when the trimmed
phrase is longer than 4096 bytes, and otherwise returns the trimmed phrase. With a limit that
is not negative, `Search` and `ISearch` answer `ErrBadArguments` to a phrase of white space
only and `ErrRequestTooLarge` to a phrase longer than 4096 bytes after trimming (4097 bytes
for one), and they let a phrase of exactly 4096 bytes after trimming through: any error they
then return is one the normalizer or the store returned. -/
theorem sanitizePhrase_spec (phrase : String) :
    (sanitizePhrase phrase = .error .ErrBadArguments ↔ trimSpace phrase = "") ∧
    (trimSpace phrase = "" ↔ ∀ c ∈ phrase.data, isSpace c = true) ∧
    (sanitizePhrase phrase = .error .ErrRequestTooLarge ↔
      (trimSpace phrase).utf8ByteSize > 4096) ∧
    (trimSpace phrase ≠ "" → (trimSpace phrase).utf8ByteSize ≤ 4096 →
      sanitizePhrase phrase = .ok (trimSpace phrase)) ∧
    (∀ (s : Service) (limit : Int), 0 ≤ limit →
      ((∀ c ∈ phrase.data, isSpace c = true) →
        Search s ⟨phrase, limit⟩ = .error .ErrBadArguments ∧
        ISearch s ⟨phrase, limit⟩ = .error .ErrBadArguments) ∧
      ((trimSpace phrase).utf8ByteSize > 4096 →
        Search s ⟨phrase, limit⟩ = .error .ErrRequestTooLarge ∧
        ISearch s ⟨phrase, limit⟩ = .error .ErrRequestTooLarge) ∧
      ((trimSpace phrase).utf8ByteSize = 4096 →
        sanitizePhrase phrase = .ok (trimSpace phrase) ∧
        (∀ e, Search s ⟨phrase, limit⟩ = .error e →
          s.words.Norm (trimSpace phrase) = .error e ∨
          ∃ ws l, s.store.SearchComics ws l = .error e) ∧
        (∀ e, ISearch s ⟨phrase, limit⟩ = .error e →
          s.words.Norm (trimSpace phrase) = .error e ∨
          ∃ ids, s.store.GetComicsByIDs ids = .error e))) := by
  refine ⟨?_, trimSpace_eq_empty_iff phrase, ?_, sanitizePhrase_ok phrase, ?_⟩
  · constructor
    · intro h
      by_contra hne
      by_cases hl : (trimSpace phrase).utf8ByteSize > maxPhraseLen
      · simp [sanitizePhrase, hne, hl] at h
      · simp [sanitizePhrase, hne, hl] at h
    · exact sanitizePhrase_empty phrase
  · constructor
    · intro h
      by_contra hl
      by_cases hne : trimSpace phrase = ""
      · simp [sanitizePhrase, hne] at h
      · rw [sanitizePhrase_ok phrase hne (by omega)] at h
        simp at h
    · exact sanitizePhrase_large phrase
  · intro s limit hlimit
    obtain ⟨l, hl, _⟩ := normalizeLimit_nonneg limit hlimit
    refine ⟨?_, ?_, ?_⟩
    · intro hws
      have h := sanitizePhrase_empty phrase ((trimSpace_eq_empty_iff phrase).2 hws)
      simp [Search, ISearch, hl, h]
    · intro hbig
      have h := sanitizePhrase_large phrase hbig
      simp [Search, ISearch, hl, h]
    · intro h4096
      have hne : trimSpace phrase ≠ "" := by
        intro h
        rw [h] at h4096
        simp [String.utf8ByteSize, String.utf8ByteSize.go] at h4096
      have hok := sanitizePhrase_ok phrase hne (by omega)
      refine ⟨hok, ?_, ?_⟩
      · intro e he
        simp only [Search, hl, hok] at he
        cases hn : s.words.Norm (trimSpace phrase) with
        | error e1 =>
          rw [hn] at he
          simp only [Except.error.injEq] at he
          exact Or.inl (by rw [he])
        | ok ws =>
          rw [hn] at he
          right
          by_cases hws : ws.length = 0
          · simp [hws] at he
          · simp only [hws, if_false] at he
            cases hsc : s.store.SearchComics ws l with
            | error e2 =>
              rw [hsc] at he
              simp only [Except.error.injEq] at he
              exact ⟨ws, l, by rw [hsc, he]⟩
            | ok r =>
              rw [hsc] at he
              simp at he
      · intro e he
        simp only [ISearch, hl, hok] at he
        cases hn : s.words.Norm (trimSpace phrase) with
        | error e1 =>
          rw [hn] at he
          simp only [Except.error.injEq] at he
          exact Or.inl (by rw [he])
        | ok ws =>
          rw [hn] at he
          right
          by_cases hws : (deduplicateWords ws).length = 0
          · simp [hws] at he
          · simp only [hws, if_false] at he
            by_cases hr : (rankIDs s (deduplicateWords ws)).length = 0
            · simp [hr] at he
            · simp only [hr, if_false] at he
              cases hsc : s.store.GetComicsByIDs
                  (truncateRanked (rankIDs s (deduplicateWords ws)) l) with
              | error e2 =>
                rw [hsc] at he
                simp only [Except.error.injEq] at he
                exact ⟨_, by rw [hsc, he]⟩
              | ok r =>
                rw [hsc] at he
                simp at he

end SearchCore

/-! ## The phrase bound at 4096 and 4097 bytes -/

namespace SearchCore

theorem utf8ByteSize_replicate (n : Nat) :
    (String.mk (List.replicate n 'a')).utf8ByteSize = n := by
  have h : ∀ m, String.utf8ByteSize.go (List.replicate m 'a') = m := by
    intro m
    induction m with
    | zero => rfl
    | succ k ih =>
      rw [List.replicate_succ, String.utf8ByteSize.go, ih]
      rfl
  exact h n

theorem isSpace_a : isSpace 'a' = false := by decide

theorem dropWhile_replicate (n : Nat) :
    (List.replicate n 'a').dropWhile isSpace = List.replicate n 'a' := by
  cases n with
  | zero => rfl
  | succ k => rw [List.replicate_succ, List.dropWhile_cons_of_neg (by simp [isSpace_a])]

theorem trimSpace_replicate (n : Nat) :
    trimSpace ⟨List.replicate n 'a'⟩ = ⟨List.replicate n 'a'⟩ := by
  simp only [trimSpace, dropWhile_replicate, List.reverse_replicate]

theorem trimSpace_padded (n : Nat) :
    trimSpace ⟨List.replicate (n + 1) 'a' ++ [' ']⟩ = ⟨List.replicate (n + 1) 'a'⟩ := by
  have h1 : (List.replicate (n + 1) 'a' ++ [' ']).dropWhile isSpace
      = List.replicate (n + 1) 'a' ++ [' '] := by
    rw [List.replicate_succ, List.cons_append,
      List.dropWhile_cons_of_neg (by simp [isSpace_a])]
  have h2 : (' ' :: List.replicate (n + 1) 'a').dropWhile isSpace
      = List.replicate (n + 1) 'a' := by
    rw [List.dropWhile_cons_of_pos (by decide), dropWhile_replicate]
  simp only [trimSpace, h1, List.reverse_append, List.reverse_replicate, List.reverse_cons,
    List.reverse_nil, List.nil_append, List.singleton_append, h2]

theorem replicate_ne_empty (n : Nat) : (String.mk (List.replicate (n + 1) 'a')) ≠ "" := by
  intro h
  have := congrArg String.data h
  simp [List.replicate_succ] at this

/-- A phrase of 4096 bytes passes `sanitizePhrase` unchanged. -/
theorem sanitizePhrase_4096 :
    sanitizePhrase ⟨List.replicate 4096 'a'⟩ = .ok ⟨List.replicate 4096 'a'⟩ := by
  have h := sanitizePhrase_ok ⟨List.replicate 4096 'a'⟩
    (by rw [trimSpace_replicate]; exact replicate_ne_empty 4095)
    (by rw [trimSpace_replicate, utf8ByteSize_replicate])
  rw [trimSpace_replicate] at h
  exact h

/-- A phrase of 4097 bytes without surrounding white space is too large. -/
theorem sanitizePhrase_4097 :
    sanitizePhrase ⟨List.replicate 4097 'a'⟩ = .error .ErrRequestTooLarge :=
  sanitizePhrase_large _ (by rw [trimSpace_replicate, utf8ByteSize_replicate]; omega)

/-- The bound applies to the trimmed phrase: 4096 bytes followed by one blank pass. -/
theorem sanitizePhrase_padded :
    sanitizePhrase ⟨List.replicate 4096 'a' ++ [' ']⟩ = .ok ⟨List.replicate 4096 'a'⟩ := by
  have h := sanitizePhrase_ok ⟨List.replicate 4096 'a' ++ [' ']⟩
    (by rw [trimSpace_padded 4095]; exact replicate_ne_empty 4095)
    (by rw [trimSpace_padded 4095, utf8ByteSize_replicate])
  rw [trimSpace_padded 4095] at h
  exact h

end SearchCore

/-! ## The clamped total of the database search -/

namespace SearchDB

open SearchCore

theorem SearchComics_ok (db : Conn) (words : List String) (limit : Int) (hw : words ≠ [])
    (hl : 0 < limit) (comics : List Comic) (n : Int)
    (hs : db.selectRanked words limit = .ok comics) (hc : db.countMatching words = .ok n) :
    SearchComics db words limit = .ok (comics, min n limit) := by
  have hlen : ¬ words.length = 0 := by
    simpa [List.length_eq_zero] using hw
  simp only [SearchComics, hlen, if_false, hs, hc, hl, true_and]
  by_cases h : n > limit
  · have : min n limit = limit := min_eq_right (le_of_lt h)
    simp [h, this]
  · have : min n limit = n := min_eq_left (not_lt.1 h)
    simp [h, this]

theorem SearchComics_total_le (db : Conn) (words : List String) (limit : Int) (hl : 0 < limit)
    (comics : List Comic) (total : Int)
    (h : SearchComics db words limit = .ok (comics, total)) : total ≤ limit := by
  unfold SearchComics at h
  by_cases hlen : words.length = 0
  · simp only [hlen, if_true, Except.ok.injEq, Prod.mk.injEq] at h
    omega
  · simp only [hlen, if_false] at h
    cases hs : db.selectRanked words limit with
    | error e => simp [hs] at h
    | ok cs =>
      cases hc : db.countMatching words with
      | error e => simp [hs, hc] at h
      | ok n =>
        simp only [hs, hc, hl, true_and, Except.ok.injEq, Prod.mk.injEq] at h
        by_cases hn : n > limit
        · simp only [hn, if_true] at h
          omega
        · simp only [hn, if_false] at h
          omega

/-- C9: for a non-empty term list and a limit above 0, `SearchComics` returns
`total = min(n, limit)` where `n` is what the count query reports (both queries succeeding),
so every successful `Search` over this store returns a total that is at most its effective
limit. -/
theorem SearchComics_total (db : Conn) (words : List String) (limit : Int)
    (hw : words ≠ []) (hl : 0 < limit) :
    (∀ comics n, db.selectRanked words limit = .ok comics → db.countMatching words = .ok n →
      SearchComics db words limit = .ok (comics, min n limit)) ∧
    (∀ (s : Service) (params : SearchParams) (r : SearchResult),
      s.store.SearchComics = SearchComics db → Search s params = .ok r →
      ∃ l, normalizeLimit params.Limit = .ok l ∧ r.Total ≤ l) := by
  refine ⟨fun comics n hs hc => SearchComics_ok db words limit hw hl comics n hs hc, ?_⟩
  intro s params r hstore hr
  unfold Search at hr
  cases hlim : normalizeLimit params.Limit with
  | error e => simp [hlim] at hr
  | ok l =>
    have hpos : 0 < l := by
      unfold normalizeLimit at hlim
      split_ifs at hlim with h1 h2
      · simp only [Except.ok.injEq] at hlim
        rw [← hlim]
        simp [defaultLimit]
      · simp only [Except.ok.injEq] at hlim
        omega
    refine ⟨l, rfl, ?_⟩
    simp only [hlim] at hr
    cases hp : sanitizePhrase params.Phrase with
    | error e => simp [hp] at hr
    | ok phrase =>
      simp only [hp] at hr
      cases hn : s.words.Norm phrase with
      | error e => simp [hn] at hr
      | ok ws =>
        simp only [hn] at hr
        by_cases hws : ws.length = 0
        · simp only [hws, if_true, Except.ok.injEq] at hr
          rw [← hr]
          exact le_of_lt hpos
        · simp only [hws, if_false, hstore] at hr
          cases hsc : SearchComics db ws l with
          | error e => simp [hsc] at hr
          | ok res =>
            obtain ⟨comics, total⟩ := res
            simp only [hsc, Except.ok.injEq] at hr
            rw [← hr]
            exact SearchComics_total_le db ws l hpos comics total hsc

/-- C9 at the limit 2 with 5 matching rows: the total returned is 2. -/
theorem SearchComics_total_witness :
    ["foo", "bar"] ≠ [] ∧ (0 : Int) < 2 ∧
    SearchComics exampleConn ["foo", "bar"] 2 = .ok ([⟨1, "url1"⟩, ⟨2, "url2"⟩], 2) :=
  ⟨by decide, by decide,
    (SearchComics_total exampleConn ["foo", "bar"] 2 (by decide) (by decide)).1 _ 5 rfl rfl⟩

end SearchDB

/-! ## Ordering the fetched rows -/

namespace SearchCore

open GoMap

theorem mget_collect (source : List Comic) (m : List (Int × Comic)) (id : Int) :
    (∀ c, mget (source.foldl (fun m comic => mset m comic.ID comic) m) id = some c →
      (c ∈ source ∧ c.ID = id) ∨ mget m id = some c) ∧
    (mget (source.foldl (fun m comic => mset m comic.ID comic) m) id = none ↔
      id ∉ source.map Comic.ID ∧ mget m id = none) := by
  induction source generalizing m with
  | nil => simp
  | cons a rest ih =>
    simp only [List.foldl_cons]
    obtain ⟨ih1, ih2⟩ := ih (mset m a.ID a)
    constructor
    · intro c hc
      rcases ih1 c hc with ⟨hmem, hid⟩ | hm
      · exact Or.inl ⟨List.mem_cons_of_mem _ hmem, hid⟩
      · rw [mget_mset] at hm
        by_cases ha : a.ID = id
        · simp only [ha, if_true, Option.some.injEq] at hm
          subst hm
          exact Or.inl ⟨List.mem_cons_self _ _, ha⟩
        · simp only [ha, if_false] at hm
          exact Or.inr hm
    · rw [ih2, mget_mset]
      by_cases ha : a.ID = id
      · simp [ha]
      · simp [ha, Ne.symm ha]

theorem orderComics_ids (source : List Comic) (order : List Int) :
    (orderComics source order).map Comic.ID
      = order.filter (fun id => decide (id ∈ source.map Comic.ID)) := by
  unfold orderComics
  by_cases h : source.length = 0 ∨ order.length = 0
  · simp only [h, if_true, List.map_nil]
    rcases h with h | h
    · rw [List.length_eq_zero] at h
      subst h
      simp
    · rw [List.length_eq_zero] at h
      subst h
      simp
  · simp only [h, if_false]
    induction order with
    | nil => simp
    | cons id rest ih =>
      obtain ⟨h1, h2⟩ := mget_collect source [] id
      cases hm : mget (source.foldl (fun m comic => mset m comic.ID comic) []) id with
      | none =>
        have hnot := (h2.1 hm).1
        simp only [List.filterMap_cons, hm]
        rw [List.filter_cons_of_neg (by simpa using hnot)]
        by_cases hr : rest.length = 0
        · rw [List.length_eq_zero] at hr
          subst hr
          simp
        · exact ih (by
            intro hh
            rcases hh with hh | hh
            · exact h (Or.inl hh)
            · exact hr hh)
      | some c =>
        have hc : c ∈ source ∧ c.ID = id := by
          rcases h1 c hm with hc | hc
          · exact hc
          · simp [mget] at hc
        have hin : id ∈ source.map Comic.ID := by
          rw [← hc.2]
          exact List.mem_map_of_mem _ hc.1
        simp only [List.filterMap_cons, hm, List.map_cons]
        rw [List.filter_cons_of_pos (by simpa using hin), hc.2]
        by_cases hr : rest.length = 0
        · rw [List.length_eq_zero] at hr
          subst hr
          simp
        · rw [ih (by
            intro hh
            rcases hh with hh | hh
            · exact h (Or.inl hh)
            · exact hr hh)]

theorem orderComics_mem (source : List Comic) (order : List Int) (c : Comic)
    (h : c ∈ orderComics source order) : c ∈ source ∧ c.ID ∈ order := by
  unfold orderComics at h
  by_cases h0 : source.length = 0 ∨ order.length = 0
  · rw [if_pos h0] at h
    simp at h
  · simp only [h0, if_false, List.mem_filterMap] at h
    obtain ⟨id, hid, hm⟩ := h
    rcases (mget_collect source [] id).1 c hm with hc | hc
    · exact ⟨hc.1, by rw [hc.2]; exact hid⟩
    · simp [mget] at hc

theorem truncateRanked_eq (ranked : List Int) (limit : Int) (h : 0 ≤ limit) :
    truncateRanked ranked limit = ranked.take limit.toNat := by
  unfold truncateRanked
  split_ifs with hlen
  · rfl
  · rw [List.take_of_length_le]
    omega

/-- C3: a successful `ISearch` with effective limit `L` returns at most `L` comics; when
nothing is ranked it returns none, and otherwise the store was asked for the first `L` ranked
ids and the ids of the returned comics are those of the first `L` ranked ids that occur among
the fetched rows, in ranked order, each returned comic being one of the fetched rows. -/
theorem ISearch_comics (s : Service) (params : SearchParams) (r : SearchResult)
    (h : ISearch s params = .ok r) :
    ∃ L ws, normalizeLimit params.Limit = .ok L ∧
      s.words.Norm (trimSpace params.Phrase) = .ok ws ∧
      (r.Comics.length : Int) ≤ L ∧
      ((rankIDs s (deduplicateWords ws)).take L.toNat = [] → r.Comics = []) ∧
      ((rankIDs s (deduplicateWords ws)).take L.toNat ≠ [] →
        ∃ fetched,
          s.store.GetComicsByIDs ((rankIDs s (deduplicateWords ws)).take L.toNat)
            = .ok fetched ∧
          r.Comics.map Comic.ID = ((rankIDs s (deduplicateWords ws)).take L.toNat).filter
            (fun id => decide (id ∈ fetched.map Comic.ID)) ∧
          ∀ c ∈ r.Comics, c ∈ fetched ∧
            c.ID ∈ (rankIDs s (deduplicateWords ws)).take L.toNat) := by
  unfold ISearch at h
  cases hlim : normalizeLimit params.Limit with
  | error e => simp [hlim] at h
  | ok L =>
    have hpos : 0 < L := by
      unfold normalizeLimit at hlim
      split_ifs at hlim with h1 h2
      · simp only [Except.ok.injEq] at hlim
        rw [← hlim]
        simp [defaultLimit]
      · simp only [Except.ok.injEq] at hlim
        omega
    simp only [hlim] at h
    cases hp : sanitizePhrase params.Phrase with
    | error e => simp [hp] at h
    | ok phrase =>
      have hphrase : phrase = trimSpace params.Phrase := by
        simp only [sanitizePhrase] at hp
        split_ifs at hp
        simp only [Except.ok.injEq] at hp
        exact hp.symm
      subst hphrase
      simp only [hp] at h
      cases hn : s.words.Norm (trimSpace params.Phrase) with
      | error e => simp [hn] at h
      | ok ws =>
        simp only [hn] at h
        refine ⟨L, ws, rfl, rfl, ?_⟩
        by_cases hws : (deduplicateWords ws).length = 0
        · simp only [hws, if_true, Except.ok.injEq] at h
          subst h
          refine ⟨by simpa using le_of_lt hpos, fun _ => rfl, ?_⟩
          intro hne
          exfalso
          apply hne
          have : rankIDs s (deduplicateWords ws) = [] := by
            simp [rankIDs, hws]
          simp [this]
        · simp only [hws, if_false] at h
          by_cases hr : (rankIDs s (deduplicateWords ws)).length = 0
          · simp only [hr, if_true, Except.ok.injEq] at h
            subst h
            refine ⟨by simpa using le_of_lt hpos, fun _ => rfl, ?_⟩
            intro hne
            exfalso
            apply hne
            rw [List.length_eq_zero] at hr
            simp [hr]
          · simp only [hr, if_false] at h
            rw [truncateRanked_eq _ _ (le_of_lt hpos)] at h
            cases hg : s.store.GetComicsByIDs
                ((rankIDs s (deduplicateWords ws)).take L.toNat) with
            | error e => simp [hg] at h
            | ok fetched =>
              simp only [hg, Except.ok.injEq] at h
              subst h
              have hids := orderComics_ids fetched
                ((rankIDs s (deduplicateWords ws)).take L.toNat)
              refine ⟨?_, ?_, ?_⟩
              · have h1 : (orderComics fetched
                    ((rankIDs s (deduplicateWords ws)).take L.toNat)).length
                    ≤ ((rankIDs s (deduplicateWords ws)).take L.toNat).length := by
                  rw [← List.length_map _ Comic.ID, hids]
                  exact List.length_filter_le _ _
                have h2 : ((rankIDs s (deduplicateWords ws)).take L.toNat).length
                    ≤ L.toNat := by
                  rw [List.length_take]
                  exact min_le_left _ _
                simp only
                omega
              · intro htop
                simp only
                rw [htop]
                simp [orderComics]
              · intro _
                exact ⟨fetched, rfl, hids, fun c hc => orderComics_mem _ _ c hc⟩

end SearchCore

namespace SearchCore

/-- C3 on the scenario catalog: phrase "bar baz" with limit 1 returns the comic 2 alone. -/
theorem ISearch_comics_witness :
    ISearch Examples.service ⟨"bar baz", 1⟩ = .ok ⟨[⟨2, "u2"⟩], 2⟩ ∧
    ∃ L ws, normalizeLimit 1 = .ok L ∧
      Examples.service.words.Norm (trimSpace "bar baz") = .ok ws ∧
      (([⟨2, "u2"⟩] : List Comic).length : Int) ≤ L ∧
      ((rankIDs Examples.service (deduplicateWords ws)).take L.toNat = [] →
        ([⟨2, "u2"⟩] : List Comic) = []) ∧
      ((rankIDs Examples.service (deduplicateWords ws)).take L.toNat ≠ [] →
        ∃ fetched,
          Examples.service.store.GetComicsByIDs
            ((rankIDs Examples.service (deduplicateWords ws)).take L.toNat) = .ok fetched ∧
          ([⟨2, "u2"⟩] : List Comic).map Comic.ID
            = ((rankIDs Examples.service (deduplicateWords ws)).take L.toNat).filter
              (fun id => decide (id ∈ fetched.map Comic.ID)) ∧
          ∀ c ∈ ([⟨2, "u2"⟩] : List Comic), c ∈ fetched ∧
            c.ID ∈ (rankIDs Examples.service (deduplicateWords ws)).take L.toNat) :=
  ⟨rfl, ISearch_comics Examples.service ⟨"bar baz", 1⟩ ⟨[⟨2, "u2"⟩], 2⟩ rfl⟩

end SearchCore

/-! ## Counting the matches -/

namespace SearchCore

open GoMap

theorem mget_bump (counts : List (Int × Nat)) (id j : Int) :
    (mget (bump counts id) j).getD 0
      = (mget counts j).getD 0 + (if id = j then 1 else 0) := by
  unfold bump
  rw [mget_mset]
  by_cases h : id = j
  · subst h
    simp
  · simp [h]

theorem mem_keys_bump (counts : List (Int × Nat)) (id j : Int) :
    j ∈ keys (bump counts id) ↔ j = id ∨ j ∈ keys counts := by
  unfold bump
  exact mem_keys_mset _ _ _ _

theorem nodup_keys_bump (counts : List (Int × Nat)) (id : Int) (h : (keys counts).Nodup) :
    (keys (bump counts id)).Nodup := by
  unfold bump
  exact nodup_keys_mset _ _ _ h

theorem mget_foldl_bump (ids : List Int) (counts : List (Int × Nat)) (j : Int) :
    (mget (ids.foldl bump counts) j).getD 0 = (mget counts j).getD 0 + ids.count j := by
  induction ids generalizing counts with
  | nil => simp
  | cons a rest ih =>
    rw [List.foldl_cons, ih, mget_bump, List.count_cons]
    by_cases h : a = j
    · subst h
      simp
      omega
    · have h2 : ¬ (a == j) = true := by simpa using h
      simp [h, h2]

theorem mem_keys_foldl_bump (ids : List Int) (counts : List (Int × Nat)) (j : Int) :
    j ∈ keys (ids.foldl bump counts) ↔ j ∈ ids ∨ j ∈ keys counts := by
  induction ids generalizing counts with
  | nil => simp
  | cons a rest ih =>
    rw [List.foldl_cons, ih, mem_keys_bump, List.mem_cons]
    tauto

theorem nodup_keys_foldl_bump (ids : List Int) (counts : List (Int × Nat))
    (h : (keys counts).Nodup) : (keys (ids.foldl bump counts)).Nodup := by
  induction ids generalizing counts with
  | nil => simpa using h
  | cons a rest ih =>
    rw [List.foldl_cons]
    exact ih _ (nodup_keys_bump _ _ h)

theorem countWords_cons (index : Index) (w : String) (ws : List String)
    (counts : List (Int × Nat)) :
    countWords index (w :: ws) counts
      = countWords index ws (((mget index w).getD []).foldl bump counts) := by
  cases h : mget index w with
  | none => simp [countWords, h]
  | some ids => simp [countWords, h]

theorem mget_countWords (index : Index) (ws : List String) (counts : List (Int × Nat))
    (j : Int) :
    (mget (countWords index ws counts) j).getD 0
      = (mget counts j).getD 0
        + (ws.map (fun t => ((mget index t).getD []).count j)).sum := by
  induction ws generalizing counts with
  | nil => simp [countWords]
  | cons w rest ih =>
    rw [countWords_cons, ih, mget_foldl_bump]
    simp only [List.map_cons, List.sum_cons]
    omega

theorem mem_keys_countWords (index : Index) (ws : List String) (counts : List (Int × Nat))
    (j : Int) :
    j ∈ keys (countWords index ws counts)
      ↔ (∃ t ∈ ws, j ∈ (mget index t).getD []) ∨ j ∈ keys counts := by
  induction ws generalizing counts with
  | nil => simp [countWords]
  | cons w rest ih =>
    rw [countWords_cons, ih, mem_keys_foldl_bump]
    constructor
    · rintro (⟨t, ht, hj⟩ | hj | hj)
      · exact Or.inl ⟨t, List.mem_cons_of_mem _ ht, hj⟩
      · exact Or.inl ⟨w, List.mem_cons_self _ _, hj⟩
      · exact Or.inr hj
    · rintro (⟨t, ht, hj⟩ | hj)
      · rcases List.mem_cons.1 ht with rfl | ht
        · exact Or.inr (Or.inl hj)
        · exact Or.inl ⟨t, ht, hj⟩
      · exact Or.inr (Or.inr hj)

theorem nodup_keys_countWords (index : Index) (ws : List String) (counts : List (Int × Nat))
    (h : (keys counts).Nodup) : (keys (countWords index ws counts)).Nodup := by
  induction ws generalizing counts with
  | nil => simpa [countWords] using h
  | cons w rest ih =>
    rw [countWords_cons]
    exact ih _ (nodup_keys_foldl_bump _ _ h)

theorem sum_count_eq_nMatches (index : Index) (ws : List String) (j : Int)
    (hidx : ∀ t ids, mget index t = some ids → ids.Nodup) :
    (ws.map (fun t => ((mget index t).getD []).count j)).sum = nMatches index ws j := by
  unfold nMatches
  induction ws with
  | nil => simp
  | cons w rest ih =>
    have hnd : ((mget index w).getD []).Nodup := by
      cases h : mget index w with
      | none => simp
      | some ids => simpa using hidx w ids h
    simp only [List.map_cons, List.sum_cons, ih]
    by_cases hj : j ∈ (mget index w).getD []
    · rw [List.filter_cons_of_pos (by simpa using hj), List.length_cons,
        List.count_eq_one_of_mem hnd hj]
      omega
    · rw [List.filter_cons_of_neg (by simpa using hj), List.count_eq_zero_of_not_mem hj]
      omega

/-! ## Sorting the ranked entries -/

theorem notAfter_iff (a b : Int × Nat) :
    notAfter a b ↔ a.2 > b.2 ∨ (a.2 = b.2 ∧ a.1 ≤ b.1) := by
  unfold notAfter less
  by_cases h : b.2 = a.2
  · simp only [h, if_true, decide_eq_false_iff_not, not_lt]
    constructor
    · intro hle
      exact Or.inr ⟨trivial, hle⟩
    · rintro (hgt | ⟨_, hle⟩)
      · omega
      · exact hle
  · simp only [h, if_false, decide_eq_false_iff_not, not_lt, gt_iff_lt]
    constructor
    · intro hle
      left
      omega
    · rintro (hgt | ⟨heq, _⟩)
      · omega
      · exact absurd heq.symm h

instance : IsTotal (Int × Nat) notAfter where
  total a b := by
    rw [notAfter_iff, notAfter_iff]
    omega

instance : IsTrans (Int × Nat) notAfter where
  trans a b c := by
    rw [notAfter_iff, notAfter_iff, notAfter_iff]
    omega

theorem sortRanked_perm (entries : List (Int × Nat)) : (sortRanked entries).Perm entries :=
  List.perm_insertionSort _ _

theorem sortRanked_sorted (entries : List (Int × Nat)) :
    (sortRanked entries).Sorted notAfter :=
  List.sorted_insertionSort _ _

theorem rankIDs_eq (s : Service) (words : List String) :
    rankIDs s words = rankEntries (countWords s.index words []) := by
  unfold rankIDs
  by_cases h : s.index.length = 0 ∨ words.length = 0
  · rw [if_pos h]
    have hempty : countWords s.index words [] = [] := by
      rcases h with h | h
      · rw [List.length_eq_zero] at h
        rw [h]
        generalize ([] : List (Int × Nat)) = c
        induction words generalizing c with
        | nil => simp [countWords]
        | cons w rest ih => simp [countWords, mget, ih]
      · rw [List.length_eq_zero] at h
        rw [h]
        simp [countWords]
    rw [hempty]
    rfl
  · rw [if_neg h]

end SearchCore

/-! ## The ranking contract -/

namespace SearchCore

open GoMap

instance : IsAntisymm (Int × Nat) notAfter where
  antisymm a b := by
    rw [notAfter_iff, notAfter_iff]
    intro h1 h2
    have h : a.1 = b.1 ∧ a.2 = b.2 := by omega
    exact Prod.ext h.1 h.2

/-- The ranked ids do not depend on the order in which the `counts` map is iterated. -/
theorem rankEntries_perm (es₁ es₂ : List (Int × Nat)) (h : es₁.Perm es₂) :
    rankEntries es₁ = rankEntries es₂ := by
  unfold rankEntries
  have hp : (sortRanked es₁).Perm (sortRanked es₂) :=
    ((sortRanked_perm es₁).trans h).trans (sortRanked_perm es₂).symm
  rw [List.eq_of_perm_of_sorted hp (sortRanked_sorted es₁) (sortRanked_sorted es₂)]

theorem value_countWords (index : Index) (words : List String)
    (hidx : ∀ t ids, mget index t = some ids → ids.Nodup) (e : Int × Nat)
    (he : e ∈ countWords index words []) : e.2 = nMatches index words e.1 := by
  have hnd := nodup_keys_countWords index words [] (by simp [keys])
  have hget := mget_of_mem _ e.1 e.2 hnd he
  have hsum := mget_countWords index words [] e.1
  rw [hget, sum_count_eq_nMatches index words e.1 hidx] at hsum
  simpa [mget] using hsum

theorem mem_rankIDs (s : Service) (words : List String) (id : Int) :
    id ∈ rankIDs s words ↔ ∃ t ∈ words, id ∈ (mget s.index t).getD [] := by
  rw [rankIDs_eq]
  unfold rankEntries
  have hp := (sortRanked_perm (countWords s.index words [])).map Prod.fst
  rw [hp.mem_iff]
  have := mem_keys_countWords s.index words [] id
  simpa [keys] using this

theorem nodup_rankIDs (s : Service) (words : List String) : (rankIDs s words).Nodup := by
  rw [rankIDs_eq]
  unfold rankEntries
  have hp := (sortRanked_perm (countWords s.index words [])).map Prod.fst
  rw [hp.nodup_iff]
  exact nodup_keys_countWords s.index words [] (by simp [keys])

theorem mem_getD_iff (index : Index) (t : String) (id : Int) :
    id ∈ (mget index t).getD [] ↔ ∃ ids, mget index t = some ids ∧ id ∈ ids := by
  cases h : mget index t with
  | none => simp
  | some ids => simp

/-- C1: on an index whose posting lists have no duplicate ids and for distinct non-empty
terms, `rankIDs` returns each id once, returns exactly the ids that occur in the posting list
of at least one term, and orders them by matches descending, then id ascending, the matches
of an id being the number of terms whose posting list contains it. -/
theorem rankIDs_spec (s : Service) (words : List String)
    (hidx : ∀ t ids, mget s.index t = some ids → ids.Nodup)
    (_hw : words.Nodup) (_hne : "" ∉ words) :
    (rankIDs s words).Nodup ∧
    (∀ id, id ∈ rankIDs s words ↔
      ∃ t ∈ words, ∃ ids, mget s.index t = some ids ∧ id ∈ ids) ∧
    (rankIDs s words).Pairwise (fun a b =>
      nMatches s.index words a > nMatches s.index words b ∨
      (nMatches s.index words a = nMatches s.index words b ∧ a < b)) := by
  refine ⟨nodup_rankIDs s words, ?_, ?_⟩
  · intro id
    rw [mem_rankIDs]
    constructor
    · rintro ⟨t, ht, hid⟩
      exact ⟨t, ht, (mem_getD_iff _ _ _).1 hid⟩
    · rintro ⟨t, ht, hid⟩
      exact ⟨t, ht, (mem_getD_iff _ _ _).2 hid⟩
  · have hnd := nodup_rankIDs s words
    rw [rankIDs_eq] at hnd ⊢
    unfold rankEntries at hnd ⊢
    rw [List.pairwise_map]
    have h1 : (sortRanked (countWords s.index words [])).Pairwise notAfter :=
      sortRanked_sorted _
    have h2 : (sortRanked (countWords s.index words [])).Pairwise
        (fun a b => a.1 ≠ b.1) := by
      rw [List.Nodup, List.pairwise_map] at hnd
      exact hnd
    refine (h1.and h2).imp_of_mem ?_
    intro a b ha hb hab
    have ha2 := value_countWords s.index words hidx a ((sortRanked_perm _).mem_iff.1 ha)
    have hb2 := value_countWords s.index words hidx b ((sortRanked_perm _).mem_iff.1 hb)
    obtain ⟨hle, hne⟩ := hab
    rw [notAfter_iff] at hle
    rw [← ha2, ← hb2]
    rcases hle with hgt | ⟨heq, hle⟩
    · exact Or.inl hgt
    · exact Or.inr ⟨heq, lt_of_le_of_ne hle hne⟩

/-- C1 on the scenario catalog: the terms bar and baz rank comic 2 (two matches) before
comic 1 (one match). -/
theorem rankIDs_spec_witness :
    (∀ t ids, mget Examples.service.index t = some ids → ids.Nodup) ∧
    ["bar", "baz"].Nodup ∧ "" ∉ ["bar", "baz"] ∧
    rankIDs Examples.service ["bar", "baz"] = [2, 1] ∧
    ((rankIDs Examples.service ["bar", "baz"]).Nodup ∧
    (∀ id, id ∈ rankIDs Examples.service ["bar", "baz"] ↔
      ∃ t ∈ ["bar", "baz"], ∃ ids, mget Examples.service.index t = some ids ∧ id ∈ ids) ∧
    (rankIDs Examples.service ["bar", "baz"]).Pairwise (fun a b =>
      nMatches Examples.service.index ["bar", "baz"] a
        > nMatches Examples.service.index ["bar", "baz"] b ∨
      (nMatches Examples.service.index ["bar", "baz"] a
        = nMatches Examples.service.index ["bar", "baz"] b ∧ a < b))) :=
  have hidx : ∀ t ids, mget Examples.service.index t = some ids → ids.Nodup :=
    fun t ids h =>
      (by decide : ∀ e ∈ Examples.service.index, e.2.Nodup) (t, ids) (mem_of_mget _ _ _ h)
  ⟨hidx, by decide, by decide, by decide,
    rankIDs_spec Examples.service ["bar", "baz"] hidx (by decide) (by decide)⟩

theorem length_rankIDs (s : Service) (words : List String) :
    (rankIDs s words).length = (matchedIDs s.index words).card := by
  have h : (rankIDs s words).toFinset = matchedIDs s.index words := by
    ext id
    rw [List.mem_toFinset, mem_rankIDs]
    simp [matchedIDs]
  rw [← h, List.toFinset_card_of_nodup (nodup_rankIDs s words)]

theorem ISearch_total_eq (s : Service) (params : SearchParams) (r : SearchResult)
    (h : ISearch s params = .ok r) :
    ∃ ws, s.words.Norm (trimSpace params.Phrase) = .ok ws ∧
      r.Total = ((rankIDs s (deduplicateWords ws)).length : Int) := by
  unfold ISearch at h
  cases hlim : normalizeLimit params.Limit with
  | error e => simp [hlim] at h
  | ok L =>
    simp only [hlim] at h
    cases hp : sanitizePhrase params.Phrase with
    | error e => simp [hp] at h
    | ok phrase =>
      have hphrase : phrase = trimSpace params.Phrase := by
        simp only [sanitizePhrase] at hp
        split_ifs at hp
        simp only [Except.ok.injEq] at hp
        exact hp.symm
      subst hphrase
      simp only [hp] at h
      cases hn : s.words.Norm (trimSpace params.Phrase) with
      | error e => simp [hn] at h
      | ok ws =>
        simp only [hn] at h
        refine ⟨ws, rfl, ?_⟩
        by_cases hws : (deduplicateWords ws).length = 0
        · simp only [hws, if_true, Except.ok.injEq] at h
          subst h
          have : rankIDs s (deduplicateWords ws) = [] := by
            simp [rankIDs, hws]
          simp [this]
        · simp only [hws, if_false] at h
          by_cases hr : (rankIDs s (deduplicateWords ws)).length = 0
          · simp only [hr, if_true, Except.ok.injEq] at h
            subst h
            simp [hr]
          · simp only [hr, if_false] at h
            cases hg : s.store.GetComicsByIDs
                (truncateRanked (rankIDs s (deduplicateWords ws)) L) with
            | error e => simp [hg] at h
            | ok fetched =>
              simp only [hg, Except.ok.injEq] at h
              subst h
              rfl

/-- C2: when `ISearch` succeeds for one index and phrase with two limits `L1, L2 >= 1`, both
calls return the same total, and it is the number of ids that occur in the posting list of at
least one deduplicated term of the phrase: the limit does not clamp it. -/
theorem ISearch_total (s : Service) (phrase : String) (L1 L2 : Int) (r1 r2 : SearchResult)
    (_h1 : 1 ≤ L1) (_h2 : 1 ≤ L2)
    (hr1 : ISearch s ⟨phrase, L1⟩ = .ok r1) (hr2 : ISearch s ⟨phrase, L2⟩ = .ok r2) :
    r1.Total = r2.Total ∧
    ∃ ws, s.words.Norm (trimSpace phrase) = .ok ws ∧
      r1.Total = ((matchedIDs s.index (deduplicateWords ws)).card : Int) := by
  obtain ⟨ws1, hn1, ht1⟩ := ISearch_total_eq s _ r1 hr1
  obtain ⟨ws2, hn2, ht2⟩ := ISearch_total_eq s _ r2 hr2
  simp only at hn1 hn2
  rw [hn1] at hn2
  simp only [Except.ok.injEq] at hn2
  subst hn2
  refine ⟨by rw [ht1, ht2], ws1, hn1, ?_⟩
  rw [ht1, length_rankIDs]

/-- C2 on the scenario catalog: the phrase "bar baz" gives the total 2 with limit 1 as with
limit 10. -/
theorem ISearch_total_witness :
    (1 : Int) ≤ 1 ∧ (1 : Int) ≤ 10 ∧
    ISearch Examples.service ⟨"bar baz", 1⟩ = .ok ⟨[⟨2, "u2"⟩], 2⟩ ∧
    ISearch Examples.service ⟨"bar baz", 10⟩ = .ok ⟨[⟨2, "u2"⟩, ⟨1, "u1"⟩], 2⟩ ∧
    ((2 : Int) = 2 ∧
    ∃ ws, Examples.service.words.Norm (trimSpace "bar baz") = .ok ws ∧
      (2 : Int) = ((matchedIDs Examples.service.index (deduplicateWords ws)).card : Int)) :=
  ⟨by decide, by decide, rfl, rfl,
    ISearch_total Examples.service "bar baz" 1 10 ⟨[⟨2, "u2"⟩], 2⟩
      ⟨[⟨2, "u2"⟩, ⟨1, "u1"⟩], 2⟩ (by decide) (by decide) rfl rfl⟩

end SearchCore

/-! ## Rebuilding the index -/

namespace SearchCore

open GoMap

theorem mget_appendPosting (index : Index) (w t : String) (id : Int) :
    mget (appendPosting index w id) t
      = if w = t then some ((mget index w).getD [] ++ [id]) else mget index t := by
  unfold appendPosting
  exact mget_mset _ _ _ _

theorem mget_indexRow (id : Int) (ws seen : List String) (index : Index) (t : String) :
    mget (indexRow id ws seen index) t
      = if t ∈ keep ws seen then some ((mget index t).getD [] ++ [id]) else mget index t := by
  induction ws generalizing seen index with
  | nil => simp [indexRow, keep]
  | cons w rest ih =>
    by_cases h1 : w = ""
    · simp only [indexRow, h1, if_true, keep, true_or]
      exact ih seen index
    · by_cases h2 : w ∈ seen
      · simp only [indexRow, h1, h2, if_true, if_false, keep, or_true]
        exact ih seen index
      · simp only [indexRow, h1, h2, if_false, keep, false_or]
        rw [ih, mget_appendPosting]
        by_cases htw : w = t
        · subst htw
          have hnot : w ∉ keep rest (w :: seen) := by
            rw [mem_keep]
            simp
          simp [hnot]
        · have hmem : t ∈ w :: keep rest (w :: seen) ↔ t ∈ keep rest (w :: seen) := by
            simp [Ne.symm htw]
          simp only [htw, if_false, hmem]

theorem rowsOf_cons (r : Int × List String) (rest : List (Int × List String)) (t : String) :
    rowsOf (r :: rest) t
      = if t ∈ keep r.2 [] then r.1 :: rowsOf rest t else rowsOf rest t := by
  unfold rowsOf
  by_cases h : t ∈ keep r.2 []
  · rw [List.filter_cons_of_pos (by simpa using h)]
    simp [h]
  · rw [List.filter_cons_of_neg (by simpa using h)]
    simp [h]

theorem mget_indexRows (data : List (Int × List String)) (index : Index) (t : String) :
    mget (indexRows data index) t
      = if rowsOf data t = [] then mget index t
        else some ((mget index t).getD [] ++ rowsOf data t) := by
  induction data generalizing index with
  | nil => simp [indexRows, rowsOf]
  | cons r rest ih =>
    obtain ⟨id, words⟩ := r
    rw [rowsOf_cons]
    by_cases hlen : words.length = 0
    · have hw : words = [] := List.length_eq_zero.1 hlen
      subst hw
      simp only [indexRows, List.length_nil, if_true, keep, List.not_mem_nil, if_false]
      exact ih index
    · simp only [indexRows, hlen, if_false]
      rw [ih, mget_indexRow]
      by_cases ht : t ∈ keep words []
      · simp only [ht, if_true]
        by_cases hr : rowsOf rest t = []
        · simp [hr]
        · simp [hr]
      · simp only [ht, if_false]

theorem mget_sortPostings (index : Index) (t : String) :
    mget (sortPostings index) t = (mget index t).map sortInts := by
  unfold sortPostings
  induction index with
  | nil => simp [mget]
  | cons e rest ih =>
    obtain ⟨k, v⟩ := e
    by_cases h : k = t
    · simp [mget, h]
    · simp [mget, h, ih]

theorem mget_buildIndex (data : List (Int × List String)) (t : String) :
    mget (buildIndex data) t
      = if rowsOf data t = [] then none else some (sortInts (rowsOf data t)) := by
  unfold buildIndex
  rw [mget_sortPostings, mget_indexRows]
  by_cases h : rowsOf data t = []
  · simp [h, mget]
  · simp [h, mget]

theorem mem_rowsOf (data : List (Int × List String)) (hkeys : (data.map Prod.fst).Nodup)
    (t : String) (id : Int) :
    id ∈ rowsOf data t ↔ t ≠ "" ∧ ∃ words, mget data id = some words ∧ t ∈ words := by
  unfold rowsOf
  simp only [List.mem_map, List.mem_filter, decide_eq_true_eq, mem_keep, List.not_mem_nil,
    not_false_eq_true, and_true]
  constructor
  · rintro ⟨⟨id', words⟩, ⟨hmem, hin, hne⟩, hid⟩
    simp only at hid hin
    subst hid
    exact ⟨hne, words, mget_of_mem data id' words hkeys hmem, hin⟩
  · rintro ⟨hne, words, hget, hin⟩
    exact ⟨(id, words), ⟨mem_of_mget data id words hget, hin, hne⟩, rfl⟩

theorem nodup_rowsOf (data : List (Int × List String)) (hkeys : (data.map Prod.fst).Nodup)
    (t : String) : (rowsOf data t).Nodup := by
  unfold rowsOf
  exact hkeys.sublist ((List.filter_sublist _).map Prod.fst)

theorem sortInts_perm (ids : List Int) : (sortInts ids).Perm ids :=
  List.perm_insertionSort _ _

theorem sortInts_sorted (ids : List Int) : (sortInts ids).Sorted (· ≤ ·) :=
  List.sorted_insertionSort _ _

theorem sortInts_strict (ids : List Int) (h : ids.Nodup) : (sortInts ids).Sorted (· < ·) :=
  (sortInts_sorted ids).lt_of_le ((sortInts_perm ids).nodup_iff.2 h)

theorem rowsOf_perm (data₁ data₂ : List (Int × List String)) (h : data₁.Perm data₂)
    (t : String) : (rowsOf data₁ t).Perm (rowsOf data₂ t) := by
  unfold rowsOf
  exact (h.filter _).map _

theorem mget_buildIndex_perm (data₁ data₂ : List (Int × List String)) (h : data₁.Perm data₂)
    (t : String) : mget (buildIndex data₁) t = mget (buildIndex data₂) t := by
  rw [mget_buildIndex, mget_buildIndex]
  have hp := rowsOf_perm data₁ data₂ h t
  have hs : sortInts (rowsOf data₁ t) = sortInts (rowsOf data₂ t) :=
    List.eq_of_perm_of_sorted (((sortInts_perm _).trans hp).trans (sortInts_perm _).symm)
      (sortInts_sorted _) (sortInts_sorted _)
  by_cases h1 : rowsOf data₁ t = []
  · have h2 : rowsOf data₂ t = [] := by
      rw [h1] at hp
      exact List.perm_nil.1 hp.symm
    simp [h1, h2]
  · have h2 : rowsOf data₂ t ≠ [] := by
      intro h2
      rw [h2] at hp
      exact h1 (List.perm_nil.1 hp)
    simp [h1, h2, hs]

theorem RebuildIndex_ok (s : Service) (data : List (Int × List String))
    (hload : s.store.LoadIndexData = .ok data) :
    RebuildIndex s = .ok { s with index := buildIndex data } := by
  simp [RebuildIndex, hload]

/-- C4: after a successful `RebuildIndex` on a snapshot (a map: its ids are distinct), every
posting list of the index is strictly ascending, and for every term and every id of its
posting list the snapshot row of that id has the term among its words. -/
theorem RebuildIndex_purity (s : Service) (data : List (Int × List String))
    (hkeys : (data.map Prod.fst).Nodup) (hload : s.store.LoadIndexData = .ok data) :
    ∃ s', RebuildIndex s = .ok s' ∧
      ∀ term ids, mget s'.index term = some ids →
        ids.Sorted (· < ·) ∧
        ∀ id ∈ ids, ∃ words, mget data id = some words ∧ term ∈ words := by
  refine ⟨_, RebuildIndex_ok s data hload, ?_⟩
  intro term ids hget
  simp only at hget
  rw [mget_buildIndex] at hget
  by_cases h : rowsOf data term = []
  · simp [h] at hget
  · simp only [h, if_false, Option.some.injEq] at hget
    subst hget
    refine ⟨sortInts_strict _ (nodup_rowsOf data hkeys term), ?_⟩
    intro id hid
    have hid2 := (sortInts_perm _).mem_iff.1 hid
    exact ((mem_rowsOf data hkeys term id).1 hid2).2

/-- C5: the index `RebuildIndex` publishes has a posting list exactly for the non-empty terms
that occur in at least one row; the list of a term is the strictly ascending list of the ids
of all rows containing the term; there is no entry for the empty string and no empty posting
list; the result is the same whatever index the service held before and in whatever order
the rows of the snapshot are iterated. -/
theorem RebuildIndex_exact (s : Service) (data : List (Int × List String))
    (hkeys : (data.map Prod.fst).Nodup) (hload : s.store.LoadIndexData = .ok data) :
    ∃ s', RebuildIndex s = .ok s' ∧
      (∀ term, (∃ ids, mget s'.index term = some ids) ↔
        (term ≠ "" ∧ ∃ id words, mget data id = some words ∧ term ∈ words)) ∧
      (∀ term ids, mget s'.index term = some ids →
        ids.Sorted (· < ·) ∧
        ∀ id, id ∈ ids ↔ ∃ words, mget data id = some words ∧ term ∈ words) ∧
      mget s'.index "" = none ∧
      (∀ term, mget s'.index term ≠ some []) ∧
      (∀ s₂ : Service, s₂.store.LoadIndexData = .ok data →
        ∃ s₂', RebuildIndex s₂ = .ok s₂' ∧ s₂'.index = s'.index) ∧
      (∀ (s₂ : Service) (data₂ : List (Int × List String)), data₂.Perm data →
        s₂.store.LoadIndexData = .ok data₂ →
        ∃ s₂', RebuildIndex s₂ = .ok s₂' ∧
          ∀ term, mget s₂'.index term = mget s'.index term) := by
  refine ⟨_, RebuildIndex_ok s data hload, ?_, ?_, ?_, ?_, ?_, ?_⟩
  · intro term
    simp only
    rw [mget_buildIndex]
    by_cases h : rowsOf data term = []
    · simp only [h, if_true, reduceCtorEq, exists_false, false_iff]
      rintro ⟨hne, id, words, hget, hin⟩
      have : id ∈ rowsOf data term := (mem_rowsOf data hkeys term id).2 ⟨hne, words, hget, hin⟩
      rw [h] at this
      exact List.not_mem_nil _ this
    · simp only [h, if_false, Option.some.injEq, exists_eq', true_iff]
      obtain ⟨id, hid⟩ := List.exists_mem_of_ne_nil _ h
      obtain ⟨hne, words, hget, hin⟩ := (mem_rowsOf data hkeys term id).1 hid
      exact ⟨hne, id, words, hget, hin⟩
  · intro term ids hget
    simp only at hget
    rw [mget_buildIndex] at hget
    by_cases h : rowsOf data term = []
    · simp [h] at hget
    · simp only [h, if_false, Option.some.injEq] at hget
      subst hget
      refine ⟨sortInts_strict _ (nodup_rowsOf data hkeys term), ?_⟩
      intro id
      rw [(sortInts_perm _).mem_iff, mem_rowsOf data hkeys term id]
      constructor
      · rintro ⟨_, hw⟩
        exact hw
      · intro hw
        refine ⟨?_, hw⟩
        rintro rfl
        obtain ⟨id0, hid0⟩ := List.exists_mem_of_ne_nil _ h
        exact ((mem_rowsOf data hkeys "" id0).1 hid0).1 rfl
  · simp only
    rw [mget_buildIndex]
    have : rowsOf data "" = [] := by
      apply List.eq_nil_iff_forall_not_mem.2
      intro id hid
      exact ((mem_rowsOf data hkeys "" id).1 hid).1 rfl
    simp [this]
  · intro term
    simp only
    rw [mget_buildIndex]
    by_cases h : rowsOf data term = []
    · simp [h]
    · simp only [h, if_false, ne_eq, Option.some.injEq]
      intro hnil
      apply h
      have hp := sortInts_perm (rowsOf data term)
      rw [hnil] at hp
      exact List.perm_nil.1 hp.symm
  · intro s₂ hload₂
    exact ⟨_, RebuildIndex_ok s₂ data hload₂, rfl⟩
  · intro s₂ data₂ hperm hload₂
    refine ⟨_, RebuildIndex_ok s₂ data₂ hload₂, ?_⟩
    intro term
    exact mget_buildIndex_perm data₂ data hperm term

end SearchCore

namespace SearchCore

open GoMap

/-- C4 on the scenario catalog: its ids are distinct, the load succeeds, and the rebuilt
index is pure. -/
theorem RebuildIndex_purity_witness :
    (Examples.snapshot.map Prod.fst).Nodup ∧
    Examples.service.store.LoadIndexData = .ok Examples.snapshot ∧
    buildIndex Examples.snapshot
      = [("foo", [1]), ("bar", [1, 2]), ("baz", [2]), ("qux", [3])] ∧
    ∃ s', RebuildIndex Examples.service = .ok s' ∧
      ∀ term ids, mget s'.index term = some ids →
        ids.Sorted (· < ·) ∧
        ∀ id ∈ ids, ∃ words, mget Examples.snapshot id = some words ∧ term ∈ words :=
  ⟨by decide, rfl, by decide,
    RebuildIndex_purity Examples.service Examples.snapshot (by decide) rfl⟩

/-- C5 on the scenario catalog: the rebuilt index is the exact inverted index of the rows. -/
theorem RebuildIndex_exact_witness :
    (Examples.snapshot.map Prod.fst).Nodup ∧
    Examples.service.store.LoadIndexData = .ok Examples.snapshot ∧
    buildIndex Examples.snapshot.reverse
      = [("qux", [3]), ("bar", [1, 2]), ("baz", [2]), ("foo", [1])] ∧
    ∃ s', RebuildIndex Examples.service = .ok s' ∧
      (∀ term, (∃ ids, mget s'.index term = some ids) ↔
        (term ≠ "" ∧ ∃ id words, mget Examples.snapshot id = some words ∧ term ∈ words)) ∧
      (∀ term ids, mget s'.index term = some ids →
        ids.Sorted (· < ·) ∧
        ∀ id, id ∈ ids ↔ ∃ words, mget Examples.snapshot id = some words ∧ term ∈ words) ∧
      mget s'.index "" = none ∧
      (∀ term, mget s'.index term ≠ some []) ∧
      (∀ s₂ : Service, s₂.store.LoadIndexData = .ok Examples.snapshot →
        ∃ s₂', RebuildIndex s₂ = .ok s₂' ∧ s₂'.index = s'.index) ∧
      (∀ (s₂ : Service) (data₂ : List (Int × List String)), data₂.Perm Examples.snapshot →
        s₂.store.LoadIndexData = .ok data₂ →
        ∃ s₂', RebuildIndex s₂ = .ok s₂' ∧
          ∀ term, mget s₂'.index term = mget s'.index term) :=
  ⟨by decide, rfl, by decide,
    RebuildIndex_exact Examples.service Examples.snapshot (by decide) rfl⟩

end SearchCore

/-! ## Truncation on a code-point boundary -/

namespace UpdateCore

theorem decode_eq_core (s : Bytes) :
    DecodeRuneInString s
      = decodeCore s.length (s.getD 0 0) (s.getD 1 0) (s.getD 2 0) (s.getD 3 0) := by
  simp only [DecodeRuneInString, decodeCore]

theorem first_cases (b : Nat) :
    first b = 0xF0 ∨ first b = 0xF1 ∨ first b = 0x02 ∨ first b = 0x13 ∨ first b = 0x03 ∨
    first b = 0x23 ∨ first b = 0x34 ∨ first b = 0x04 ∨ first b = 0x44 := by
  unfold first
  split_ifs <;> simp

theorem first_sz (b : Nat) (h : ¬ first b ≥ 0xF0) :
    first b &&& 7 = 2 ∨ first b &&& 7 = 3 ∨ first b &&& 7 = 4 := by
  rcases first_cases b with h1 | h1 | h1 | h1 | h1 | h1 | h1 | h1 | h1 <;> rw [h1] at h ⊢ <;>
    first
      | exact absurd (by decide) h
      | decide

theorem core_size_pos (n s0 s1 s2 s3 : Nat) (hn : 1 ≤ n) :
    1 ≤ (decodeCore n s0 s1 s2 s3).2 := by
  unfold decodeCore
  have hn' : ¬ n < 1 := by omega
  simp only [hn', if_false]
  split_ifs <;> simp

theorem core_size_le (n s0 s1 s2 s3 : Nat) (hn : 1 ≤ n) :
    (decodeCore n s0 s1 s2 s3).2 ≤ n := by
  unfold decodeCore
  have hn' : ¬ n < 1 := by omega
  simp only [hn', if_false]
  by_cases hx : first s0 ≥ 0xF0
  · simp only [hx, if_true]
    exact hn
  · simp only [hx, if_false]
    generalize acceptRanges (first s0 >>> 4) = acc
    rcases first_sz s0 hx with h | h | h <;> rw [h] <;> split_ifs <;> simp only [] <;> omega

theorem core_stable (n m s0 s1 s2 s3 t1 t2 t3 : Nat)
    (hvalid : ¬ ((decodeCore n s0 s1 s2 s3).1 = RuneError ∧ (decodeCore n s0 s1 s2 s3).2 = 1))
    (hm : (decodeCore n s0 s1 s2 s3).2 ≤ m) (hn : 1 ≤ n)
    (h1 : 1 < m → t1 = s1) (h2 : 2 < m → t2 = s2) (h3 : 3 < m → t3 = s3) :
    decodeCore (min m n) s0 t1 t2 t3 = decodeCore n s0 s1 s2 s3 := by
  unfold decodeCore at hvalid hm ⊢
  have hn' : ¬ n < 1 := by omega
  simp only [hn', if_false] at hvalid hm ⊢
  by_cases hx : first s0 ≥ 0xF0
  · simp only [hx, if_true] at hvalid hm ⊢
    have : ¬ min m n < 1 := by omega
    simp [this]
  · simp only [hx, if_false] at hvalid hm ⊢
    generalize acceptRanges (first s0 >>> 4) = acc at hvalid hm ⊢
    rcases first_sz s0 hx with h | h | h <;> rw [h] at hvalid hm ⊢ <;>
      split_ifs at hvalid hm <;> simp only [not_true_eq_false, and_self] at hvalid <;>
      simp only [] at hm
    all_goals
      try (have e1 : t1 = s1 := h1 (by omega); subst e1)
      try (have e2 : t2 = s2 := h2 (by omega); subst e2)
      try (have e3 : t3 = s3 := h3 (by omega); subst e3)
      split_ifs <;> first | rfl | omega

theorem getD_take (t : Bytes) (m i : Nat) (h : i < m) : (t.take m).getD i 0 = t.getD i 0 := by
  simp [List.getD_eq_getElem?_getD, List.getElem?_take, h]

theorem size_pos (t : Bytes) (hne : t ≠ []) : 1 ≤ (DecodeRuneInString t).2 := by
  rw [decode_eq_core]
  exact core_size_pos _ _ _ _ _ (List.length_pos.2 hne)

theorem size_le (t : Bytes) (hne : t ≠ []) : (DecodeRuneInString t).2 ≤ t.length := by
  rw [decode_eq_core]
  exact core_size_le _ _ _ _ _ (List.length_pos.2 hne)

theorem decode_take (t : Bytes) (m : Nat) (hne : t ≠ [])
    (hvalid : ¬ ((DecodeRuneInString t).1 = RuneError ∧ (DecodeRuneInString t).2 = 1))
    (hm : (DecodeRuneInString t).2 ≤ m) :
    DecodeRuneInString (t.take m) = DecodeRuneInString t := by
  have hpos := core_size_pos t.length (t.getD 0 0) (t.getD 1 0) (t.getD 2 0) (t.getD 3 0)
    (List.length_pos.2 hne)
  rw [decode_eq_core t] at hvalid hm ⊢
  rw [decode_eq_core (t.take m), List.length_take, getD_take t m 0 (by omega)]
  exact core_stable _ _ _ _ _ _ _ _ _ hvalid hm (List.length_pos.2 hne)
    (fun h => getD_take t m 1 h) (fun h => getD_take t m 2 h) (fun h => getD_take t m 3 h)

theorem drop_ne_nil (s : Bytes) (i : Nat) (h : i < s.length) : s.drop i ≠ [] := by
  intro hnil
  have := congrArg List.length hnil
  simp at this
  omega

theorem le_of_mem_boundariesFrom (fuel : Nat) (s : Bytes) (i j : Nat)
    (h : j ∈ boundariesFrom fuel s i) : i ≤ j := by
  induction fuel generalizing i with
  | zero =>
    simp only [boundariesFrom, List.mem_singleton] at h
    omega
  | succ f ih =>
    unfold boundariesFrom at h
    split_ifs at h with hlt
    · rcases List.mem_cons.1 h with h | h
      · omega
      · have := ih _ h
        omega
    · simp only [List.mem_singleton] at h
      omega

theorem truncateLoop_spec (fuel : Nat) (s : Bytes) (limit : Int) (i : Nat)
    (hi : i ≤ s.length) (hfuel : s.length - i ≤ fuel) (hlim : (i : Int) ≤ limit) :
    ∃ r, truncateLoop (fuel + 1) s limit i = some r ∧ r ∈ boundariesFrom fuel s i ∧
      (r : Int) ≤ limit ∧ r ≤ s.length ∧
      ∀ j ∈ boundariesFrom fuel s i, (j : Int) ≤ limit → j ≤ r := by
  induction fuel generalizing i with
  | zero =>
    have hlen : ¬ i < s.length := by omega
    refine ⟨i, by simp [truncateLoop, hlen], by simp [boundariesFrom], hlim, hi, ?_⟩
    intro j hj _
    simp only [boundariesFrom, List.mem_singleton] at hj
    omega
  | succ f ih =>
    by_cases hlt : i < s.length
    · have hne := drop_ne_nil s i hlt
      have hpos := size_pos _ hne
      have hle := size_le _ hne
      rw [List.length_drop] at hle
      by_cases hbig : ((i + (DecodeRuneInString (s.drop i)).2 : Nat) : Int) > limit
      · refine ⟨i, ?_, ?_, hlim, hi, ?_⟩
        · rw [truncateLoop]
          simp only [hlt, if_true, hbig]
        · rw [boundariesFrom]
          simp [hlt]
        · intro j hj hjl
          rw [boundariesFrom] at hj
          simp only [hlt, if_true, List.mem_cons] at hj
          rcases hj with hj | hj
          · omega
          · have := le_of_mem_boundariesFrom _ _ _ _ hj
            omega
      · obtain ⟨r, hr, hmem, hrl, hrlen, hmax⟩ :=
          ih (i + (DecodeRuneInString (s.drop i)).2) (by omega) (by omega) (by omega)
        refine ⟨r, ?_, ?_, hrl, hrlen, ?_⟩
        · rw [truncateLoop]
          simp only [hlt, if_true, hbig, if_false]
          exact hr
        · rw [boundariesFrom]
          simp only [hlt, if_true]
          exact List.mem_cons_of_mem _ hmem
        · intro j hj hjl
          rw [boundariesFrom] at hj
          simp only [hlt, if_true, List.mem_cons] at hj
          rcases hj with hj | hj
          · have := le_of_mem_boundariesFrom _ _ _ _ hmem
            omega
          · exact hmax j hj hjl
    · refine ⟨i, ?_, ?_, hlim, hi, ?_⟩
      · rw [truncateLoop]
        simp only [hlt, if_false]
      · rw [boundariesFrom]
        simp [hlt]
      · intro j hj _
        rw [boundariesFrom] at hj
        simp only [hlt, if_false, List.mem_singleton] at hj
        omega

theorem validLoop_nil (fuel : Nat) : validLoop fuel [] = true := by
  cases fuel <;> simp [validLoop]

theorem validLoop_succ (fuel : Nat) (t : Bytes) (hne : t ≠ []) :
    validLoop (fuel + 1) t
      = if (DecodeRuneInString t).1 = RuneError ∧ (DecodeRuneInString t).2 = 1 then false
        else validLoop fuel (t.drop (DecodeRuneInString t).2) := by
  have hlen : ¬ t.length = 0 := by
    simpa [List.length_eq_zero] using hne
  rw [validLoop]
  simp only [hlen, if_false]

theorem validLoop_fuel (f g : Nat) (t : Bytes) (hf : t.length ≤ f) (hg : t.length ≤ g) :
    validLoop f t = validLoop g t := by
  induction f generalizing g t with
  | zero =>
    have : t = [] := List.length_eq_zero.1 (by omega)
    subst this
    rw [validLoop_nil, validLoop_nil]
  | succ f ih =>
    by_cases hne : t = []
    · subst hne
      rw [validLoop_nil, validLoop_nil]
    · cases g with
      | zero =>
        exfalso
        apply hne
        exact List.length_eq_zero.1 (by omega)
      | succ g =>
        rw [validLoop_succ f t hne, validLoop_succ g t hne]
        have hpos := size_pos t hne
        have hlen : (t.drop (DecodeRuneInString t).2).length ≤ t.length - 1 := by
          rw [List.length_drop]
          omega
        rw [ih g _ (by omega) (by omega)]

theorem validLoop_take (fuel : Nat) (s : Bytes) (i r : Nat) (hi : i ≤ s.length)
    (hfuel : s.length - i ≤ fuel) (hr : r ∈ boundariesFrom fuel s i)
    (hv : validLoop fuel (s.drop i) = true) :
    validLoop fuel ((s.take r).drop i) = true := by
  induction fuel generalizing i with
  | zero =>
    have : (s.take r).drop i = [] := by
      apply List.drop_eq_nil_of_le
      rw [List.length_take]
      omega
    rw [this, validLoop_nil]
  | succ f ih =>
    by_cases hlt : i < s.length
    · rw [boundariesFrom] at hr
      simp only [hlt, if_true, List.mem_cons] at hr
      rcases hr with hr | hr
      · subst hr
        have : (s.take r).drop r = [] := by
          apply List.drop_eq_nil_of_le
          rw [List.length_take]
          omega
        rw [this, validLoop_nil]
      · have hne := drop_ne_nil s i hlt
        have hpos := size_pos _ hne
        have hle := size_le _ hne
        rw [List.length_drop] at hle
        have hge := le_of_mem_boundariesFrom _ _ _ _ hr
        rw [validLoop_succ f _ hne] at hv
        by_cases hinv : (DecodeRuneInString (s.drop i)).1 = RuneError ∧
            (DecodeRuneInString (s.drop i)).2 = 1
        · simp [hinv] at hv
        · simp only [hinv, if_false, List.drop_drop] at hv
          have hD : DecodeRuneInString ((s.take r).drop i) = DecodeRuneInString (s.drop i) := by
            rw [List.drop_take]
            exact decode_take _ _ hne hinv (by omega)
          have hne2 : (s.take r).drop i ≠ [] := by
            intro hnil
            have := congrArg List.length hnil
            simp only [List.length_drop, List.length_take, List.length_nil] at this
            omega
          rw [validLoop_succ f _ hne2, hD]
          simp only [hinv, if_false, List.drop_drop]
          exact ih _ (by omega) (by omega) hr hv
    · have : (s.take r).drop i = [] := by
        apply List.drop_eq_nil_of_le
        rw [List.length_take]
        omega
      rw [this, validLoop_nil]

theorem ValidString_take (s : Bytes) (r : Nat) (hr : r ∈ boundaries s)
    (hv : ValidString s = true) : ValidString (s.take r) = true := by
  unfold ValidString at hv ⊢
  have h := validLoop_take s.length s 0 r (by omega) (by omega) hr (by simpa using hv)
  simp only [List.drop_zero] at h
  rw [validLoop_fuel (s.take r).length s.length (s.take r) (by omega)
    (by rw [List.length_take]; omega)]
  exact h

theorem zero_mem_boundaries (s : Bytes) : 0 ∈ boundaries s := by
  unfold boundaries
  cases hs : s.length with
  | zero => simp [boundariesFrom]
  | succ n =>
    rw [boundariesFrom]
    split_ifs <;> simp

theorem length_mem_boundariesFrom (fuel : Nat) (s : Bytes) (i : Nat) (hi : i ≤ s.length)
    (hfuel : s.length - i ≤ fuel) : s.length ∈ boundariesFrom fuel s i := by
  induction fuel generalizing i with
  | zero =>
    have : i = s.length := by omega
    simp [boundariesFrom, this]
  | succ f ih =>
    rw [boundariesFrom]
    by_cases hlt : i < s.length
    · have hne := drop_ne_nil s i hlt
      have hpos := size_pos _ hne
      have hle := size_le _ hne
      rw [List.length_drop] at hle
      simp only [hlt, if_true]
      exact List.mem_cons_of_mem _ (ih _ (by omega) (by omega))
    · have : i = s.length := by omega
      simp [hlt, this]

theorem length_mem_boundaries (s : Bytes) : s.length ∈ boundaries s :=
  length_mem_boundariesFrom s.length s 0 (by omega) (by omega)

/-- C10: for a limit that is not negative, `truncateUTF8ToBytes` returns `s` itself when
`len(s) <= limit`; otherwise it returns the first `i` bytes of `s` where `i` is the greatest
code-point boundary of `s` that is at most `limit`, so the cut never falls inside a multi-byte
sequence; and the result of truncating valid UTF-8 is valid UTF-8. -/
theorem truncateUTF8ToBytes_spec (s : Bytes) (limit : Int) (hlimit : 0 ≤ limit) :
    ((s.length : Int) ≤ limit → truncateUTF8ToBytes s limit = some s) ∧
    (limit < (s.length : Int) →
      ∃ i, truncateUTF8ToBytes s limit = some (s.take i) ∧ (s.take i).length = i ∧
        (i : Int) ≤ limit ∧ i ∈ boundaries s ∧
        ∀ j ∈ boundaries s, (j : Int) ≤ limit → j ≤ i) ∧
    (ValidString s = true →
      ∃ r, truncateUTF8ToBytes s limit = some r ∧ ValidString r = true) := by
  have hlong : limit < (s.length : Int) →
      ∃ i, truncateUTF8ToBytes s limit = some (s.take i) ∧ (s.take i).length = i ∧
        (i : Int) ≤ limit ∧ i ∈ boundaries s ∧
        ∀ j ∈ boundaries s, (j : Int) ≤ limit → j ≤ i := by
    intro hlt
    obtain ⟨r, hr, hmem, hrl, hrlen, hmax⟩ :=
      truncateLoop_spec s.length s limit 0 (by omega) (by omega) (by simpa using hlimit)
    refine ⟨r, ?_, ?_, hrl, hmem, hmax⟩
    · have hnot : ¬ (s.length : Int) ≤ limit := by omega
      simp [truncateUTF8ToBytes, hnot, hr]
    · rw [List.length_take]
      omega
  refine ⟨?_, hlong, ?_⟩
  · intro hle
    simp [truncateUTF8ToBytes, hle]
  · intro hv
    by_cases hle : (s.length : Int) ≤ limit
    · exact ⟨s, by simp [truncateUTF8ToBytes, hle], hv⟩
    · obtain ⟨i, hi, _, _, hmem, _⟩ := hlong (by omega)
      exact ⟨s.take i, hi, ValidString_take s i hmem hv⟩

/-- C10 on the bytes of "hél" (68 C3 A9 6C) with limit 2: the boundaries are 0, 1, 3, 4 and
the result is the single byte 68, the two-byte sequence being left out whole. -/
theorem truncateUTF8ToBytes_spec_witness :
    (0 : Int) ≤ 2 ∧
    boundaries [0x68, 0xC3, 0xA9, 0x6C] = [0, 1, 3, 4] ∧
    truncateUTF8ToBytes [0x68, 0xC3, 0xA9, 0x6C] 2 = some [0x68] ∧
    ((([0x68, 0xC3, 0xA9, 0x6C] : Bytes).length : Int) ≤ 2 →
      truncateUTF8ToBytes [0x68, 0xC3, 0xA9, 0x6C] 2 = some [0x68, 0xC3, 0xA9, 0x6C]) ∧
    ((2 : Int) < (([0x68, 0xC3, 0xA9, 0x6C] : Bytes).length : Int) →
      ∃ i, truncateUTF8ToBytes [0x68, 0xC3, 0xA9, 0x6C] 2
          = some (([0x68, 0xC3, 0xA9, 0x6C] : Bytes).take i) ∧
        (([0x68, 0xC3, 0xA9, 0x6C] : Bytes).take i).length = i ∧
        (i : Int) ≤ 2 ∧ i ∈ boundaries [0x68, 0xC3, 0xA9, 0x6C] ∧
        ∀ j ∈ boundaries [0x68, 0xC3, 0xA9, 0x6C], (j : Int) ≤ 2 → j ≤ i) ∧
    (ValidString [0x68, 0xC3, 0xA9, 0x6C] = true →
      ∃ r, truncateUTF8ToBytes [0x68, 0xC3, 0xA9, 0x6C] 2 = some r ∧ ValidString r = true) :=
  ⟨by decide, by decide, by decide,
    truncateUTF8ToBytes_spec [0x68, 0xC3, 0xA9, 0x6C] 2 (by decide)⟩

end UpdateCore

/-! ## The update worker -/

namespace UpdateCore

theorem truncate_isSome (s : Bytes) (limit : Int) (hlimit : 0 ≤ limit) :
    ∃ r, truncateUTF8ToBytes s limit = some r := by
  unfold truncateUTF8ToBytes
  split_ifs with h
  · exact ⟨s, rfl⟩
  · obtain ⟨r, hr, _⟩ :=
      truncateLoop_spec s.length s limit 0 (by omega) (by omega) (by simpa using hlimit)
    exact ⟨s.take r, by simp [hr]⟩

theorem workerIteration_rows (d : Deps) (catalog : List Comics) (id : Int) :
    (workerIteration d catalog id).1
      = match workerRow d id with
        | none => catalog
        | some row => (d.db.Add catalog row).1 := by
  unfold workerIteration workerRow
  cases hg : d.xkcd.Get id with
  | error err =>
    by_cases hnf : err = .ErrNotFound
    · simp [hnf]
    · simp [hnf]
  | ok info => simp

theorem workerIteration_effects (d : Deps) (catalog : List Comics) (id : Int) (e : Effect)
    (he : e ∈ (workerIteration d catalog id).2) :
    e = .Get id ∨ (∃ p, e = .Norm p) ∨ ∃ row, workerRow d id = some row ∧ e = .Add row := by
  unfold workerIteration at he
  unfold workerRow
  cases hg : d.xkcd.Get id with
  | error err =>
    rw [hg] at he
    by_cases hnf : err = .ErrNotFound
    · simp only [hnf, if_true, List.mem_cons, List.mem_singleton, List.not_mem_nil,
        or_false] at he
      rcases he with he | he
      · exact Or.inl he
      · exact Or.inr (Or.inr ⟨_, by simp [hnf], he⟩)
    · simp only [hnf, if_false, List.mem_singleton] at he
      exact Or.inl he
  | ok info =>
    rw [hg] at he
    simp only [List.mem_cons, List.not_mem_nil, or_false] at he
    rcases he with he | he | he
    · exact Or.inl he
    · exact Or.inr (Or.inl ⟨_, he⟩)
    · exact Or.inr (Or.inr ⟨_, rfl, he⟩)

theorem mem_insertIfAbsent (catalog : List Comics) (row r : Comics) (h : r ∈ catalog) :
    r ∈ insertIfAbsent catalog row := by
  unfold insertIfAbsent
  split_ifs
  · exact h
  · exact List.mem_append_left _ h

theorem insertIfAbsent_of_mem (catalog : List Comics) (row : Comics)
    (h : row.ID ∈ catalog.map Comics.ID) : insertIfAbsent catalog row = catalog := by
  simp only [insertIfAbsent, h, if_true]

theorem id_mem_insertIfAbsent (catalog : List Comics) (row : Comics) :
    row.ID ∈ (insertIfAbsent catalog row).map Comics.ID := by
  unfold insertIfAbsent
  split_ifs with h
  · exact h
  · simp

theorem mem_Add (d : Deps) (catalog : List Comics) (row r : Comics) (h : r ∈ catalog) :
    r ∈ (d.db.Add catalog row).1 := by
  unfold DB.Add
  cases d.db.addErr row with
  | none => exact mem_insertIfAbsent _ _ _ h
  | some e => exact h

theorem mem_workerIteration (d : Deps) (catalog : List Comics) (id : Int) (r : Comics)
    (h : r ∈ catalog) : r ∈ (workerIteration d catalog id).1 := by
  rw [workerIteration_rows]
  cases workerRow d id with
  | none => exact h
  | some row => exact mem_Add d catalog row r h

theorem mem_workerLoop (d : Deps) (jobs : List Int) (catalog : List Comics) (r : Comics)
    (h : r ∈ catalog) : r ∈ (workerLoop d jobs catalog).1 := by
  induction jobs generalizing catalog with
  | nil => simpa [workerLoop] using h
  | cons id rest ih =>
    simp only [workerLoop]
    exact ih _ (mem_workerIteration d catalog id r h)

theorem key_mem_workerLoop (d : Deps) (jobs : List Int) (catalog : List Comics) (k : Int)
    (h : k ∈ catalog.map Comics.ID) : k ∈ (workerLoop d jobs catalog).1.map Comics.ID := by
  obtain ⟨r, hr, hk⟩ := List.mem_map.1 h
  exact List.mem_map.2 ⟨r, mem_workerLoop d jobs catalog r hr, hk⟩

theorem written_workerLoop (d : Deps) (jobs : List Int) (catalog : List Comics) (id : Int)
    (row : Comics) (hid : id ∈ jobs) (hrow : workerRow d id = some row)
    (hadd : d.db.addErr row = none) :
    row.ID ∈ (workerLoop d jobs catalog).1.map Comics.ID := by
  induction jobs generalizing catalog with
  | nil => simp at hid
  | cons j rest ih =>
    simp only [workerLoop]
    rcases List.mem_cons.1 hid with h | h
    · subst h
      apply key_mem_workerLoop
      rw [workerIteration_rows, hrow]
      simp only [DB.Add, hadd]
      exact id_mem_insertIfAbsent _ _
    · exact ih _ h

theorem workerLoop_effects (d : Deps) (jobs : List Int) (catalog : List Comics) (e : Effect)
    (he : e ∈ (workerLoop d jobs catalog).2) :
    ∃ id ∈ jobs, e = .Get id ∨ (∃ p, e = .Norm p) ∨
      ∃ row, workerRow d id = some row ∧ e = .Add row := by
  induction jobs generalizing catalog with
  | nil => simp [workerLoop] at he
  | cons j rest ih =>
    simp only [workerLoop, List.mem_append] at he
    rcases he with he | he
    · exact ⟨j, List.mem_cons_self _ _, workerIteration_effects d catalog j e he⟩
    · obtain ⟨id, hid, h⟩ := ih _ he
      exact ⟨id, List.mem_cons_of_mem _ hid, h⟩

theorem effects_workerLoop (d : Deps) (jobs : List Int) (catalog : List Comics) (id : Int)
    (hid : id ∈ jobs) :
    ∃ c, ∀ e ∈ (workerIteration d c id).2, e ∈ (workerLoop d jobs catalog).2 := by
  induction jobs generalizing catalog with
  | nil => simp at hid
  | cons j rest ih =>
    rcases List.mem_cons.1 hid with h | h
    · subst h
      refine ⟨catalog, ?_⟩
      intro e he
      simp only [workerLoop, List.mem_append]
      exact Or.inl he
    · obtain ⟨c, hc⟩ := ih (workerIteration d catalog j).1 h
      refine ⟨c, ?_⟩
      intro e he
      simp only [workerLoop, List.mem_append]
      exact Or.inr (hc e he)

theorem mem_idRange (last id : Int) : id ∈ idRange last ↔ 1 ≤ id ∧ id ≤ last := by
  unfold idRange
  simp only [List.mem_map, List.mem_range]
  constructor
  · rintro ⟨i, hi, rfl⟩
    have := Int.toNat_of_nonneg (show (0 : Int) ≤ last by omega)
    omega
  · rintro ⟨h1, h2⟩
    refine ⟨(id - 1).toNat, ?_, ?_⟩
    · omega
    · have := Int.toNat_of_nonneg (show (0 : Int) ≤ id - 1 by omega)
      omega

theorem mem_missingIDs (last : Int) (existing : List Int) (id : Int) :
    id ∈ missingIDs last existing ↔ 1 ≤ id ∧ id ≤ last ∧ id ∉ existing := by
  unfold missingIDs
  simp [List.mem_filter, mem_idRange, and_assoc]

theorem mem_processed (sched : Schedule) (sent : List Int) (id : Int) :
    id ∈ processed sched sent ↔ id ∈ sent ∧ sched.workerRuns id = true := by
  unfold processed
  rw [List.mem_filter, (List.perm_insertionSort _ _).mem_iff]

theorem IDs_ok (d : Deps) (catalog : List Comics) (h : d.db.idsErr = none) :
    d.db.IDs catalog = .ok ((catalog.map Comics.ID).insertionSort (· ≤ ·)) := by
  simp [DB.IDs, h]

theorem mem_existing (catalog : List Comics) (id : Int) :
    id ∈ (catalog.map Comics.ID).insertionSort (· ≤ ·) ↔ id ∈ catalog.map Comics.ID :=
  (List.perm_insertionSort _ _).mem_iff

/-- An `Update` whose lock is free, whose first two reads succeed and whose producer is not
stopped: the worker iterations run over the missing ids and no error is returned. -/
theorem updateBody_run (d : Deps) (sched : Schedule) (catalog : List Comics) (last : Int)
    (hlast : d.xkcd.LastID = .ok last) (hids : d.db.idsErr = none)
    (hprod : sched.producerStops = none) :
    updateBody d sched catalog
      = (none,
        (workerLoop d (processed sched (missingIDs last
          ((catalog.map Comics.ID).insertionSort (· ≤ ·)))) catalog).1,
        [.LastID, .IDs] ++
          (workerLoop d (processed sched (missingIDs last
            ((catalog.map Comics.ID).insertionSort (· ≤ ·)))) catalog).2
          ++ [.CloseJobs, .WaitWorkers]) := by
  simp only [updateBody, hlast, IDs_ok d catalog hids, hprod]

end UpdateCore

/-! ## Update: the lock, the placeholder rows and the swallowed failures -/

namespace UpdateCore

/-- C11: in every state in which the writer lock is held, `Update` returns
`ErrAlreadyExists` and changes nothing: the state afterwards is the state before (status,
catalog and number of published events included) and the call does nothing but the failed
`TryLock`: no upstream call, no catalog read or write, no store of the status, no event. -/
theorem Update_locked (d : Deps) (sched : Schedule) (st : State) (h : st.locked = true) :
    (Update d sched st).1 = some .ErrAlreadyExists ∧
    (Update d sched st).2.1 = st ∧
    (Update d sched st).2.2 = [.TryLock false] ∧
    (∀ e ∈ (Update d sched st).2.2,
      e ≠ .LastID ∧ e ≠ .IDs ∧ e ≠ .PublishDBUpdated ∧
      (∀ id, e ≠ .Get id) ∧ (∀ row, e ≠ .Add row) ∧ (∀ s, e ≠ .StoreStatus s)) := by
  have hu : Update d sched st = (some .ErrAlreadyExists, st, [.TryLock false]) := by
    simp [Update, h]
  rw [hu]
  refine ⟨rfl, rfl, rfl, ?_⟩
  intro e he
  simp only [List.mem_singleton] at he
  subst he
  simp

/-- C11 while an `Update` holds the lock: a second call over the upstream of scenario S4
returns `ErrAlreadyExists` and leaves everything as it is. -/
theorem Update_locked_witness :
    UpdateExamples.busy.locked = true ∧
    (Update UpdateExamples.depsS4 Schedule.calm UpdateExamples.busy).1
      = some .ErrAlreadyExists ∧
    (Update UpdateExamples.depsS4 Schedule.calm UpdateExamples.busy).2.1
      = UpdateExamples.busy ∧
    (Update UpdateExamples.depsS4 Schedule.calm UpdateExamples.busy).2.2
      = [.TryLock false] ∧
    (∀ e ∈ (Update UpdateExamples.depsS4 Schedule.calm UpdateExamples.busy).2.2,
      e ≠ .LastID ∧ e ≠ .IDs ∧ e ≠ .PublishDBUpdated ∧
      (∀ id, e ≠ .Get id) ∧ (∀ row, e ≠ .Add row) ∧ (∀ s, e ≠ .StoreStatus s)) :=
  ⟨rfl, Update_locked UpdateExamples.depsS4 Schedule.calm UpdateExamples.busy rfl⟩

theorem Update_free (d : Deps) (sched : Schedule) (st : State) (h : st.locked = false) :
    Update d sched st
      = ((updateBody d sched st.catalog).1,
        { locked := false, status := .StatusIdle,
          catalog := (updateBody d sched st.catalog).2.1,
          published := st.published
            + (if ((updateBody d sched st.catalog).1.isNone && d.events) = true
                then 1 else 0) },
        [.TryLock true, .StoreStatus .StatusRunning] ++ (updateBody d sched st.catalog).2.2
          ++ [.StoreStatus .StatusIdle, .Unlock]
          ++ (if ((updateBody d sched st.catalog).1.isNone && d.events) = true
                then [.PublishDBUpdated] else [])) := by
  simp [Update, h]

theorem mem_trace_of_mem_body (d : Deps) (sched : Schedule) (st : State)
    (h : st.locked = false) (e : Effect) (he : e ∈ (updateBody d sched st.catalog).2.2) :
    e ∈ (Update d sched st).2.2 := by
  rw [Update_free d sched st h]
  simp only [List.mem_append]
  exact Or.inl (Or.inl (Or.inr he))

theorem workerIteration_notFound (d : Deps) (catalog : List Comics) (id : Int)
    (hget : d.xkcd.Get id = .error .ErrNotFound) :
    workerIteration d catalog id
      = ((d.db.Add catalog ⟨id, placeholderURL, []⟩).1,
        [.Get id, .Add ⟨id, placeholderURL, []⟩]) := by
  simp [workerIteration, hget]

/-- C12: for an id of `1..last_id` that is not in the catalog and for which upstream `Get`
reports `ErrNotFound`, an `Update` that is not cancelled fetches the id and hands the catalog
the placeholder row `(id, "missing", [])`; that iteration of the worker does nothing else,
adds exactly that row when the catalog has none for the id and accepts the write, and the
worker goes on with the remaining ids. -/
theorem Update_placeholder (d : Deps) (sched : Schedule) (st : State) (last id : Int)
    (hfree : st.locked = false) (hunc : sched.Uncancelled)
    (hlast : d.xkcd.LastID = .ok last) (hids : d.db.idsErr = none)
    (h1 : 1 ≤ id) (h2 : id ≤ last) (hnew : id ∉ st.catalog.map Comics.ID)
    (hget : d.xkcd.Get id = .error .ErrNotFound) :
    Effect.Get id ∈ (Update d sched st).2.2 ∧
    Effect.Add ⟨id, "missing", []⟩ ∈ (Update d sched st).2.2 ∧
    (∀ catalog, (workerIteration d catalog id).2 = [.Get id, .Add ⟨id, "missing", []⟩]) ∧
    (∀ catalog, d.db.addErr ⟨id, "missing", []⟩ = none → id ∉ catalog.map Comics.ID →
      (workerIteration d catalog id).1 = catalog ++ [⟨id, "missing", []⟩]) ∧
    (∀ catalog rest, workerLoop d (id :: rest) catalog
      = ((workerLoop d rest (workerIteration d catalog id).1).1,
        [.Get id, .Add ⟨id, "missing", []⟩]
          ++ (workerLoop d rest (workerIteration d catalog id).1).2)) := by
  have hiter : ∀ catalog, (workerIteration d catalog id).2
      = [.Get id, .Add ⟨id, "missing", []⟩] := by
    intro catalog
    rw [workerIteration_notFound d catalog id hget]
    rfl
  have hmem : id ∈ processed sched (missingIDs last
      ((st.catalog.map Comics.ID).insertionSort (· ≤ ·))) := by
    rw [mem_processed, mem_missingIDs, mem_existing]
    exact ⟨⟨h1, h2, hnew⟩, hunc.2 id⟩
  obtain ⟨c, hc⟩ := effects_workerLoop d _ st.catalog id hmem
  rw [hiter c] at hc
  have hbody : ∀ e ∈ [Effect.Get id, Effect.Add ⟨id, "missing", []⟩],
      e ∈ (Update d sched st).2.2 := by
    intro e he
    apply mem_trace_of_mem_body d sched st hfree
    rw [updateBody_run d sched st.catalog last hlast hids hunc.1]
    simp only [List.mem_append]
    exact Or.inl (Or.inr (hc e he))
  refine ⟨hbody _ (by simp), hbody _ (by simp), hiter, ?_, ?_⟩
  · intro catalog hadd hnot
    rw [workerIteration_notFound d catalog id hget]
    have hadd' : d.db.addErr ⟨id, placeholderURL, []⟩ = none := hadd
    simp only [DB.Add, hadd', insertIfAbsent, hnot, if_false]
    rfl
  · intro catalog rest
    simp only [workerLoop, hiter]

/-- C12 on scenario S4: `last_id = 3` with entry 2 answering 404 leaves row 2 as the
placeholder and rows 1 and 3 normal. -/
theorem Update_placeholder_witness :
    (Update UpdateExamples.depsS4 Schedule.calm UpdateExamples.fresh).2.1.catalog
      = [⟨1, "u1", ["a", "b"]⟩, ⟨2, "missing", []⟩, ⟨3, "u3", ["c", "d"]⟩] ∧
    Effect.Get 2 ∈ (Update UpdateExamples.depsS4 Schedule.calm UpdateExamples.fresh).2.2 ∧
    Effect.Add ⟨2, "missing", []⟩
      ∈ (Update UpdateExamples.depsS4 Schedule.calm UpdateExamples.fresh).2.2 :=
  have h := Update_placeholder UpdateExamples.depsS4 Schedule.calm UpdateExamples.fresh 3 2
    rfl ⟨rfl, fun _ => rfl⟩ rfl rfl (by decide) (by decide) (by decide) rfl
  ⟨by decide, h.1, h.2.1⟩

theorem workerIteration_failed (d : Deps) (catalog : List Comics) (id : Int) (e : Err)
    (hget : d.xkcd.Get id = .error e) (hne : e ≠ .ErrNotFound) :
    workerIteration d catalog id = (catalog, [.Get id]) := by
  simp [workerIteration, hget, hne]

theorem updateBody_err (d : Deps) (sched : Schedule) (catalog : List Comics) (err : Err)
    (h : (updateBody d sched catalog).1 = some err) :
    d.xkcd.LastID = .error err ∨ d.db.idsErr = some err ∨
      (err = .ErrCanceled ∧ ∃ k, sched.producerStops = some k) := by
  unfold updateBody at h
  cases hl : d.xkcd.LastID with
  | error e =>
    simp only [hl, Option.some.injEq] at h
    exact Or.inl (by rw [h])
  | ok last =>
    simp only [hl] at h
    cases hi : d.db.idsErr with
    | some e =>
      have : d.db.IDs catalog = .error e := by simp [DB.IDs, hi]
      simp only [this, Option.some.injEq] at h
      exact Or.inr (Or.inl (by rw [h]))
    | none =>
      rw [IDs_ok d catalog hi] at h
      simp only at h
      cases hp : sched.producerStops with
      | none => simp [hp] at h
      | some k =>
        simp only [hp] at h
        split_ifs at h
        simp only [Option.some.injEq] at h
        exact Or.inr (Or.inr ⟨h.symm, k, rfl⟩)

/-- C16: when upstream `Get` fails for an id with an error other than `ErrNotFound`, the
iteration of the worker writes no row and the worker goes on with the remaining ids. An error
returned by `Update` is `ErrAlreadyExists` on a held lock, the error of `LastID`, the error
of `IDs`, or the cancellation found by the producer: a failure of `Get`, of the normalizer or
of a catalog write is never returned, and `Update` returns no error when the lock is free,
the two reads succeed and the producer is not stopped. -/
theorem Update_swallows (d : Deps) (sched : Schedule) (st : State) (id : Int) (e : Err)
    (hget : d.xkcd.Get id = .error e) (hne : e ≠ .ErrNotFound) :
    (∀ catalog, workerIteration d catalog id = (catalog, [.Get id])) ∧
    (∀ catalog rest, workerLoop d (id :: rest) catalog
      = ((workerLoop d rest catalog).1, .Get id :: (workerLoop d rest catalog).2)) ∧
    (∀ err, (Update d sched st).1 = some err →
      (st.locked = true ∧ err = .ErrAlreadyExists) ∨ d.xkcd.LastID = .error err ∨
      d.db.idsErr = some err ∨ (err = .ErrCanceled ∧ ∃ k, sched.producerStops = some k)) ∧
    (st.locked = false → (∃ last, d.xkcd.LastID = .ok last) → d.db.idsErr = none →
      sched.producerStops = none → (Update d sched st).1 = none) := by
  refine ⟨fun catalog => workerIteration_failed d catalog id e hget hne, ?_, ?_, ?_⟩
  · intro catalog rest
    simp only [workerLoop, workerIteration_failed d catalog id e hget hne]
    rfl
  · intro err herr
    by_cases hl : st.locked = true
    · left
      have hu : Update d sched st = (some .ErrAlreadyExists, st, [.TryLock false]) := by
        simp [Update, hl]
      rw [hu] at herr
      simp only [Option.some.injEq] at herr
      exact ⟨hl, herr.symm⟩
    · right
      have hfree : st.locked = false := by simpa using hl
      rw [Update_free d sched st hfree] at herr
      exact updateBody_err d sched st.catalog err herr
  · rintro hfree ⟨last, hlast⟩ hids hprod
    rw [Update_free d sched st hfree]
    simp only [updateBody_run d sched st.catalog last hlast hids hprod]

/-- C16 on an upstream whose `Get` answers a server error: `Update` returns no error and
the catalog stays empty. -/
theorem Update_swallows_witness :
    UpdateExamples.depsDown.xkcd.Get 1 = .error (.ErrOther 500) ∧
    Err.ErrOther 500 ≠ .ErrNotFound ∧
    Update UpdateExamples.depsDown Schedule.calm UpdateExamples.fresh
      = (none, ⟨false, .StatusIdle, [], 1⟩,
        [.TryLock true, .StoreStatus .StatusRunning, .LastID, .IDs, .Get 1, .CloseJobs,
          .WaitWorkers, .StoreStatus .StatusIdle, .Unlock, .PublishDBUpdated]) ∧
    (∀ catalog, workerIteration UpdateExamples.depsDown catalog 1 = (catalog, [.Get 1])) :=
  ⟨rfl, by decide, by decide,
    (Update_swallows UpdateExamples.depsDown Schedule.calm UpdateExamples.fresh 1
      (.ErrOther 500) rfl (by decide)).1⟩

end UpdateCore

/-! ## Update: which rows a run leaves in the catalog -/

namespace UpdateCore

theorem keys_insertIfAbsent (catalog : List Comics) (row : Comics) (k : Int)
    (h : k ∈ (insertIfAbsent catalog row).map Comics.ID) :
    k ∈ catalog.map Comics.ID ∨ k = row.ID := by
  unfold insertIfAbsent at h
  split_ifs at h
  · exact Or.inl h
  · simp only [List.map_append, List.map_cons, List.map_nil, List.mem_append,
      List.mem_singleton] at h
    exact h

theorem keys_workerIteration (d : Deps) (catalog : List Comics) (j k : Int)
    (h : k ∈ (workerIteration d catalog j).1.map Comics.ID) :
    k ∈ catalog.map Comics.ID ∨
      ∃ row, workerRow d j = some row ∧ row.ID = k ∧ d.db.addErr row = none := by
  rw [workerIteration_rows] at h
  cases hrow : workerRow d j with
  | none =>
    rw [hrow] at h
    exact Or.inl h
  | some row =>
    rw [hrow] at h
    simp only [DB.Add] at h
    cases hadd : d.db.addErr row with
    | some e =>
      rw [hadd] at h
      exact Or.inl h
    | none =>
      rw [hadd] at h
      rcases keys_insertIfAbsent catalog row k h with hk | hk
      · exact Or.inl hk
      · exact Or.inr ⟨row, rfl, hk.symm, hadd⟩

theorem keys_workerLoop (d : Deps) (jobs : List Int) (catalog : List Comics) (k : Int)
    (h : k ∈ (workerLoop d jobs catalog).1.map Comics.ID) :
    k ∈ catalog.map Comics.ID ∨
      ∃ j ∈ jobs, ∃ row, workerRow d j = some row ∧ row.ID = k ∧ d.db.addErr row = none := by
  induction jobs generalizing catalog with
  | nil => exact Or.inl (by simpa [workerLoop] using h)
  | cons j rest ih =>
    simp only [workerLoop] at h
    rcases ih _ h with hk | ⟨j', hj', hrow⟩
    · rcases keys_workerIteration d catalog j k hk with hk | hrow
      · exact Or.inl hk
      · exact Or.inr ⟨j, List.mem_cons_self _ _, hrow⟩
    · exact Or.inr ⟨j', List.mem_cons_of_mem _ hj', hrow⟩

/-- C13 fails when upstream `Get` answers an error other than `ErrNotFound`: with
`last_id = 1` the call returns no error and id 1 is still absent from the catalog. -/
theorem Update_fills_counterexample :
    UpdateExamples.depsDown.xkcd.LastID = .ok 1 ∧
    (Update UpdateExamples.depsDown Schedule.calm UpdateExamples.fresh).1 = none ∧
    (1 : Int) ∉
      (Update UpdateExamples.depsDown Schedule.calm UpdateExamples.fresh).2.1.catalog.map
        Comics.ID :=
  ⟨rfl, by decide, by decide⟩

/-- C13 as amended: after an `Update` that is not cancelled and whose two reads succeed, with
`last_id = last`, the call returns no error and an id of `1..last` is in the catalog if it
was there before, or if upstream answered `ErrNotFound` or an entry carrying that id and the
catalog accepts the rows of that id. An id is in the catalog afterwards exactly when it was
there before or the catalog accepted a row with that id which the run wrote for some id of
`1..last` absent before (the placeholder after `ErrNotFound`, or the entry `Get` returned).
So an id whose `Get` failed with another error is absent afterwards unless it was there
before or the entry returned for another id carries its number. -/
theorem Update_fills (d : Deps) (sched : Schedule) (st : State) (last : Int)
    (hfree : st.locked = false) (hunc : sched.Uncancelled)
    (hlast : d.xkcd.LastID = .ok last) (hids : d.db.idsErr = none) :
    (Update d sched st).1 = none ∧
    (∀ id, 1 ≤ id → id ≤ last →
      (id ∈ st.catalog.map Comics.ID ∨
        ((d.xkcd.Get id = .error .ErrNotFound ∨
            ∃ info, d.xkcd.Get id = .ok info ∧ info.ID = id) ∧
          ∀ row, row.ID = id → d.db.addErr row = none)) →
      id ∈ (Update d sched st).2.1.catalog.map Comics.ID) ∧
    (∀ id, id ∈ (Update d sched st).2.1.catalog.map Comics.ID ↔
      id ∈ st.catalog.map Comics.ID ∨
        ∃ j, 1 ≤ j ∧ j ≤ last ∧ j ∉ st.catalog.map Comics.ID ∧
          ∃ row, workerRow d j = some row ∧ row.ID = id ∧ d.db.addErr row = none) ∧
    (∀ id e, d.xkcd.Get id = .error e → e ≠ .ErrNotFound →
      id ∉ st.catalog.map Comics.ID →
      (∀ j info, 1 ≤ j → j ≤ last → d.xkcd.Get j = .ok info → info.ID ≠ id) →
      id ∉ (Update d sched st).2.1.catalog.map Comics.ID) := by
  rw [Update_free d sched st hfree]
  simp only [updateBody_run d sched st.catalog last hlast hids hunc.1, true_and]
  have hjobs : ∀ j, j ∈ processed sched (missingIDs last
      ((st.catalog.map Comics.ID).insertionSort (· ≤ ·)))
      ↔ 1 ≤ j ∧ j ≤ last ∧ j ∉ st.catalog.map Comics.ID := by
    intro j
    rw [mem_processed, mem_missingIDs, mem_existing]
    constructor
    · exact fun h => h.1
    · exact fun h => ⟨h, hunc.2 j⟩
  have hiff : ∀ id, id ∈ (workerLoop d (processed sched (missingIDs last
        ((st.catalog.map Comics.ID).insertionSort (· ≤ ·)))) st.catalog).1.map Comics.ID ↔
      id ∈ st.catalog.map Comics.ID ∨
        ∃ j, 1 ≤ j ∧ j ≤ last ∧ j ∉ st.catalog.map Comics.ID ∧
          ∃ row, workerRow d j = some row ∧ row.ID = id ∧ d.db.addErr row = none := by
    intro id
    constructor
    · intro h
      rcases keys_workerLoop d _ st.catalog id h with hk | ⟨j, hj, hrow⟩
      · exact Or.inl hk
      · obtain ⟨h1, h2, h3⟩ := (hjobs j).1 hj
        exact Or.inr ⟨j, h1, h2, h3, hrow⟩
    · rintro (hk | ⟨j, h1, h2, h3, row, hrow, hid, hadd⟩)
      · exact key_mem_workerLoop d _ st.catalog id hk
      · have := written_workerLoop d _ st.catalog j row ((hjobs j).2 ⟨h1, h2, h3⟩) hrow hadd
        rw [hid] at this
        exact this
  refine ⟨?_, hiff, ?_⟩
  · intro id h1 h2 h
    rw [hiff]
    by_cases hold : id ∈ st.catalog.map Comics.ID
    · exact Or.inl hold
    · rcases h with h | ⟨hget, hadd⟩
      · exact absurd h hold
      · right
        refine ⟨id, h1, h2, hold, ?_⟩
        rcases hget with hnf | ⟨info, hinfo, hkey⟩
        · exact ⟨⟨id, placeholderURL, []⟩, by simp [workerRow, hnf], rfl, hadd _ rfl⟩
        · have hrow : ∃ row, workerRow d id = some row ∧ row.ID = id := by
            simp only [workerRow, hinfo]
            exact ⟨_, rfl, hkey⟩
          obtain ⟨row, hrow, hrid⟩ := hrow
          exact ⟨row, hrow, hrid, hadd row hrid⟩
  · intro id e hget hne hold hother hin
    rw [hiff] at hin
    rcases hin with hin | ⟨j, h1, h2, -, row, hrow, hid, -⟩
    · exact hold hin
    · unfold workerRow at hrow
      cases hg : d.xkcd.Get j with
      | error e' =>
        rw [hg] at hrow
        by_cases hnf : e' = .ErrNotFound
        · simp only [hnf, if_true, Option.some.injEq] at hrow
          rw [← hrow] at hid
          simp only at hid
          rw [hid, hget] at hg
          simp only [Except.error.injEq] at hg
          exact hne (hg.trans hnf)
        · simp [hnf] at hrow
      | ok info =>
        rw [hg] at hrow
        simp only [Option.some.injEq] at hrow
        rw [← hrow] at hid
        exact hother j info h1 h2 hg hid

/-- C13 as amended, on scenario S4: ids 1, 2 and 3 are all present afterwards. -/
theorem Update_fills_witness :
    UpdateExamples.fresh.locked = false ∧ Schedule.calm.Uncancelled ∧
    (Update UpdateExamples.depsS4 Schedule.calm UpdateExamples.fresh).2.1.catalog.map
      Comics.ID = [1, 2, 3] ∧
    (Update UpdateExamples.depsS4 Schedule.calm UpdateExamples.fresh).1 = none :=
  ⟨rfl, ⟨rfl, fun _ => rfl⟩, by decide,
    (Update_fills UpdateExamples.depsS4 Schedule.calm UpdateExamples.fresh 3 rfl
      ⟨rfl, fun _ => rfl⟩ rfl rfl).1⟩

/-- The row of an id whose own `Get` failed can still come from the entry returned for
another id: the request for id 1 fails, the request for id 2 is answered with entry 1, and
id 1 is in the catalog afterwards while id 2 is not. -/
theorem crossed_entry_row :
    UpdateExamples.depsCrossed.xkcd.Get 1 = .error (.ErrOther 500) ∧
    (Update UpdateExamples.depsCrossed Schedule.calm UpdateExamples.fresh).1 = none ∧
    (Update UpdateExamples.depsCrossed Schedule.calm UpdateExamples.fresh).2.1.catalog.map
      Comics.ID = [1] :=
  ⟨rfl, by decide, by decide⟩

/-- C14 fails when upstream answers the request for one id with the entry of another: the
server answers the request for id 1 with `num = 7`, `Client.Get` succeeds, and the only row
the worker writes for id 1 has primary key 7. -/
theorem workerIteration_key_counterexample :
    UpdateExamples.depsSkewed.xkcd.Get 1 = .ok ⟨7, "u7", [0x61], [0x63, 0x20, 0x62]⟩ ∧
    (workerIteration UpdateExamples.depsSkewed [] 1).2
      = [.Get 1, .Norm [0x61, 0x20, 0x63, 0x20, 0x62], .Add ⟨7, "u7", ["a", "c", "b"]⟩] ∧
    (workerIteration UpdateExamples.depsSkewed [] 1).1 = [⟨7, "u7", ["a", "c", "b"]⟩] ∧
    (7 : Int) ≠ 1 :=
  ⟨rfl, by decide, by decide, by decide⟩

/-- C14 as amended: for an id that the worker fetches successfully, `Client.Get` takes the
key, the url and the texts from the response (`num`, `img`, `safe_title`, `alt` and
`transcript`), and the one row the worker hands to the catalog has the key and the url of
the fetched entry and the words the normalizer returns for title, blank and description cut
to 4096 bytes (no words when the normalizer fails); its key is the requested id exactly when
the fetched entry carries that id. -/
theorem workerIteration_fetched (d : Deps) (catalog : List Comics) (id : Int)
    (info : XKCDInfo) (hget : d.xkcd.Get id = .ok info) :
    ∃ phrase,
      truncateUTF8ToBytes (info.Title ++ [0x20] ++ info.Description) 4096 = some phrase ∧
      (workerIteration d catalog id).2
        = [.Get id, .Norm phrase,
            .Add ⟨info.ID, info.URL,
              match d.words.Norm phrase with
              | .error _ => []
              | .ok ws => ws⟩] ∧
      (∀ row, Effect.Add row ∈ (workerIteration d catalog id).2 →
        (row.ID = id ↔ info.ID = id)) ∧
      (∀ (getJSON : Int → Except Err UpdateXKCD.comicResp) (cr : UpdateXKCD.comicResp),
        getJSON id = .ok cr →
        UpdateXKCD.Get getJSON id
          = .ok ⟨cr.Num, cr.Img, cr.Title, cr.Alt ++ [0x20] ++ cr.Transcript⟩) := by
  obtain ⟨phrase, hphrase⟩ :=
    truncate_isSome (info.Title ++ [0x20] ++ info.Description) 4096 (by decide)
  have htr : (workerIteration d catalog id).2
      = [.Get id, .Norm phrase,
          .Add ⟨info.ID, info.URL,
            match d.words.Norm phrase with
            | .error _ => []
            | .ok ws => ws⟩] := by
    simp only [workerIteration, hget, maxWordsPhraseLen, hphrase, Option.getD_some]
  refine ⟨phrase, hphrase, htr, ?_, ?_⟩
  · intro row hrow
    rw [htr] at hrow
    simp only [List.mem_cons, List.mem_singleton, List.not_mem_nil, or_false,
      reduceCtorEq, false_or, Effect.Add.injEq] at hrow
    rw [hrow]
  · intro getJSON cr hcr
    simp [UpdateXKCD.Get, hcr]

/-- C14 as amended, on scenario S4: entry 1 is written under key 1. -/
theorem workerIteration_fetched_witness :
    UpdateExamples.depsS4.xkcd.Get 1 = .ok ⟨1, "u1", [0x61], [0x62]⟩ ∧
    (workerIteration UpdateExamples.depsS4 [] 1).2
      = [.Get 1, .Norm [0x61, 0x20, 0x62], .Add ⟨1, "u1", ["a", "b"]⟩] ∧
    ∃ phrase,
      truncateUTF8ToBytes (([0x61] : Bytes) ++ [0x20] ++ [0x62]) 4096 = some phrase ∧
      (workerIteration UpdateExamples.depsS4 [] 1).2
        = [.Get 1, .Norm phrase,
            .Add ⟨1, "u1",
              match UpdateExamples.depsS4.words.Norm phrase with
              | .error _ => []
              | .ok ws => ws⟩] ∧
      (∀ row, Effect.Add row ∈ (workerIteration UpdateExamples.depsS4 [] 1).2 →
        (row.ID = 1 ↔ (1 : Int) = 1)) ∧
      (∀ (getJSON : Int → Except Err UpdateXKCD.comicResp) (cr : UpdateXKCD.comicResp),
        getJSON 1 = .ok cr →
        UpdateXKCD.Get getJSON 1
          = .ok ⟨cr.Num, cr.Img, cr.Title, cr.Alt ++ [0x20] ++ cr.Transcript⟩) :=
  ⟨rfl, by decide,
    workerIteration_fetched UpdateExamples.depsS4 [] 1 ⟨1, "u1", [0x61], [0x62]⟩ rfl⟩

end UpdateCore

/-! ## Update: running it twice -/

namespace UpdateCore

theorem workerLoop_noop (d : Deps) (jobs : List Int) (catalog : List Comics)
    (h : ∀ id ∈ jobs, ∀ row, workerRow d id = some row → d.db.addErr row = none →
      row.ID ∈ catalog.map Comics.ID) :
    (workerLoop d jobs catalog).1 = catalog := by
  induction jobs with
  | nil => simp [workerLoop]
  | cons j rest ih =>
    have hstep : (workerIteration d catalog j).1 = catalog := by
      rw [workerIteration_rows]
      cases hrow : workerRow d j with
      | none => rfl
      | some row =>
        simp only [DB.Add]
        cases hadd : d.db.addErr row with
        | some e => rfl
        | none =>
          exact insertIfAbsent_of_mem catalog row
            (h j (List.mem_cons_self _ _) row hrow hadd)
    simp only [workerLoop, hstep]
    exact ih (fun id hid => h id (List.mem_cons_of_mem _ hid))

theorem body_effects (d : Deps) (sched : Schedule) (catalog : List Comics) (e : Effect)
    (he : e ∈ (updateBody d sched catalog).2.2) :
    e = .LastID ∨ e = .IDs ∨ e = .CloseJobs ∨ e = .WaitWorkers ∨
      ∃ id, id ∉ catalog.map Comics.ID ∧
        (e = .Get id ∨ (∃ p, e = .Norm p) ∨ ∃ row, e = .Add row) := by
  have hloop : ∀ sent : List Int, (∀ id ∈ sent, id ∉ catalog.map Comics.ID) →
      e ∈ ([Effect.LastID, Effect.IDs] ++ (workerLoop d (processed sched sent) catalog).2
        ++ [Effect.CloseJobs, Effect.WaitWorkers]) →
      e = .LastID ∨ e = .IDs ∨ e = .CloseJobs ∨ e = .WaitWorkers ∨
        ∃ id, id ∉ catalog.map Comics.ID ∧
          (e = .Get id ∨ (∃ p, e = .Norm p) ∨ ∃ row, e = .Add row) := by
    intro sent hsent hmem
    simp only [List.mem_append, List.mem_cons, List.mem_singleton, List.not_mem_nil,
      or_false] at hmem
    rcases hmem with (h | h) | h
    · rcases h with h | h
      · exact Or.inl h
      · exact Or.inr (Or.inl h)
    · obtain ⟨id, hid, hcase⟩ := workerLoop_effects d _ catalog e h
      right; right; right; right
      refine ⟨id, hsent id ((mem_processed sched sent id).1 hid).1, ?_⟩
      rcases hcase with hc | hc | ⟨row, _, hc⟩
      · exact Or.inl hc
      · exact Or.inr (Or.inl hc)
      · exact Or.inr (Or.inr ⟨row, hc⟩)
    · rcases h with h | h
      · exact Or.inr (Or.inr (Or.inl h))
      · exact Or.inr (Or.inr (Or.inr (Or.inl h)))
  unfold updateBody at he
  cases hl : d.xkcd.LastID with
  | error err =>
    simp only [hl, List.mem_singleton] at he
    exact Or.inl he
  | ok last =>
    simp only [hl] at he
    cases hi : d.db.idsErr with
    | some err =>
      have : d.db.IDs catalog = .error err := by simp [DB.IDs, hi]
      simp only [this, List.mem_cons, List.mem_singleton, List.not_mem_nil, or_false] at he
      rcases he with he | he
      · exact Or.inl he
      · exact Or.inr (Or.inl he)
    | none =>
      rw [IDs_ok d catalog hi] at he
      simp only at he
      have hmiss : ∀ id ∈ missingIDs last ((catalog.map Comics.ID).insertionSort (· ≤ ·)),
          id ∉ catalog.map Comics.ID := by
        intro id hid
        rw [mem_missingIDs, mem_existing] at hid
        exact hid.2.2
      cases hp : sched.producerStops with
      | none =>
        simp only [hp] at he
        exact hloop _ hmiss he
      | some k =>
        simp only [hp] at he
        split_ifs at he
        · exact hloop _ (fun id hid => hmiss id (List.mem_of_mem_take hid)) he
        · exact hloop _ hmiss he

theorem body_rows (d : Deps) (sched : Schedule) (catalog : List Comics) :
    ∃ jobs : List Int, (updateBody d sched catalog).2.1 = (workerLoop d jobs catalog).1 ∧
      ∀ id ∈ jobs, ∃ last, d.xkcd.LastID = .ok last ∧ d.db.idsErr = none ∧
        1 ≤ id ∧ id ≤ last ∧ id ∉ catalog.map Comics.ID := by
  unfold updateBody
  cases hl : d.xkcd.LastID with
  | error err => exact ⟨[], rfl, fun id hid => by simp at hid⟩
  | ok last =>
    cases hi : d.db.idsErr with
    | some err =>
      have : d.db.IDs catalog = .error err := by simp [DB.IDs, hi]
      simp only [this]
      exact ⟨[], rfl, fun id hid => by simp at hid⟩
    | none =>
      rw [IDs_ok d catalog hi]
      simp only
      have hmiss : ∀ sent : List Int,
          (∀ id ∈ sent, id ∈ missingIDs last ((catalog.map Comics.ID).insertionSort (· ≤ ·))) →
          ∀ id ∈ processed sched sent, ∃ last', Except.ok last = Except.ok (ε := Err) last' ∧
            1 ≤ id ∧ id ≤ last' ∧ id ∉ catalog.map Comics.ID := by
        intro sent hsent id hid
        have h := hsent id ((mem_processed sched sent id).1 hid).1
        rw [mem_missingIDs, mem_existing] at h
        exact ⟨last, rfl, h⟩
      cases hp : sched.producerStops with
      | none =>
        refine ⟨_, rfl, fun id hid => ?_⟩
        obtain ⟨l, hl', h⟩ := hmiss _ (fun _ h => h) id hid
        exact ⟨l, hl', trivial, h⟩
      | some k =>
        simp only
        split_ifs
        · refine ⟨_, rfl, fun id hid => ?_⟩
          obtain ⟨l, hl', h⟩ := hmiss _ (fun _ h => List.mem_of_mem_take h) id hid
          exact ⟨l, hl', trivial, h⟩
        · refine ⟨_, rfl, fun id hid => ?_⟩
          obtain ⟨l, hl', h⟩ := hmiss _ (fun _ h => h) id hid
          exact ⟨l, hl', trivial, h⟩

/-- C15 fails when a write of the catalog fails in the first run only, and when the first
run is cancelled. Upstream and normalizer are the same in both runs; in the first case the
first `Update` returns no error and leaves the catalog empty, and the second `Update` adds
row 1; in the second case the context of the first run is cancelled before its worker
fetches id 1, the run returns no error with the catalog empty, and the second run adds
row 1. -/
theorem Update_twice_counterexample :
    UpdateExamples.depsOneFailing.xkcd = UpdateExamples.depsOne.xkcd ∧
    UpdateExamples.depsOneFailing.words = UpdateExamples.depsOne.words ∧
    (Update UpdateExamples.depsOneFailing Schedule.calm UpdateExamples.fresh).1 = none ∧
    (Update UpdateExamples.depsOneFailing Schedule.calm UpdateExamples.fresh).2.1.catalog
      = [] ∧
    (Update UpdateExamples.depsOne Schedule.calm
      (Update UpdateExamples.depsOneFailing Schedule.calm UpdateExamples.fresh).2.1
      ).2.1.catalog = [⟨1, "u1", ["a", "b"]⟩] ∧
    (Update UpdateExamples.depsOne UpdateExamples.cancelledLate UpdateExamples.fresh).1
      = none ∧
    (Update UpdateExamples.depsOne UpdateExamples.cancelledLate
      UpdateExamples.fresh).2.1.catalog = [] ∧
    (Update UpdateExamples.depsOne Schedule.calm
      (Update UpdateExamples.depsOne UpdateExamples.cancelledLate UpdateExamples.fresh).2.1
      ).2.1.catalog = [⟨1, "u1", ["a", "b"]⟩] :=
  ⟨rfl, rfl, by decide, by decide, by decide, by decide, by decide, by decide⟩

/-- C15 as amended: when the collaborators (upstream, normalizer and catalog) answer the
second run as they answered the first and the first run is not cancelled, a second `Update`
after the first one has returned leaves the catalog, and so its statistics, exactly as the
first run left them, whether the second run is cancelled or not and whether the first run
returned an error or not; no id already present is fetched again, and insert-if-absent
leaves the catalog as it is when the key is present. -/
theorem Update_twice (d : Deps) (sched₁ sched₂ : Schedule) (st : State)
    (h₁ : sched₁.Uncancelled) :
    (Update d sched₂ (Update d sched₁ st).2.1).2.1.catalog
      = (Update d sched₁ st).2.1.catalog ∧
    DB.Stats (Update d sched₂ (Update d sched₁ st).2.1).2.1.catalog
      = DB.Stats (Update d sched₁ st).2.1.catalog ∧
    (∀ id ∈ (Update d sched₁ st).2.1.catalog.map Comics.ID,
      Effect.Get id ∉ (Update d sched₂ (Update d sched₁ st).2.1).2.2) ∧
    (∀ catalog row, row.ID ∈ catalog.map Comics.ID → insertIfAbsent catalog row = catalog) := by
  by_cases hfree : st.locked = false
  · have hfree₁ : (Update d sched₁ st).2.1.locked = false := by
      rw [Update_free d sched₁ st hfree]
    have hcat : (Update d sched₂ (Update d sched₁ st).2.1).2.1.catalog
        = (Update d sched₁ st).2.1.catalog := by
      rw [Update_free d sched₂ _ hfree₁]
      simp only
      obtain ⟨jobs, hrows, hjobs⟩ := body_rows d sched₂ (Update d sched₁ st).2.1.catalog
      rw [hrows]
      apply workerLoop_noop
      intro id hid row hrow hadd
      obtain ⟨last, hl, hi, hid1, hid2, hnot⟩ := hjobs id hid
      rw [Update_free d sched₁ st hfree] at hnot ⊢
      simp only [updateBody_run d sched₁ st.catalog last hl hi h₁.1] at hnot ⊢
      have hold : id ∉ st.catalog.map Comics.ID := by
        intro hin
        exact hnot (key_mem_workerLoop d _ st.catalog id hin)
      have hmem : id ∈ processed sched₁ (missingIDs last
          ((st.catalog.map Comics.ID).insertionSort (· ≤ ·))) := by
        rw [mem_processed, mem_missingIDs, mem_existing]
        exact ⟨⟨hid1, hid2, hold⟩, h₁.2 id⟩
      exact written_workerLoop d _ st.catalog id row hmem hrow hadd
    refine ⟨hcat, by rw [hcat], ?_, insertIfAbsent_of_mem⟩
    intro id hid hget
    rw [Update_free d sched₂ _ hfree₁] at hget
    simp only [List.mem_append, List.mem_cons, List.mem_singleton, List.not_mem_nil,
      or_false, reduceCtorEq, false_or, or_false] at hget
    rcases hget with hget | hget
    · rcases body_effects d sched₂ _ _ hget with h | h | h | h | ⟨id', hnot, h⟩
      · simp at h
      · simp at h
      · simp at h
      · simp at h
      · rcases h with h | ⟨p, h⟩ | ⟨row, h⟩
        · simp only [Effect.Get.injEq] at h
          subst h
          exact hnot hid
        · simp at h
        · simp at h
    · split_ifs at hget <;> simp at hget
  · have hl : st.locked = true := by simpa using hfree
    have hu : ∀ sched, Update d sched st = (some .ErrAlreadyExists, st, [.TryLock false]) := by
      intro sched
      simp [Update, hl]
    rw [hu sched₁]
    simp only
    rw [hu sched₂]
    refine ⟨rfl, rfl, ?_, insertIfAbsent_of_mem⟩
    intro id _ hget
    simp at hget

/-- C15 as amended, on scenario S4: the second run leaves the three rows as they are. -/
theorem Update_twice_witness :
    Schedule.calm.Uncancelled ∧
    (Update UpdateExamples.depsS4 Schedule.calm
      (Update UpdateExamples.depsS4 Schedule.calm UpdateExamples.fresh).2.1).2.1.catalog
      = [⟨1, "u1", ["a", "b"]⟩, ⟨2, "missing", []⟩, ⟨3, "u3", ["c", "d"]⟩] ∧
    (Update UpdateExamples.depsS4 Schedule.calm
      (Update UpdateExamples.depsS4 Schedule.calm UpdateExamples.fresh).2.1).2.1.catalog
      = (Update UpdateExamples.depsS4 Schedule.calm UpdateExamples.fresh).2.1.catalog ∧
    (Update UpdateExamples.depsS4 UpdateExamples.cancelledLate
      (Update UpdateExamples.depsS4 Schedule.calm UpdateExamples.fresh).2.1).2.1.catalog
      = (Update UpdateExamples.depsS4 Schedule.calm UpdateExamples.fresh).2.1.catalog :=
  ⟨⟨rfl, fun _ => rfl⟩, by decide,
    (Update_twice UpdateExamples.depsS4 Schedule.calm Schedule.calm UpdateExamples.fresh
      ⟨rfl, fun _ => rfl⟩).1,
    (Update_twice UpdateExamples.depsS4 Schedule.calm UpdateExamples.cancelledLate
      UpdateExamples.fresh ⟨rfl, fun _ => rfl⟩).1⟩

end UpdateCore

/-! ## Update: the event, the status and the cancellation -/

namespace UpdateCore

theorem body_neutral (d : Deps) (sched : Schedule) (catalog : List Comics) (e : Effect)
    (he : e ∈ (updateBody d sched catalog).2.2) :
    e ≠ .PublishDBUpdated ∧ ∀ p, applyEffect p e = p := by
  rcases body_effects d sched catalog e he with h | h | h | h | ⟨id, _, h | ⟨p, h⟩ | ⟨row, h⟩⟩ <;>
    subst h <;> exact ⟨by simp, fun _ => rfl⟩

theorem protocolStates_neutral (l rest : List Effect) (p : Bool × ServiceStatus)
    (h : ∀ e ∈ l, ∀ q, applyEffect q e = q) :
    protocolStates p (l ++ rest) = List.replicate l.length p ++ protocolStates p rest := by
  induction l with
  | nil => simp
  | cons e l ih =>
    have he := h e (List.mem_cons_self _ _) p
    rw [List.cons_append, protocolStates, he,
      ih (fun e' he' => h e' (List.mem_cons_of_mem _ he')), List.length_cons,
      List.replicate_succ, List.cons_append]

theorem protocolStates_neutral_end (l : List Effect) (p : Bool × ServiceStatus)
    (h : ∀ e ∈ l, ∀ q, applyEffect q e = q) :
    protocolStates p l = List.replicate (l.length + 1) p := by
  have := protocolStates_neutral l [] p h
  rw [List.append_nil] at this
  rw [this, protocolStates, List.replicate_succ']

/-- C17 fails on a service without an Events collaborator: `Update` returns no error and
publishes nothing. -/
theorem Update_publishes_counterexample :
    (Update UpdateExamples.depsOneSilent Schedule.calm UpdateExamples.fresh).1 = none ∧
    Effect.PublishDBUpdated
      ∉ (Update UpdateExamples.depsOneSilent Schedule.calm UpdateExamples.fresh).2.2 ∧
    (Update UpdateExamples.depsOneSilent Schedule.calm UpdateExamples.fresh).2.1.published
      = UpdateExamples.fresh.published :=
  ⟨by decide, by decide, by decide⟩

theorem Update_silent (d : Deps) (sched : Schedule) (st : State)
    (h : (∃ err, (Update d sched st).1 = some err) ∨ d.events = false) :
    Effect.PublishDBUpdated ∉ (Update d sched st).2.2 ∧
    (Update d sched st).2.1.published = st.published := by
  by_cases hl : st.locked = true
  · have hu : Update d sched st = (some .ErrAlreadyExists, st, [.TryLock false]) := by
      simp [Update, hl]
    rw [hu]
    simp
  · have hfree : st.locked = false := by simpa using hl
    rw [Update_free d sched st hfree] at h ⊢
    have hbody : Effect.PublishDBUpdated ∉ (updateBody d sched st.catalog).2.2 :=
      fun hin => (body_neutral d sched st.catalog _ hin).1 rfl
    have hnot : ((updateBody d sched st.catalog).1.isNone && d.events) = false := by
      rcases h with ⟨err, herr⟩ | hev
      · simp only at herr
        simp [herr]
      · simp [hev]
    simp only [hnot, Bool.false_eq_true, if_false, List.append_nil, List.mem_append,
      List.mem_cons, List.mem_singleton, List.not_mem_nil, or_false, reduceCtorEq,
      false_or, Nat.add_zero, and_true]
    exact hbody

/-- C17 as amended: a call of `Update` that returns without error on a service with an
Events collaborator publishes exactly one "db updated" event, as the last thing it does,
after the store of `IDLE` and the release of the lock; a call that returns an error, and any
call on a service without an Events collaborator, publishes none. -/
theorem Update_publishes (d : Deps) (sched : Schedule) (st : State) :
    ((Update d sched st).1 = none → d.events = true →
      (∃ pre, (Update d sched st).2.2
          = pre ++ [.StoreStatus .StatusIdle, .Unlock, .PublishDBUpdated] ∧
        Effect.PublishDBUpdated ∉ pre) ∧
      (Update d sched st).2.2.count .PublishDBUpdated = 1 ∧
      (Update d sched st).2.1.published = st.published + 1 ∧
      (Update d sched st).2.1.status = .StatusIdle ∧
      (Update d sched st).2.1.locked = false) ∧
    (((∃ err, (Update d sched st).1 = some err) ∨ d.events = false) →
      Effect.PublishDBUpdated ∉ (Update d sched st).2.2 ∧
      (Update d sched st).2.1.published = st.published) := by
  refine ⟨?_, Update_silent d sched st⟩
  by_cases hl : st.locked = true
  · have hu : Update d sched st = (some .ErrAlreadyExists, st, [.TryLock false]) := by
      simp [Update, hl]
    rw [hu]
    intro h
    simp at h
  · have hfree : st.locked = false := by simpa using hl
    rw [Update_free d sched st hfree]
    have hbody : Effect.PublishDBUpdated ∉ (updateBody d sched st.catalog).2.2 :=
      fun h => (body_neutral d sched st.catalog _ h).1 rfl
    intro herr hev
    simp only at herr
    have hpre : Effect.PublishDBUpdated ∉
        [Effect.TryLock true, Effect.StoreStatus .StatusRunning]
          ++ (updateBody d sched st.catalog).2.2 := by
      simp only [List.mem_append, List.mem_cons, List.mem_singleton, List.not_mem_nil,
        or_false, reduceCtorEq, false_or]
      exact hbody
    simp only [herr, hev, Option.isNone_none, Bool.and_self, if_true]
    refine ⟨⟨_, ?_, hpre⟩, ?_, ?_, ?_, ?_⟩
    · simp only [List.append_assoc, List.cons_append, List.nil_append]
    · rw [List.count_append, List.count_append, List.count_eq_zero_of_not_mem hpre]
      decide
    · trivial
    · trivial
    · trivial

theorem NewService_ok (d : Deps) (catalog : List Comics) (st : State)
    (h : NewService d catalog = .ok st) : st = ⟨false, .StatusIdle, catalog, 0⟩ := by
  unfold NewService at h
  split_ifs at h
  simp only [Except.ok.injEq] at h
  exact h.symm

theorem Reachable_idle (st : State) (h : Reachable st) :
    st.status = .StatusIdle ∧ st.locked = false := by
  induction h with
  | created d catalog st hnew =>
    rw [NewService_ok d catalog st hnew]
    exact ⟨rfl, rfl⟩
  | update d sched st _ ih =>
    rw [Update_free d sched st ih.2]
    exact ⟨rfl, rfl⟩
  | drop d st _ ih =>
    unfold Drop
    cases d.db.dropErr with
    | some e => exact ih
    | none => exact ih

theorem Update_protocol (d : Deps) (sched : Schedule) (st : State)
    (hidle : st.status = .StatusIdle) (hfree : st.locked = false) :
    ∃ body post, (Update d sched st).2.2
        = [.TryLock true, .StoreStatus .StatusRunning] ++ body
          ++ [.StoreStatus .StatusIdle, .Unlock] ++ post ∧
      protocolStates (st.locked, st.status) (Update d sched st).2.2
        = [(false, .StatusIdle), (true, .StatusIdle)]
          ++ List.replicate (body.length + 1) (true, .StatusRunning)
          ++ [(true, .StatusIdle)]
          ++ List.replicate (post.length + 1) (false, .StatusIdle) := by
  rw [Update_free d sched st hfree, hidle, hfree]
  refine ⟨(updateBody d sched st.catalog).2.2, _, rfl, ?_⟩
  have hpost : ∀ e ∈ (if ((updateBody d sched st.catalog).1.isNone && d.events) = true
      then [Effect.PublishDBUpdated] else []), ∀ q, applyEffect q e = q := by
    intro e he q
    split_ifs at he
    · simp only [List.mem_singleton] at he
      subst he
      rfl
    · simp at he
  have htrace : ∀ body post : List Effect,
      [Effect.TryLock true, Effect.StoreStatus .StatusRunning] ++ body
        ++ [Effect.StoreStatus .StatusIdle, Effect.Unlock] ++ post
      = Effect.TryLock true :: Effect.StoreStatus .StatusRunning ::
          (body ++ (Effect.StoreStatus .StatusIdle :: Effect.Unlock :: post)) := by
    intro body post
    simp
  rw [htrace, protocolStates, protocolStates]
  simp only [applyEffect]
  rw [protocolStates_neutral _ _ _ (fun e he => (body_neutral d sched st.catalog e he).2),
    protocolStates, protocolStates]
  simp only [applyEffect]
  rw [protocolStates_neutral_end _ _ hpost]
  simp [List.replicate_succ']

/-- C18 fails at both ends of an `Update`. On a new service over the one-entry upstream the
call takes the lock, runs and returns no error; the status is still `IDLE` with the lock
held right after the lock is taken, and it is `IDLE` again, first with the lock held and then
with the lock free while the event is published, before the call returns. -/
theorem status_running_counterexample :
    NewService UpdateExamples.depsOne [] = .ok UpdateExamples.fresh ∧
    (Update UpdateExamples.depsOne Schedule.calm UpdateExamples.fresh).1 = none ∧
    (Update UpdateExamples.depsOne Schedule.calm UpdateExamples.fresh).2.2
      = [.TryLock true, .StoreStatus .StatusRunning, .LastID, .IDs, .Get 1,
          .Norm [0x61, 0x20, 0x62], .Add ⟨1, "u1", ["a", "b"]⟩, .CloseJobs, .WaitWorkers,
          .StoreStatus .StatusIdle, .Unlock, .PublishDBUpdated] ∧
    protocolStates (false, .StatusIdle)
        (Update UpdateExamples.depsOne Schedule.calm UpdateExamples.fresh).2.2
      = [(false, .StatusIdle), (true, .StatusIdle), (true, .StatusRunning),
          (true, .StatusRunning), (true, .StatusRunning), (true, .StatusRunning),
          (true, .StatusRunning), (true, .StatusRunning), (true, .StatusRunning),
          (true, .StatusRunning), (true, .StatusIdle), (false, .StatusIdle),
          (false, .StatusIdle)] :=
  ⟨rfl, by decide, by decide, by decide⟩

/-- C18 as amended: a new service has status `IDLE`; an `Update` that has taken the lock
stores `RUNNING` as its next step, the status being `IDLE` with the lock held until then; the
status stays `RUNNING` through all the call does until the deferred function stores `IDLE`,
which it does before it unlocks and before it publishes, so the status is `IDLE` when the
call returns and after it, whether it returns an error or not; and in every state that the
calls pass through, from any state reachable between calls, status `RUNNING` implies that
the lock is held. -/
theorem status_lifecycle :
    (∀ d catalog st, NewService d catalog = .ok st →
      st.status = .StatusIdle ∧ st.locked = false) ∧
    (∀ d sched st, st.locked = false →
      (Update d sched st).2.1.status = .StatusIdle ∧
      (Update d sched st).2.1.locked = false) ∧
    (∀ st, Reachable st →
      st.status = .StatusIdle ∧ st.locked = false ∧
      (∀ d sched, ∃ body post, (Update d sched st).2.2
          = [.TryLock true, .StoreStatus .StatusRunning] ++ body
            ++ [.StoreStatus .StatusIdle, .Unlock] ++ post ∧
        protocolStates (st.locked, st.status) (Update d sched st).2.2
          = [(false, .StatusIdle), (true, .StatusIdle)]
            ++ List.replicate (body.length + 1) (true, .StatusRunning)
            ++ [(true, .StatusIdle)]
            ++ List.replicate (post.length + 1) (false, .StatusIdle)) ∧
      (∀ d sched, ∀ p ∈ protocolStates (st.locked, st.status) (Update d sched st).2.2,
        p.2 = .StatusRunning → p.1 = true) ∧
      (∀ d, ∀ p ∈ protocolStates (st.locked, st.status) (Drop d st).2.2,
        p.2 = .StatusRunning → p.1 = true)) := by
  refine ⟨?_, ?_, ?_⟩
  · intro d catalog st h
    rw [NewService_ok d catalog st h]
    exact ⟨rfl, rfl⟩
  · intro d sched st hfree
    rw [Update_free d sched st hfree]
    exact ⟨rfl, rfl⟩
  · intro st hst
    obtain ⟨hidle, hfree⟩ := Reachable_idle st hst
    refine ⟨hidle, hfree, fun d sched => Update_protocol d sched st hidle hfree, ?_, ?_⟩
    · intro d sched p hp hrun
      obtain ⟨body, post, _, hstates⟩ := Update_protocol d sched st hidle hfree
      rw [hstates] at hp
      simp only [List.mem_append, List.mem_cons, List.mem_singleton, List.not_mem_nil,
        or_false, List.mem_replicate] at hp
      rcases hp with ((((hp | hp) | ⟨_, hp⟩) | hp) | ⟨_, hp⟩) <;> subst hp <;>
        first
          | rfl
          | exact absurd hrun (by decide)
    · intro d p hp hrun
      rw [hidle, hfree] at hp
      have hdrop : (Drop d st).2.2 = [.Lock, .DropTable, .Unlock] := by
        unfold Drop
        cases d.db.dropErr <;> rfl
      rw [hdrop] at hp
      simp only [protocolStates, applyEffect, List.mem_cons, List.mem_singleton,
        List.not_mem_nil, or_false] at hp
      rcases hp with hp | hp | hp | hp <;> subst hp <;>
        first
          | rfl
          | exact absurd hrun (by decide)

/-- C19 fails when the context is cancelled after the producer has sent its last id: with
one missing id, sent before the cancellation and dropped by the worker at its check of the
context, `Update` closes the channel, waits, returns no error and publishes the event,
though nothing was fetched. -/
theorem Update_cancelled_late :
    ¬ UpdateExamples.cancelledLate.Uncancelled ∧
    Update UpdateExamples.depsOne UpdateExamples.cancelledLate UpdateExamples.fresh
      = (none, ⟨false, .StatusIdle, [], 1⟩,
        [.TryLock true, .StoreStatus .StatusRunning, .LastID, .IDs, .CloseJobs,
          .WaitWorkers, .StoreStatus .StatusIdle, .Unlock, .PublishDBUpdated]) := by
  constructor
  · rintro ⟨_, h⟩
    exact absurd (h 1) (by decide)
  · decide

/-- When the producer finds the context cancelled with ids still to send, `Update` closes the
channel, waits for the workers, returns the cancellation error and publishes nothing. -/
theorem Update_producer_cancelled (d : Deps) (sched : Schedule) (st : State) (last : Int)
    (k : Nat) (hfree : st.locked = false) (hlast : d.xkcd.LastID = .ok last)
    (hids : d.db.idsErr = none) (hstop : sched.producerStops = some k)
    (hk : k < (missingIDs last ((st.catalog.map Comics.ID).insertionSort (· ≤ ·))).length) :
    (Update d sched st).1 = some .ErrCanceled ∧
    Effect.CloseJobs ∈ (Update d sched st).2.2 ∧
    Effect.WaitWorkers ∈ (Update d sched st).2.2 ∧
    Effect.PublishDBUpdated ∉ (Update d sched st).2.2 := by
  have hbody : updateBody d sched st.catalog
      = (some .ErrCanceled,
        (workerLoop d (processed sched ((missingIDs last
          ((st.catalog.map Comics.ID).insertionSort (· ≤ ·))).take k)) st.catalog).1,
        [.LastID, .IDs] ++
          (workerLoop d (processed sched ((missingIDs last
            ((st.catalog.map Comics.ID).insertionSort (· ≤ ·))).take k)) st.catalog).2
          ++ [.CloseJobs, .WaitWorkers]) := by
    simp only [updateBody, hlast, IDs_ok d st.catalog hids, hstop, hk, if_true]
  have hpub := Update_silent d sched st
  have herr : (Update d sched st).1 = some .ErrCanceled := by
    rw [Update_free d sched st hfree, hbody]
  refine ⟨herr, ?_, ?_, (hpub (Or.inl ⟨_, herr⟩)).1⟩
  · apply mem_trace_of_mem_body d sched st hfree
    rw [hbody]
    simp
  · apply mem_trace_of_mem_body d sched st hfree
    rw [hbody]
    simp

end UpdateCore

/-! ## A failing rebuild -/

namespace SearchCore

theorem RebuildIndex_call_eq (s : Service) :
    s.RebuildIndex
      = match RebuildIndex s with
        | .error err => (some err, s)
        | .ok s' => (none, s') := by
  unfold Service.RebuildIndex RebuildIndex
  cases s.store.LoadIndexData <;> rfl

/-- C20: when `LoadIndexData` fails, `RebuildIndex` returns that error and the service, its
index included, is after the call exactly what it was before. -/
theorem RebuildIndex_failure (s : Service) (err : Err)
    (h : s.store.LoadIndexData = .error err) :
    s.RebuildIndex.1 = some err ∧ s.RebuildIndex.2 = s ∧
    s.RebuildIndex.2.index = s.index ∧ RebuildIndex s = .error err := by
  have h1 : s.RebuildIndex = (some err, s) := by
    simp [Service.RebuildIndex, h]
  have h2 : RebuildIndex s = .error err := by
    simp [RebuildIndex, h]
  rw [h1]
  exact ⟨rfl, rfl, rfl, h2⟩

/-- C20 on the scenario catalog with a store that cannot be read: the rebuild returns the
error of the store and the index of the three rows stays. -/
theorem RebuildIndex_failure_witness :
    Examples.serviceOffline.store.LoadIndexData = .error (.ErrOther 1) ∧
    Examples.serviceOffline.RebuildIndex.1 = some (.ErrOther 1) ∧
    Examples.serviceOffline.RebuildIndex.2.index
      = [("foo", [1]), ("bar", [1, 2]), ("baz", [2]), ("qux", [3])] ∧
    Examples.serviceOffline.RebuildIndex.2 = Examples.serviceOffline :=
  have h := RebuildIndex_failure Examples.serviceOffline (.ErrOther 1) rfl
  ⟨rfl, h.1, by decide, h.2.1⟩

end SearchCore

/-! ## The event indexer -/

namespace Indexer

open SearchCore

theorem run_messages (i : EventIndexer) (N : Nat) :
    (run i (List.replicate N .Message)).calls = i.calls ∧
      (run i (List.replicate N .Message)).svc = i.svc ∧
      (1 ≤ N → (run i (List.replicate N .Message)).pending = 1) ∧
      (N = 0 → run i (List.replicate N .Message) = i) := by
  induction N generalizing i with
  | zero => simp [run]
  | succ n ih =>
    have h := ih (step i .Message)
    simp only [run, List.replicate_succ, List.foldl_cons] at h ⊢
    refine ⟨h.1, h.2.1, fun _ => ?_, fun h0 => by omega⟩
    rcases Nat.eq_zero_or_pos n with h0 | h0
    · subst h0
      simp [step]
    · exact h.2.2.1 h0

/-- C21. In the step relation of the event indexer, N messages (N at least 1) followed by a
tick cause exactly one rebuild, made at that tick and not by the messages: the messages
leave the service and the record of the calls as they are, and the tick calls `RebuildIndex`
once, so that the service afterwards is the one that call leaves (with the index built from
the rows when the load succeeds), the record has grown by the outcome of that call, and
`pending` is 0. A tick that finds `pending` at 0 changes nothing and so rebuilds nothing. -/
theorem EventIndexer_debounce (N : Nat) (hN : 1 ≤ N) (i : EventIndexer)
    (load : Except Err (List (Int × List String))) :
    (run i (List.replicate N .Message)).calls = i.calls ∧
      (run i (List.replicate N .Message)).svc = i.svc ∧
      run i (List.replicate N .Message ++ [.Tick load])
        = ⟨0,
          (Service.RebuildIndex
            { i.svc with store := { i.svc.store with LoadIndexData := load } }).2,
          i.calls ++ [(Service.RebuildIndex
            { i.svc with store := { i.svc.store with LoadIndexData := load } }).1]⟩ ∧
      (∀ data, load = .ok data →
        (run i (List.replicate N .Message ++ [.Tick load])).svc.index = buildIndex data ∧
        (run i (List.replicate N .Message ++ [.Tick load])).calls = i.calls ++ [none]) ∧
      (run i (List.replicate N .Message ++ [.Tick load])).calls.length
        = i.calls.length + 1 ∧
      (run i (List.replicate N .Message ++ [.Tick load])).pending = 0 ∧
      (∀ j : EventIndexer, j.pending = 0 → step j (.Tick load) = j) := by
  obtain ⟨h1, h2, h3, -⟩ := run_messages i N
  have h3 := h3 hN
  have hrun : run i (List.replicate N .Message ++ [.Tick load])
      = ⟨0,
        (Service.RebuildIndex
          { i.svc with store := { i.svc.store with LoadIndexData := load } }).2,
        i.calls ++ [(Service.RebuildIndex
          { i.svc with store := { i.svc.store with LoadIndexData := load } }).1]⟩ := by
    have : run i (List.replicate N .Message ++ [.Tick load])
        = step (run i (List.replicate N .Message)) (.Tick load) := by
      simp [run, List.foldl_append]
    rw [this]
    simp only [step, h3, if_true, h1, h2]
  refine ⟨h1, h2, hrun, ?_, ?_, ?_, ?_⟩
  · intro data hdata
    rw [hrun, hdata]
    exact ⟨rfl, rfl⟩
  · rw [hrun]
    simp
  · rw [hrun]
  · intro j hj
    simp [step, hj]

theorem EventIndexer_debounce_witness :
    (run ⟨0, ⟨Examples.store, Examples.words, []⟩, []⟩
        (List.replicate 3 .Message ++ [.Tick (.ok Examples.snapshot)])).svc.index
        = [("foo", [1]), ("bar", [1, 2]), ("baz", [2]), ("qux", [3])] ∧
      (run ⟨0, ⟨Examples.store, Examples.words, []⟩, []⟩
        (List.replicate 3 .Message ++ [.Tick (.ok Examples.snapshot)])).calls = [none] ∧
      step ⟨0, ⟨Examples.store, Examples.words, []⟩, []⟩ (.Tick (.ok Examples.snapshot))
        = ⟨0, ⟨Examples.store, Examples.words, []⟩, []⟩ := by
  have h := EventIndexer_debounce 3 (by decide) ⟨0, ⟨Examples.store, Examples.words, []⟩, []⟩
    (.ok Examples.snapshot)
  have hb : buildIndex Examples.snapshot
      = [("foo", [1]), ("bar", [1, 2]), ("baz", [2]), ("qux", [3])] := by decide
  exact ⟨(h.2.2.2.1 _ rfl).1.trans hb, (h.2.2.2.1 _ rfl).2, h.2.2.2.2.2.2 _ rfl⟩

/-- C22, counterexample. A message, then a tick whose rebuild fails, then a second tick:
the failing tick leaves `pending` at 0, not at 1, and the second tick makes no further
attempt, so that `RebuildIndex` has been called once in all. -/
theorem pending_retry_counterexample :
    (run ⟨0, Examples.service, []⟩ [.Message, .Tick (.error (.ErrOther 1))]).pending = 0 ∧
      (run ⟨0, Examples.service, []⟩ [.Message, .Tick (.error (.ErrOther 1))]).calls
        = [some (.ErrOther 1)] ∧
      (run ⟨0, Examples.service, []⟩
        [.Message, .Tick (.error (.ErrOther 1)), .Tick (.ok Examples.snapshot)]).calls
        = [some (.ErrOther 1)] := by
  refine ⟨rfl, rfl, rfl⟩

/-- C22, as the code has it. A message sets `pending` to 1, and the tick that finds it set
clears it once the rebuild has returned, with or without an error: after a failed rebuild the
error is the outcome of the call, the index is the one before, `pending` is 0, and a second
tick with no message in between changes nothing. -/
theorem pending_cleared (i : EventIndexer) (e : Err)
    (load load' : Except Err (List (Int × List String))) :
    (step i .Message).pending = 1 ∧
      (step (step i .Message) (.Tick load)).pending = 0 ∧
      (step (step i .Message) (.Tick (.error e))).calls = i.calls ++ [some e] ∧
      (step (step i .Message) (.Tick (.error e))).svc.index = i.svc.index ∧
      step (step (step i .Message) (.Tick load)) (.Tick load')
        = step (step i .Message) (.Tick load) := by
  simp [step, Service.RebuildIndex]

end Indexer

/-! ## Loading the rows for the index -/

namespace SearchDB

open SearchCore

theorem dropWhile_of_head {α : Type} (p : α → Bool) (a : α) (l : List α) (h : p a = false) :
    (a :: l).dropWhile p = a :: l := by
  simp [List.dropWhile, h]

theorem Trim_braces (body : List Char)
    (hh : ∀ c, body.head? = some c → c ≠ '{' ∧ c ≠ '}')
    (hl : ∀ c, body.getLast? = some c → c ≠ '{' ∧ c ≠ '}') :
    Trim ('{' :: (body ++ ['}'])) ['{', '}'] = body := by
  cases body with
  | nil => simp [Trim, List.dropWhile]
  | cons a l =>
    have ha := hh a rfl
    have h1 : ('{' :: (a :: l ++ ['}'])).dropWhile (fun c => decide (c ∈ ['{', '}']))
        = a :: l ++ ['}'] := by
      rw [List.dropWhile_cons_of_pos (by simp)]
      rw [List.cons_append, List.dropWhile_cons_of_neg (by simp [ha.1, ha.2])]
    unfold Trim
    rw [h1, List.reverse_append, List.reverse_singleton, List.singleton_append,
      List.dropWhile_cons_of_pos (by simp)]
    obtain ⟨b, hb⟩ : ∃ b, (a :: l).getLast? = some b := by
      simp [List.getLast?_cons]
    have hbb := hl b hb
    have hrev : (a :: l).reverse = b :: ((a :: l).reverse).tail := by
      have : (a :: l).reverse.head? = some b := by rw [List.head?_reverse]; exact hb
      cases hr : (a :: l).reverse with
      | nil => rw [hr] at this; simp at this
      | cons x xs =>
        rw [hr] at this
        simp at this
        simp [this]
    rw [hrev, List.dropWhile_cons_of_neg (by simp [hbb.1, hbb.2]), ← hrev, List.reverse_reverse]

theorem intercalate_cons_cons (sep w : List Char) (y : List Char) (ys : List (List Char)) :
    sep.intercalate (w :: y :: ys) = w ++ sep ++ sep.intercalate (y :: ys) := by
  simp [List.intercalate, List.intersperse]

theorem head_intercalate (ws : List (List Char)) (c : Char)
    (h : ([','].intercalate ws).head? = some c) (hne : ∀ w ∈ ws, w ≠ []) :
    ∃ w ∈ ws, c ∈ w := by
  cases ws with
  | nil => simp [List.intercalate] at h
  | cons w rest =>
    refine ⟨w, by simp, ?_⟩
    have hw := hne w (by simp)
    cases w with
    | nil => exact absurd rfl hw
    | cons x xs =>
      cases rest with
      | nil =>
        simp [List.intercalate, List.intersperse] at h
        simp [h]
      | cons y ys =>
        rw [intercalate_cons_cons] at h
        simp at h
        simp [h]

theorem getLast_intercalate (ws : List (List Char)) (c : Char)
    (h : ([','].intercalate ws).getLast? = some c) (hne : ∀ w ∈ ws, w ≠ []) :
    ∃ w ∈ ws, c ∈ w := by
  induction ws with
  | nil => simp [List.intercalate] at h
  | cons w rest ih =>
    cases rest with
    | nil =>
      refine ⟨w, by simp, ?_⟩
      simp [List.intercalate, List.intersperse] at h
      exact List.mem_of_getLast?_eq_some h
    | cons y ys =>
      rw [intercalate_cons_cons] at h
      have hy : [','].intercalate (y :: ys) ≠ [] := by
        have := hne y (by simp)
        cases ys with
        | nil => simpa [List.intercalate, List.intersperse] using this
        | cons z zs => rw [intercalate_cons_cons]; simp [this]
      rw [List.getLast?_append_of_ne_nil _ hy] at h
      obtain ⟨v, hv, hc⟩ := ih h (fun v hv => hne v (List.mem_cons_of_mem _ hv))
      exact ⟨v, List.mem_cons_of_mem _ hv, hc⟩

theorem rowWords_arrayText (ws : List String)
    (h : ∀ w ∈ ws, w ≠ "" ∧ ',' ∉ w.data ∧ '{' ∉ w.data ∧ '}' ∉ w.data) :
    rowWords (arrayText ws) = ws := by
  have hne : ∀ w ∈ ws.map String.data, w ≠ [] := by
    intro w hw
    obtain ⟨v, hv, rfl⟩ := List.mem_map.1 hw
    intro h0
    exact (h v hv).1 (String.ext h0)
  have hbrace : ∀ c, (∃ w ∈ ws.map String.data, c ∈ w) → c ≠ '{' ∧ c ≠ '}' := by
    rintro c ⟨w, hw, hc⟩
    obtain ⟨v, hv, rfl⟩ := List.mem_map.1 hw
    exact ⟨fun e => (h v hv).2.2.1 (e ▸ hc), fun e => (h v hv).2.2.2 (e ▸ hc)⟩
  have htrim : Trim (arrayText ws).data ['{', '}']
      = [','].intercalate (ws.map String.data) :=
    Trim_braces _ (fun c hc => hbrace c (head_intercalate _ c hc hne))
      (fun c hc => hbrace c (getLast_intercalate _ c hc hne))
  unfold rowWords
  simp only [htrim]
  cases ws with
  | nil => simp [List.intercalate]
  | cons w rest =>
    have hbody : [','].intercalate ((w :: rest).map String.data) ≠ [] := by
      have hw := hne w.data (by simp)
      cases rest with
      | nil => simpa [List.intercalate, List.intersperse] using hw
      | cons y ys =>
        rw [List.map_cons, List.map_cons, intercalate_cons_cons]
        simp [hw]
    rw [if_neg hbody]
    unfold Split
    rw [List.splitOn_intercalate _ ',' _ (by simp)]
    · rw [List.map_map]
      have : (String.mk ∘ String.data) = id := by
        funext x
        rfl
      rw [this, List.map_id]
    · intro l hl
      obtain ⟨v, hv, rfl⟩ := List.mem_map.1 hl
      exact (h v hv).2.1

theorem loadRows_arrayText (rows : List (Int × List String))
    (h : ∀ r ∈ rows, ∀ w ∈ r.2, w ≠ "" ∧ ',' ∉ w.data ∧ '{' ∉ w.data ∧ '}' ∉ w.data)
    (data : List (Int × List String)) :
    loadRows (rows.map (fun r => .ok (r.1, arrayText r.2))) data
      = .ok (rows.foldl (fun m r => GoMap.mset m r.1 r.2) data) := by
  induction rows generalizing data with
  | nil => rfl
  | cons r rest ih =>
    rw [List.map_cons, loadRows, rowWords_arrayText r.2 (h r (by simp)), List.foldl_cons]
    exact ih (fun r' hr' => h r' (List.mem_cons_of_mem _ hr')) _

/-- C27. For every list of non-empty words free of commas and braces, the row loop of
`LoadIndexData` turns the array text of the list, the words joined by commas in braces, back
into the list itself, and the text of the empty array into the empty list; so a query that
yields such rows loads, for each id, the words of its last row. -/
theorem LoadIndexData_roundtrip (rows : List (Int × List String))
    (h : ∀ r ∈ rows, ∀ w ∈ r.2, w ≠ "" ∧ ',' ∉ w.data ∧ '{' ∉ w.data ∧ '}' ∉ w.data) :
    (∀ r ∈ rows, rowWords (arrayText r.2) = r.2) ∧
      arrayText [] = "{}" ∧ rowWords "{}" = [] ∧
      LoadIndexData (.ok (rows.map (fun r => .ok (r.1, arrayText r.2)), none))
        = .ok (rows.foldl (fun m r => GoMap.mset m r.1 r.2) []) := by
  refine ⟨fun r hr => rowWords_arrayText r.2 (h r hr), rfl, by decide, ?_⟩
  simp only [LoadIndexData, loadRows_arrayText rows h]

theorem LoadIndexData_roundtrip_witness :
    arrayText ["foo", "bar"] = "{foo,bar}" ∧ arrayText ["baz"] = "{baz}" ∧
      LoadIndexData (.ok ([.ok (1, "{foo,bar}"), .ok (2, "{}"), .ok (3, "{baz}")], none))
        = .ok [(1, ["foo", "bar"]), (2, []), (3, ["baz"])] :=
  ⟨rfl, rfl, (LoadIndexData_roundtrip [(1, ["foo", "bar"]), (2, []), (3, ["baz"])]
    (by decide)).2.2.2⟩

end SearchDB

/-! ## The normalizer -/

namespace WordsService

open GRPC SearchCore

theorem isSpace_toNat (c : Char) (h : isSpace c = true) :
    c.toNat ∈ [0x09, 0x0A, 0x0B, 0x0C, 0x0D, 0x20, 0x85, 0xA0, 0x1680, 0x2028, 0x2029, 0x202F,
      0x205F, 0x3000] ∨ (0x2000 ≤ c.toNat ∧ c.toNat ≤ 0x200A) := by
  have hv : ∀ n : UInt32, c.val = n → c.toNat = n.toNat := fun n hn => by
    rw [← hn]
    rfl
  simp only [isSpace, Bool.or_eq_true, Bool.and_eq_true, decide_eq_true_eq] at h
  rcases h with (((((((((((((h | h) | h) | h) | h) | h) | h) | h) | h) | h) | h) | h) | h) | h) | h
  · subst h; left; decide
  · subst h; left; decide
  · left; rw [hv _ h]; decide
  · left; rw [hv _ h]; decide
  · subst h; left; decide
  · subst h; left; decide
  · left; rw [hv _ h]; decide
  · left; rw [hv _ h]; decide
  · left; rw [hv _ h]; decide
  · right
    obtain ⟨h1, h2⟩ := h
    have h1' : (0x2000 : UInt32).toNat ≤ c.val.toNat := h1
    have h2' : c.val.toNat ≤ (0x200A : UInt32).toNat := h2
    exact ⟨h1', h2'⟩
  · left; rw [hv _ h]; decide
  · left; rw [hv _ h]; decide
  · left; rw [hv _ h]; decide
  · left; rw [hv _ h]; decide
  · left; rw [hv _ h]; decide

theorem wordChar_ToLower_space (c : Char) (h : isSpace c = true) :
    wordChar (ToLower c) = false := by
  have hn := isSpace_toNat c h
  simp only [List.mem_cons, List.mem_singleton, List.not_mem_nil, or_false] at hn
  have h1 : ¬ (0x41 ≤ c.toNat ∧ c.toNat ≤ 0x5A) := by omega
  have h2 : ¬ c.toNat = 0x212A := by omega
  have h3 : ¬ c.toNat = 0x130 := by omega
  have hl : ToLower c = c := by
    unfold ToLower
    rw [if_neg h1, if_neg h2, if_neg h3]
  rw [hl]
  unfold wordChar
  have h4 : ¬ (0x61 ≤ c.toNat ∧ c.toNat ≤ 0x7A) := by omega
  have h5 : ¬ (0x30 ≤ c.toNat ∧ c.toNat ≤ 0x39) := by omega
  simp only [Bool.or_eq_false_iff, Bool.and_eq_false_iff, decide_eq_false_iff_not]
  constructor
  · by_contra hc
    push_neg at hc
    exact h4 hc
  · by_contra hc
    push_neg at hc
    exact h5 hc

theorem FindAllString_spaces (cs : List Char) (h : ∀ c ∈ cs, isSpace c = true) :
    FindAllString (cs.map ToLower) [] = [] := by
  induction cs with
  | nil => rfl
  | cons c rest ih =>
    rw [List.map_cons, FindAllString,
      wordChar_ToLower_space c (h c (List.mem_cons_self _ _))]
    simp only [Bool.false_eq_true, if_false, if_true]
    exact ih (fun c' hc' => h c' (List.mem_cons_of_mem _ hc'))

theorem Normalize_spaces (lib : English) (phrase : String)
    (h : ∀ c ∈ phrase.data, isSpace c = true) : Normalize lib phrase = [] := by
  unfold Normalize
  split_ifs
  · rfl
  · simp only [FindAllString_spaces phrase.data h, stemTokens]

theorem utf8ByteSize_spaces (n : Nat) :
    (String.mk (List.replicate n ' ')).utf8ByteSize = n := by
  have h : ∀ m, String.utf8ByteSize.go (List.replicate m ' ') = m := by
    intro m
    induction m with
    | zero => rfl
    | succ k ih =>
      rw [List.replicate_succ, String.utf8ByteSize.go, ih]
      rfl
  exact h n

theorem Normalize_example :
    Normalize Examples.english "The Cats of Rome, 42!" = ["cat", "rome", "42"] := by
  decide

/-- C24, counterexample. The server answers the empty phrase with success and no words,
not with an error. -/
theorem Norm_empty_counterexample :
    Norm Examples.english (some "") = .ok [] ∧
      Norm Examples.english (some "") ≠ .error .InvalidArgument := by
  refine ⟨rfl, ?_⟩
  intro h
  cases h

/-- C24, as the code has it. The empty phrase is refused with `ErrBadArguments` by the
normalizer clients of the search and of the update service, before any call of the server;
the server itself fails with `InvalidArgument` on a missing request only, and answers the
empty phrase with success and no words. -/
theorem Norm_empty (lib : English) (rpc : String → Except Code (List String))
    (rpc' : UpdateCore.Bytes → Except Code (List String)) :
    SearchWords.Norm rpc "" = .error .ErrBadArguments ∧
      UpdateWords.Norm rpc' [] = .error .ErrBadArguments ∧
      Norm lib none = .error .InvalidArgument ∧
      Norm lib (some "") = .ok [] := by
  refine ⟨rfl, rfl, rfl, rfl⟩

/-- C25, counterexample. A phrase of 4097 blanks is made only of whitespace, and the server
refuses it with `ResourceExhausted`. -/
theorem Norm_spaces_counterexample :
    (∀ c ∈ (String.mk (List.replicate 4097 ' ')).data, isSpace c = true) ∧
      Norm Examples.english (some ⟨List.replicate 4097 ' '⟩) = .error .ResourceExhausted := by
  constructor
  · intro c hc
    rw [List.eq_of_mem_replicate hc]
    decide
  · unfold Norm
    simp only [utf8ByteSize_spaces]
    rw [if_pos (by decide)]

/-- C25, within the size bound. For the empty phrase and for every phrase made only of
whitespace and at most 4096 bytes long, the server's `Norm` succeeds and returns no
words. -/
theorem Norm_spaces (phrase : String) (h : ∀ c ∈ phrase.data, isSpace c = true)
    (hlen : phrase.utf8ByteSize ≤ 4096) (lib : English) :
    Norm lib (some phrase) = .ok [] ∧ Norm lib (some "") = .ok [] := by
  refine ⟨?_, rfl⟩
  have hs : tooLarge phrase.utf8ByteSize = false := by
    simp only [tooLarge, maxPhraseLen, decide_eq_false_iff_not]
    omega
  simp only [Norm, hs, Normalize_spaces lib phrase h]
  rfl

theorem Norm_spaces_witness :
    Norm Examples.english (some "   \t\n ") = .ok [] ∧
      Norm Examples.english (some "") = .ok [] :=
  Norm_spaces "   \t\n " (by decide) (by decide) Examples.english

end WordsService

/-! ## The size bound of the normalizer and its callers -/

namespace UpdateCore

theorem truncate_length (s : Bytes) (limit : Int) (hlimit : 0 ≤ limit) :
    (((truncateUTF8ToBytes s limit).getD []).length : Int) ≤ limit := by
  unfold truncateUTF8ToBytes
  split_ifs with h
  · simpa using h
  · obtain ⟨r, hr, -, hrl, hrs, -⟩ :=
      truncateLoop_spec s.length s limit 0 (by omega) (by omega) (by simpa using hlimit)
    simp only [hr, Option.map_some', Option.getD_some, List.length_take]
    omega

theorem workerIteration_norm (d : Deps) (catalog : List Comics) (id : Int) (p : Bytes)
    (he : Effect.Norm p ∈ (workerIteration d catalog id).2) : p.length ≤ 4096 := by
  unfold workerIteration at he
  cases hg : d.xkcd.Get id with
  | error err =>
    rw [hg] at he
    by_cases hnf : err = .ErrNotFound
    · simp [hnf] at he
    · simp [hnf] at he
  | ok info =>
    rw [hg] at he
    simp only [List.mem_cons, List.mem_singleton, List.not_mem_nil, or_false,
      Effect.Norm.injEq] at he
    rcases he with he | he | he
    · cases he
    · have h := truncate_length (info.Title ++ [0x20] ++ info.Description) maxWordsPhraseLen
        (by decide)
      rw [he]
      simp only [maxWordsPhraseLen] at h ⊢
      omega
    · cases he

theorem workerLoop_norm (d : Deps) (jobs : List Int) (catalog : List Comics) (p : Bytes)
    (he : Effect.Norm p ∈ (workerLoop d jobs catalog).2) : p.length ≤ 4096 := by
  induction jobs generalizing catalog with
  | nil => simp [workerLoop] at he
  | cons j rest ih =>
    simp only [workerLoop, List.mem_append] at he
    rcases he with he | he
    · exact workerIteration_norm d catalog j p he
    · exact ih _ he

theorem body_norm (d : Deps) (sched : Schedule) (catalog : List Comics) (p : Bytes)
    (he : Effect.Norm p ∈ (updateBody d sched catalog).2.2) : p.length ≤ 4096 := by
  have hloop : ∀ jobs : List Int,
      Effect.Norm p ∈ ([Effect.LastID, Effect.IDs] ++ (workerLoop d jobs catalog).2
        ++ [Effect.CloseJobs, Effect.WaitWorkers]) → p.length ≤ 4096 := by
    intro jobs hmem
    simp only [List.mem_append, List.mem_cons, List.mem_singleton, List.not_mem_nil,
      or_false] at hmem
    rcases hmem with (h | h) | h
    · rcases h with h | h <;> cases h
    · exact workerLoop_norm d jobs catalog p h
    · rcases h with h | h <;> cases h
  unfold updateBody at he
  split at he
  · simp at he
  · split at he
    · simp at he
    · split at he
      · simp only at he
        split_ifs at he
        · exact hloop _ he
        · exact hloop _ he
      · exact hloop _ he

theorem Update_norm (d : Deps) (sched : Schedule) (st : State) (p : Bytes)
    (he : Effect.Norm p ∈ (Update d sched st).2.2) : p.length ≤ 4096 := by
  by_cases hl : st.locked = true
  · simp [Update, hl] at he
  · have hb : Effect.Norm p ∈ (updateBody d sched st.catalog).2.2 := by
      unfold Update at he
      rw [if_neg hl] at he
      simp only [List.mem_append, List.mem_cons, List.mem_singleton, List.not_mem_nil,
        or_false] at he
      rcases he with ((he | he) | he) | he
      · rcases he with he | he <;> cases he
      · exact he
      · rcases he with he | he <;> cases he
      · split_ifs at he
        · simp at he
        · simp at he
    exact body_norm d sched st.catalog p hb

end UpdateCore

namespace SearchCore

theorem sanitizePhrase_bound (phrase q : String) (h : sanitizePhrase phrase = .ok q) :
    q.utf8ByteSize ≤ 4096 := by
  unfold sanitizePhrase at h
  simp only at h
  split_ifs at h with h1 h2
  simp only [Except.ok.injEq] at h
  rw [← h]
  simp only [maxPhraseLen] at h2
  omega

theorem Search_words (s : Service) (w : Words) (params : SearchParams)
    (h : ∀ q, q.utf8ByteSize ≤ 4096 → w.Norm q = s.words.Norm q) :
    Search { s with words := w } params = Search s params := by
  unfold Search
  cases normalizeLimit params.Limit with
  | error e => rfl
  | ok limit =>
    cases hs : sanitizePhrase params.Phrase with
    | error e => rfl
    | ok q =>
      simp only [h q (sanitizePhrase_bound _ _ hs)]

theorem ISearch_words (s : Service) (w : Words) (params : SearchParams)
    (h : ∀ q, q.utf8ByteSize ≤ 4096 → w.Norm q = s.words.Norm q) :
    ISearch { s with words := w } params = ISearch s params := by
  unfold ISearch
  cases normalizeLimit params.Limit with
  | error e => rfl
  | ok limit =>
    cases hs : sanitizePhrase params.Phrase with
    | error e => rfl
    | ok q =>
      simp only [h q (sanitizePhrase_bound _ _ hs)]
      rfl

end SearchCore

namespace WordsService

open GRPC SearchCore UpdateCore

theorem Norm_tooLarge (lib : English) (phrase : String) :
    Norm lib (some phrase) = .error .ResourceExhausted ↔ phrase.utf8ByteSize > 4096 := by
  unfold Norm
  by_cases h : phrase.utf8ByteSize > 4096
  · simp [tooLarge, maxPhraseLen, h]
  · simp [tooLarge, maxPhraseLen, h]

/-- C26. The phrase `Search` and `ISearch` hand to the normalizer is the sanitized phrase,
at most 4096 bytes long: their result is the same for any two normalizers that agree on the
phrases of at most 4096 bytes. Every phrase in a `Norm` call of an `Update` is at most 4096
bytes long. The server's `Norm` answers `ResourceExhausted` exactly when the phrase is longer
than 4096 bytes, so that neither caller meets this answer: behind the server's size check
the service answers as without it. -/
theorem callers_within_bound (s : Service) (params : SearchParams) (w : SearchCore.Words)
    (d : Deps) (sched : Schedule) (st : State) (lib : English) :
    (∀ q, sanitizePhrase params.Phrase = .ok q →
        q.utf8ByteSize ≤ 4096 ∧ tooLarge q.utf8ByteSize = false) ∧
      ((∀ q, q.utf8ByteSize ≤ 4096 → w.Norm q = s.words.Norm q) →
        Search { s with words := w } params = Search s params ∧
          ISearch { s with words := w } params = ISearch s params) ∧
      (∀ p, Effect.Norm p ∈ (Update d sched st).2.2 →
        p.length ≤ 4096 ∧ tooLarge p.length = false) ∧
      (∀ phrase : String,
        Norm lib (some phrase) = .error .ResourceExhausted ↔ phrase.utf8ByteSize > 4096) := by
  have ht : ∀ n : Nat, n ≤ 4096 → tooLarge n = false := by
    intro n hn
    simp only [tooLarge, maxPhraseLen, decide_eq_false_iff_not]
    omega
  refine ⟨fun q hq => ?_, fun h => ⟨Search_words s w params h, ISearch_words s w params h⟩,
    fun p hp => ?_, Norm_tooLarge lib⟩
  · exact ⟨sanitizePhrase_bound _ _ hq, ht _ (sanitizePhrase_bound _ _ hq)⟩
  · exact ⟨Update_norm d sched st p hp, ht _ (Update_norm d sched st p hp)⟩

theorem callers_within_bound_witness :
    Effect.Norm [0x61, 0x20, 0x62]
        ∈ (Update UpdateExamples.depsOne Schedule.calm UpdateExamples.fresh).2.2 ∧
      ([0x61, 0x20, 0x62] : Bytes).length ≤ 4096 ∧
      sanitizePhrase " foo bar " = .ok "foo bar" ∧ "foo bar".utf8ByteSize ≤ 4096 :=
  ⟨by decide,
    ((callers_within_bound Examples.service ⟨" foo bar ", 0⟩ Examples.words
      UpdateExamples.depsOne Schedule.calm UpdateExamples.fresh Examples.english).2.2.1
        [0x61, 0x20, 0x62] (by decide)).1,
    rfl,
    ((callers_within_bound Examples.service ⟨" foo bar ", 0⟩ Examples.words
      UpdateExamples.depsOne Schedule.calm UpdateExamples.fresh Examples.english).1
        "foo bar" rfl).1⟩

end WordsService

/-! ## The request loop of the upstream client -/

namespace UpdateXKCD

open UpdateCore

theorem getJSONLoop_exit {α : Type} (u : Upstream α) (fuel sent : Nat) (e : Err) :
    getJSONLoop u (fuel + 1) 3 sent (some e) = some (.error e, sent) := by
  simp [getJSONLoop]

theorem afterResponse_wait {α : Type} (attempt : Nat) (resp : Response α) (a : Nat) (e : Err)
    (h : afterResponse attempt resp = .Wait a e) :
    (a = attempt ∧ retryable resp) ∨
      (a = 2 ∧ ∃ s b, resp = .Answered s b ∧ s ≠ 200 ∧ s ≠ 404 ∧ s < 500) := by
  cases resp with
  | Failed code =>
    simp only [afterResponse, Outcome.Wait.injEq] at h
    exact Or.inl ⟨h.1.symm, trivial⟩
  | Answered s b =>
    simp only [afterResponse] at h
    split_ifs at h with h1 h2 h3
    · simp only [Outcome.Wait.injEq] at h
      exact Or.inl ⟨h.1.symm, Or.inl h3⟩
    · simp only [Outcome.Wait.injEq] at h
      exact Or.inr ⟨h.1.symm, s, b, rfl, h2, h1, by omega⟩
    · cases b with
      | none =>
        simp only [Outcome.Wait.injEq] at h
        refine Or.inl ⟨h.1.symm, Or.inr ⟨?_, rfl⟩⟩
        by_contra hc
        exact h2 hc
      | some out => simp at h

theorem afterResponse_return {α : Type} (attempt : Nat) (resp : Response α)
    (r : Except Err (Option α)) (h : afterResponse attempt resp = .Return r) :
    (∃ b, resp = .Answered 404 b ∧ r = .error .ErrNotFound) ∨
      (∃ out, resp = .Answered 200 (some out) ∧ r = .ok (some out)) := by
  cases resp with
  | Failed code => simp [afterResponse] at h
  | Answered s b =>
    simp only [afterResponse] at h
    split_ifs at h with h1 h2 h3
    · simp only [Outcome.Return.injEq] at h
      exact Or.inl ⟨b, by rw [h1], h.symm⟩
    · cases b with
      | none => simp at h
      | some out =>
        simp only [Outcome.Return.injEq] at h
        have : s = 200 := by
          by_contra hc
          exact h2 hc
        exact Or.inr ⟨out, by rw [this], h.symm⟩

theorem afterResponse_notFound {α : Type} (attempt : Nat) (b : Option α) :
    afterResponse attempt (.Answered 404 b) = .Return (.error .ErrNotFound) := by
  simp [afterResponse]

theorem afterResponse_ok {α : Type} (attempt : Nat) (out : α) :
    afterResponse attempt (.Answered 200 (some out)) = .Return (.ok (some out)) := by
  simp [afterResponse]

theorem afterResponse_client {α : Type} (attempt : Nat) (s : Nat) (b : Option α)
    (h1 : s ≠ 200) (h2 : s ≠ 404) (h3 : s < 500) :
    afterResponse attempt (.Answered s b) = .Wait 2 (.ErrOther s) := by
  have h4 : ¬ s ≥ 500 := by omega
  simp [afterResponse, h1, h2, h4]

theorem getJSONLoop_spec {α : Type} (u : Upstream α) (fuel attempt sent : Nat)
    (lastErr : Option Err) (hfuel : 3 - attempt < fuel) :
    ∃ r n, getJSONLoop u fuel attempt sent lastErr = some (r, n) ∧ sent ≤ n ∧
      n ≤ sent + (3 - attempt) ∧
      (attempt < 3 → u.newRequest = none → sent + 1 ≤ n) ∧
      (∀ k, sent ≤ k → k + 1 < n → retryable (u.respond k)) ∧
      (∀ k, sent ≤ k → k < n → ∀ b, u.respond k = .Answered 404 b →
        k + 1 = n ∧ r = .error .ErrNotFound) ∧
      (∀ k, sent ≤ k → k < n → ∀ s b, u.respond k = .Answered s b → s ≠ 200 → s ≠ 404 →
        s < 500 → k + 1 = n ∧ ∃ e, r = .error e) ∧
      (∀ k, sent ≤ k → k < n → ∀ out, u.respond k = .Answered 200 (some out) →
        k + 1 = n ∧ r = .ok (some out)) := by
  induction fuel generalizing attempt sent lastErr with
  | zero => omega
  | succ fuel ih =>
    by_cases ha : attempt < 3
    · cases hreq : u.newRequest with
      | some err =>
        refine ⟨.error err, sent, by simp [getJSONLoop, ha, hreq], le_refl _, by omega,
          fun _ h => by simp at h, fun k h1 h2 => by omega, fun k h1 h2 => by omega,
          fun k h1 h2 => by omega, fun k h1 h2 => by omega⟩
      | none =>
        cases hout : afterResponse attempt (u.respond sent) with
        | Return r =>
          refine ⟨r, sent + 1, by simp [getJSONLoop, ha, hreq, hout], by omega, by omega,
            fun _ _ => le_refl _, fun k h1 h2 => by omega, ?_, ?_, ?_⟩
          · intro k h1 h2 b hb
            have hk : k = sent := by omega
            subst hk
            rw [hb, afterResponse_notFound] at hout
            simp only [Outcome.Return.injEq] at hout
            exact ⟨rfl, hout.symm⟩
          · intro k h1 h2 s b hb hs1 hs2 hs3
            have hk : k = sent := by omega
            subst hk
            rw [hb, afterResponse_client attempt s b hs1 hs2 hs3] at hout
            cases hout
          · intro k h1 h2 out hb
            have hk : k = sent := by omega
            subst hk
            rw [hb, afterResponse_ok] at hout
            simp only [Outcome.Return.injEq] at hout
            exact ⟨rfl, hout.symm⟩
        | Wait a e =>
          have hw := afterResponse_wait attempt (u.respond sent) a e hout
          by_cases hc : u.cancelled sent = true
          · refine ⟨.error .ErrCanceled, sent + 1, by simp [getJSONLoop, ha, hreq, hout, hc],
              by omega, by omega, fun _ _ => le_refl _, fun k h1 h2 => by omega, ?_, ?_, ?_⟩
            · intro k h1 h2 b hb
              have hk : k = sent := by omega
              subst hk
              rw [hb, afterResponse_notFound] at hout
              cases hout
            · intro k h1 h2 s b hb hs1 hs2 hs3
              exact ⟨by omega, _, rfl⟩
            · intro k h1 h2 out hb
              have hk : k = sent := by omega
              subst hk
              rw [hb, afterResponse_ok] at hout
              cases hout
          · have hstep : getJSONLoop u (fuel + 1) attempt sent lastErr
                = getJSONLoop u fuel (a + 1) (sent + 1) (some e) := by
              simp [getJSONLoop, ha, hreq, hout, hc]
            have hage : attempt ≤ a := by
              rcases hw with ⟨h, -⟩ | ⟨h, -⟩ <;> omega
            obtain ⟨r, n, hrun, hn1, hn2, -, hretry, h404, h4xx, h200⟩ :=
              ih (a + 1) (sent + 1) (some e) (by omega)
            have hlast : a = 2 → n = sent + 1 ∧ r = .error e := by
              intro h2
              subst h2
              obtain ⟨f, hf⟩ : ∃ f, fuel = f + 1 := ⟨fuel - 1, by omega⟩
              rw [hf, getJSONLoop_exit] at hrun
              simp only [Option.some.injEq, Prod.mk.injEq] at hrun
              exact ⟨hrun.2.symm, hrun.1.symm⟩
            refine ⟨r, n, by rw [hstep, hrun], by omega, by omega, fun _ _ => by omega,
              ?_, ?_, ?_, ?_⟩
            · intro k h1 h2
              rcases Nat.eq_or_lt_of_le h1 with hk | hk
              · subst hk
                rcases hw with ⟨-, h⟩ | ⟨h, -⟩
                · exact h
                · have := (hlast h).1
                  omega
              · exact hretry k hk h2
            · intro k h1 h2 b hb
              rcases Nat.eq_or_lt_of_le h1 with hk | hk
              · subst hk
                rw [hb, afterResponse_notFound] at hout
                cases hout
              · exact h404 k hk h2 b hb
            · intro k h1 h2 s b hb hs1 hs2 hs3
              rcases Nat.eq_or_lt_of_le h1 with hk | hk
              · subst hk
                rw [hb, afterResponse_client attempt s b hs1 hs2 hs3] at hout
                simp only [Outcome.Wait.injEq] at hout
                have := hlast hout.1.symm
                exact ⟨this.1.symm, e, this.2⟩
              · exact h4xx k hk h2 s b hb hs1 hs2 hs3
            · intro k h1 h2 out hb
              rcases Nat.eq_or_lt_of_le h1 with hk | hk
              · subst hk
                rw [hb, afterResponse_ok] at hout
                cases hout
              · exact h200 k hk h2 out hb
    · cases lastErr with
      | none =>
        exact ⟨.ok none, sent, by simp [getJSONLoop, ha], le_refl _, by omega,
          fun h => absurd h ha, fun k h1 h2 => by omega, fun k h1 h2 => by omega,
          fun k h1 h2 => by omega, fun k h1 h2 => by omega⟩
      | some err =>
        exact ⟨.error err, sent, by simp [getJSONLoop, ha], le_refl _, by omega,
          fun h => absurd h ha, fun k h1 h2 => by omega, fun k h1 h2 => by omega,
          fun k h1 h2 => by omega, fun k h1 h2 => by omega⟩

/-- C23. Whatever the upstream answers, `getJSON` returns after at most 3 requests (and at
least one when the request can be built). A request is followed by a further one only if it
failed in transport, was answered with a status of 500 or more, or with a 200 whose body
cannot be decoded. A 404 is the last request and the call returns `ErrNotFound`; any other
status below 500 that is not 200 is the last request and the call returns an error; a 200
with a body that can be decoded is the last request and the call returns its value. -/
theorem getJSON_spec {α : Type} (u : Upstream α) :
    ∃ r n, getJSON u = some (r, n) ∧ n ≤ 3 ∧ (u.newRequest = none → 1 ≤ n) ∧
      (∀ k, k + 1 < n → retryable (u.respond k)) ∧
      (∀ k, k < n → ∀ b, u.respond k = .Answered 404 b →
        k + 1 = n ∧ r = .error .ErrNotFound) ∧
      (∀ k, k < n → ∀ s b, u.respond k = .Answered s b → s ≠ 200 → s ≠ 404 → s < 500 →
        k + 1 = n ∧ ∃ e, r = .error e) ∧
      (∀ k, k < n → ∀ out, u.respond k = .Answered 200 (some out) →
        k + 1 = n ∧ r = .ok (some out)) := by
  obtain ⟨r, n, hrun, -, hn, h1, hretry, h404, h4xx, h200⟩ :=
    getJSONLoop_spec u 4 0 0 none (by omega)
  exact ⟨r, n, hrun, by omega, fun h => by have := h1 (by omega) h; omega,
    fun k hk => hretry k (Nat.zero_le _) hk, fun k hk => h404 k (Nat.zero_le _) hk,
    fun k hk => h4xx k (Nat.zero_le _) hk, fun k hk => h200 k (Nat.zero_le _) hk⟩

theorem getJSON_flaky :
    getJSON UpdateExamples.flaky = some (.ok (some ⟨7, "u7", [0x61], [0x62], [0x63]⟩), 3) ∧
      getJSON UpdateExamples.forbidden = some (.error (.ErrOther 403), 1) := by
  constructor <;> rfl

end UpdateXKCD

/-! ## The gateway's search route -/

namespace Gateway

open GRPC SearchGRPC

theorem ParseLimit_range (s : String) (v : Int) (h : ParseLimit s = .ok v) :
    1 ≤ v ∧ v < 2 ^ 63 := by
  unfold ParseLimit at h
  split_ifs at h with h0
  · simp only [Except.ok.injEq, DefaultLimit] at h
    omega
  · cases ha : Atoi s with
    | none => simp [ha] at h
    | some w =>
      simp only [ha] at h
      split_ifs at h with h1
      simp only [Except.ok.injEq] at h
      subst h
      unfold Atoi at ha
      simp only at ha
      split at ha
      · cases ha
      · rename_i n _
        generalize signed _ n = v at ha
        split_ifs at ha with h2
        simp only [Option.some.injEq] at ha
        subst ha
        push_neg at h2
        omega

theorem searchParams_limit (phrase : String) (limit : Int) :
    (searchParams (searchRequest phrase limit)).Limit = limit % 2 ^ 32 ∧
      (searchParams (searchRequest phrase limit)).Phrase = phrase := by
  refine ⟨?_, rfl⟩
  simp only [searchParams, searchRequest, toUint32]
  exact Int.toNat_of_nonneg (Int.emod_nonneg _ (by norm_num))

theorem Search_service (service : SearchCore.SearchParams →
      Except SearchCore.Err SearchCore.SearchResult) (phrase : String) (limit : Int) :
    Search (SearchGRPC.Search service) phrase limit
      = Search (SearchGRPC.Search (fun _ => service ⟨phrase, limit % 2 ^ 32⟩))
          phrase limit := by
  have hp : searchParams (searchRequest phrase limit) = ⟨phrase, limit % 2 ^ 32⟩ := by
    have h := searchParams_limit phrase limit
    cases hq : searchParams (searchRequest phrase limit) with
    | mk p l =>
      rw [hq] at h
      simp only at h
      rw [h.1, h.2]
  simp only [Search, SearchGRPC.Search, hp]

theorem apiSearch_blank (svc : SearchCore.Service) (phrase limitStr : String) (limit : Int)
    (hl : ParseLimit limitStr = .ok limit) (hne : phrase ≠ "")
    (hblank : SearchCore.trimSpace phrase = "") :
    apiSearch svc phrase limitStr = (500, none) := by
  have hr := ParseLimit_range limitStr limit hl
  have hpos : ¬ limit ≤ 0 := by omega
  have hm : 0 ≤ limit % 2 ^ 32 := Int.emod_nonneg _ (by norm_num)
  have hcore : SearchCore.Search svc ⟨phrase, limit % 2 ^ 32⟩ = .error .ErrBadArguments := by
    unfold SearchCore.Search
    have hsan : SearchCore.sanitizePhrase phrase = .error .ErrBadArguments := by
      simp [SearchCore.sanitizePhrase, hblank]
    generalize limit % 2 ^ 32 = x at hm
    have h1 : ¬ x < 0 := by omega
    simp only [SearchCore.normalizeLimit, if_neg h1]
    split_ifs <;> simp only [hsan]
  unfold apiSearch SearchHandler
  rw [hl]
  simp only [if_neg hne]
  rw [Search_service]
  simp only [Search, if_neg hne, if_neg hpos, SearchGRPC.Search, hcore]
  rfl

theorem apiSearch_empty (svc : SearchCore.Service) (limitStr : String) :
    (apiSearch svc "" limitStr).1 = 400 := by
  unfold apiSearch SearchHandler
  cases ParseLimit limitStr with
  | error e => rfl
  | ok limit => rfl

/-- C28. A request for the phrase of one blank, whose limit is valid, is answered with 500
and not with 400, whatever the state of the search service: the core refuses the phrase
with `ErrBadArguments`, the search server turns that into `InvalidArgument`, and the
gateway's search client hands the status error on as it is, which the handler does not
recognise as a bad phrase. The empty phrase is answered with 400. -/
theorem apiSearch_whitespace (svc : SearchCore.Service) :
    apiSearch svc " " "5" = (500, none) ∧
      SearchGRPC.Search (SearchCore.Search svc) (searchRequest " " 5)
        = .error .InvalidArgument ∧
      Search (SearchGRPC.Search (SearchCore.Search svc)) " " 5
        = .error (.RPC .InvalidArgument) ∧
      (apiSearch svc "" "5").1 = 400 := by
  have h := apiSearch_blank svc " " "5" 5 rfl (by decide) (by decide)
  refine ⟨h, ?_, ?_, apiSearch_empty svc "5"⟩
  · rfl
  · rfl

/-- C30, counterexample. `ParseLimit` accepts the limit 4294967296, which is 2^32; the
request carries it as 0, the core receives 0 and takes it for 10. -/
theorem limit_wraps_counterexample :
    ParseLimit "4294967296" = .ok 4294967296 ∧
      searchRequest "foo" 4294967296 = ⟨"foo", 0⟩ ∧
      (searchParams (searchRequest "foo" 4294967296)).Limit = 0 ∧
      SearchCore.normalizeLimit 0 = .ok 10 := by
  refine ⟨rfl, by decide, by decide, rfl⟩

/-- C30, with the bound. A limit accepted by `ParseLimit` is at least 1 and below 2^63; the
core receives it reduced modulo 2^32, from whatever the core's `Search` is called with; so
it receives the limit itself when the limit is below 2^32, and another, smaller number when
the limit is 2^32 or more. -/
theorem limit_conversion (s : String) (v : Int) (h : ParseLimit s = .ok v) (phrase : String)
    (service : SearchCore.SearchParams → Except SearchCore.Err SearchCore.SearchResult) :
    1 ≤ v ∧ v < 2 ^ 63 ∧
      (searchParams (searchRequest phrase v)).Limit = v % 2 ^ 32 ∧
      Search (SearchGRPC.Search service) phrase v
        = Search (SearchGRPC.Search (fun _ => service ⟨phrase, v % 2 ^ 32⟩)) phrase v ∧
      (v < 2 ^ 32 → (searchParams (searchRequest phrase v)).Limit = v) ∧
      (2 ^ 32 ≤ v → (searchParams (searchRequest phrase v)).Limit < v) := by
  have hr := ParseLimit_range s v h
  have hl := (searchParams_limit phrase v).1
  refine ⟨hr.1, hr.2, hl, Search_service service phrase v, fun hv => ?_, fun hv => ?_⟩
  · rw [hl]
    exact Int.emod_eq_of_lt (by omega) hv
  · rw [hl]
    have : v % 2 ^ 32 < 2 ^ 32 := Int.emod_lt_of_pos _ (by norm_num)
    omega

theorem limit_conversion_witness :
    ParseLimit "25" = .ok 25 ∧ (searchParams (searchRequest "foo" 25)).Limit = 25 :=
  ⟨rfl,
    (limit_conversion "25" 25 rfl "foo" (SearchCore.Search Examples.service)).2.2.2.2.1
      (by decide)⟩

end Gateway

/-! ## Ranking through the index and ranking the catalog directly -/

namespace SearchCore

open GoMap

instance (m : Int → Nat) : IsTotal Int (directOrder m) where
  total a b := by
    unfold directOrder
    omega

instance (m : Int → Nat) : IsTrans Int (directOrder m) where
  trans a b c := by
    unfold directOrder
    omega

instance (m : Int → Nat) : IsAntisymm Int (directOrder m) where
  antisymm a b := by
    unfold directOrder
    omega

theorem mem_posting_buildIndex (data : List (Int × List String))
    (hkeys : (data.map Prod.fst).Nodup) (t : String) (id : Int) :
    id ∈ (mget (buildIndex data) t).getD [] ↔ t ≠ "" ∧ t ∈ (mget data id).getD [] := by
  rw [mget_buildIndex]
  have hrow := mem_rowsOf data hkeys t id
  have hget : (∃ words, mget data id = some words ∧ t ∈ words)
      ↔ t ∈ (mget data id).getD [] := by
    cases mget data id with
    | none => simp
    | some ws => simp
  by_cases h : rowsOf data t = []
  · rw [if_pos h]
    rw [h] at hrow
    simp only [Option.getD_none, List.not_mem_nil, false_iff] at hrow ⊢
    rw [← hget]
    exact hrow
  · rw [if_neg h]
    simp only [Option.getD_some]
    rw [(sortInts_perm _).mem_iff, hrow, hget]

theorem nodup_posting_buildIndex (data : List (Int × List String))
    (hkeys : (data.map Prod.fst).Nodup) (t : String) (ids : List Int)
    (h : mget (buildIndex data) t = some ids) : ids.Nodup := by
  rw [mget_buildIndex] at h
  split_ifs at h
  simp only [Option.some.injEq] at h
  rw [← h]
  exact (sortInts_perm _).nodup_iff.2 (nodup_rowsOf data hkeys t)

theorem nMatches_buildIndex (data : List (Int × List String))
    (hkeys : (data.map Prod.fst).Nodup) (terms : List String) (id : Int) :
    nMatches (buildIndex data) (deduplicateWords terms) id = directMatches data terms id := by
  unfold nMatches directMatches
  rw [deduplicateWords_eq]
  apply List.Perm.length_eq
  rw [List.perm_ext_iff_of_nodup ((nodup_keep terms []).filter _)
    ((List.nodup_dedup terms).filter _)]
  intro t
  simp only [List.mem_filter, decide_eq_true_eq, mem_keep, List.not_mem_nil,
    not_false_eq_true, and_true, List.mem_dedup, mem_posting_buildIndex data hkeys]
  tauto

theorem directMatches_pos (data : List (Int × List String)) (terms : List String) (id : Int)
    (h : directMatches data terms id > 0) : id ∈ keys data := by
  unfold directMatches at h
  obtain ⟨t, ht⟩ := List.exists_mem_of_length_pos h
  simp only [List.mem_filter, decide_eq_true_eq] at ht
  by_contra hid
  rw [(mget_eq_none data id).2 hid] at ht
  simp at ht

theorem nMatches_pos (index : Index) (ws : List String) (id : Int) :
    nMatches index ws id > 0 ↔ ∃ t ∈ ws, id ∈ (mget index t).getD [] := by
  unfold nMatches
  rw [gt_iff_lt, List.length_pos_iff_exists_mem]
  simp only [List.mem_filter, decide_eq_true_eq]

/-- C29. For every snapshot (a map: its ids are distinct) and every list of terms, after
`RebuildIndex` has loaded the snapshot `rankIDs` on the deduplicated terms returns the ids
with `m(id) > 0` sorted by `m` descending and then the id ascending, `m(id)` being the number
of distinct non-empty terms that occur among the words of row `id`: the ranking through the
index is the ranking of the catalog itself. -/
theorem rankIDs_refines (data : List (Int × List String))
    (hkeys : (data.map Prod.fst).Nodup) (s : Service)
    (hload : s.store.LoadIndexData = .ok data) (terms : List String) :
    (Service.RebuildIndex s).1 = none ∧
      rankIDs (Service.RebuildIndex s).2 (deduplicateWords terms) = directRank data terms := by
  have hre : Service.RebuildIndex s = (none, { s with index := buildIndex data }) := by
    simp [Service.RebuildIndex, hload]
  rw [hre]
  refine ⟨rfl, ?_⟩
  simp only
  set s' : Service := { s with index := buildIndex data } with hs'
  set ws := deduplicateWords terms with hws
  have hidx : ∀ t ids, mget s'.index t = some ids → ids.Nodup :=
    fun t ids h => nodup_posting_buildIndex data hkeys t ids h
  have hm : ∀ id, nMatches s'.index ws id = directMatches data terms id :=
    fun id => nMatches_buildIndex data hkeys terms id
  -- the two lists have the same members, each once
  have hperm : (rankIDs s' ws).Perm (directRank data terms) := by
    unfold directRank
    refine List.Perm.trans ?_ (List.perm_insertionSort _ _).symm
    rw [List.perm_ext_iff_of_nodup (nodup_rankIDs s' ws)
      (List.Nodup.filter _ (by simpa [keys] using hkeys))]
    intro id
    rw [mem_rankIDs, ← nMatches_pos, hm]
    simp only [List.mem_filter, decide_eq_true_eq]
    constructor
    · intro h
      exact ⟨directMatches_pos data terms id h, h⟩
    · intro h
      exact h.2
  -- both are sorted by the order of the ranking
  have hsorted : (rankIDs s' ws).Sorted (directOrder (directMatches data terms)) := by
    rw [rankIDs_eq]
    unfold rankEntries
    rw [List.Sorted, List.pairwise_map]
    have h1 : (sortRanked (countWords s'.index ws [])).Pairwise notAfter :=
      sortRanked_sorted _
    refine h1.imp_of_mem ?_
    intro a b ha hb hab
    have ha2 := value_countWords s'.index ws hidx a ((sortRanked_perm _).mem_iff.1 ha)
    have hb2 := value_countWords s'.index ws hidx b ((sortRanked_perm _).mem_iff.1 hb)
    rw [notAfter_iff] at hab
    unfold directOrder
    rw [← hm, ← hm, ← ha2, ← hb2]
    exact hab
  exact List.eq_of_perm_of_sorted hperm hsorted (List.sorted_insertionSort _ _)

theorem rankIDs_refines_witness :
    (Examples.snapshot.map Prod.fst).Nodup ∧
      directRank Examples.snapshot ["bar", "baz", "", "bar"] = [2, 1] ∧
      rankIDs (Service.RebuildIndex Examples.service).2
        (deduplicateWords ["bar", "baz", "", "bar"]) = [2, 1] := by
  have h := rankIDs_refines Examples.snapshot (by decide) Examples.service rfl
    ["bar", "baz", "", "bar"]
  have hd : directRank Examples.snapshot ["bar", "baz", "", "bar"] = [2, 1] := by decide
  exact ⟨by decide, hd, h.2.trans hd⟩

end SearchCore
